import Mathlib

/-!
# Microdata extraction (`parser.go`): embedding and verified properties

The Go package walks every element carrying `itemprop`, reads its value
(`getPropVal`), resolves the enclosing scope (`getScope`) and assembles the
items (`Node.find`).  The HTML/XPath library is an external collaborator; it is
represented by what it hands to the package: element records (`Element`), the
ancestor axis of a property element (`XmlNode.ancestors`) and the outcome of the
property search (`Node.propNodes`).  A concrete tree type (`Html`) with its own
search functions is given as one realisation of that interface.

`*Item` pointers are addresses into an explicit memory (`Heap`); `makeItem`
allocates at the next free address.
-/

namespace Mcrdata

/-! ## Data model -/

/-- A property value: either a scalar string or a pointer to an item. -/
inductive Property where
  | plainData (s : String)
  | item (ptr : Nat)
  deriving DecidableEq, Repr

/-- One microdata item: its declared type and its `map[string][]Property`,
kept as an association list in order of first insertion. -/
structure Item where
  itemType : String
  properties : List (String × List Property)
  deriving DecidableEq, Repr

/-- The memory holding every `Item` allocated so far; a `*Item` is an index. -/
abbrev Heap := List Item

/-- Modelled from the spec: `makeItem` (its file is not part of the sources)
builds a fresh item of the given type with an empty property map.  The new
item lives at the first unused address. -/
def makeItem (heap : Heap) (itype : String) : Nat × Heap :=
  (heap.length, heap ++ [{ itemType := itype, properties := [] }])

/-- Append `val` to the sequence stored under `prop` in a property map. -/
def appendProp : List (String × List Property) → String → Property →
    List (String × List Property)
  | [], prop, val => [(prop, [val])]
  | (k, vs) :: rest, prop, val =>
    if k = prop then (k, vs ++ [val]) :: rest else (k, vs) :: appendProp rest prop val

/-- Modelled from the spec: `Item.addProp` (its file is not part of the
sources) appends the value to the sequence under the name; nothing is
overwritten. -/
def Item.addProp (it : Item) (prop : String) (val : Property) : Item :=
  { it with properties := appendProp it.properties prop val }

/-- The sequence of values an item holds under a name (empty when absent). -/
def Item.values (it : Item) (prop : String) : List Property :=
  (it.properties.lookup prop).getD []

/-- The method `addProp` called through a pointer: the item at `ptr` is updated in place. -/
def heapAddProp (heap : Heap) (ptr : Nat) (prop : String) (val : Property) : Heap :=
  match heap[ptr]? with
  | some it => heap.set ptr (it.addProp prop val)
  | none => heap

/-- The values that the item at address `ptr` holds under `prop`. -/
def valuesAt (heap : Heap) (ptr : Nat) (prop : String) : List Property :=
  match heap[ptr]? with
  | some it => it.values prop
  | none => []

/-- The declared type of the item at address `ptr`. -/
def typeAt (heap : Heap) (ptr : Nat) : String :=
  match heap[ptr]? with
  | some it => it.itemType
  | none => ""

/-- Modelled from the spec: `Property.Type()` (its file is not part of the
sources).  An item answers with its declared type; plain data answers with the
tag `"Text"`, the value `find` compares against before it converts a property
to `*Item`. -/
def Property.Type (heap : Heap) : Property → String
  | .plainData _ => "Text"
  | .item ptr => typeAt heap ptr

/-! ## The document adapter, as the package sees it -/

/-- An element as exposed by `Name()`, `Attributes()`, `Content()` and `Path()`. -/
structure Element where
  name : String
  attributes : List (String × String)
  content : String
  path : String
  deriving DecidableEq, Repr

/-- A property element together with the outcome of walking its ancestor axis
(`ancestor::*`): the ancestors in document order, outermost first, or the
failure reported by the adapter. -/
structure XmlNode extends Element where
  ancestors : Except String (List Element)

/-! ### The XPath texts and what they select

The package hands two expression texts to the XPath library: the constant
`ancestor::*[@itemscope and @itemtype]` and the template
`ancestor::*[@itemscope and @itemtype="%s"]` with the caller's type pasted in as it is.
The library is not part of the sources; what a text selects is decided here by reading
the text as XPath 1.0 does: it is cut into tokens (a string literal runs to the next
occurrence of its opening quote, there is no escape) and parsed with the precedence of
XPath (`=` before `and` before `or`).  The fragment covers predicates built from
attribute tests `@name`, string literals in double or single quotes, `=`, `and` and `or`.
A text outside the fragment is kept as it is and not evaluated (`unsupported`); no
statement below depends on what such a text selects. -/

/-- Tokens of a predicate: `@name`, a string literal, `=`, a bare name, `]`. -/
inductive Token where
  | attr (name : List Char)
  | lit (s : List Char)
  | eq
  | word (w : List Char)
  | close
  deriving DecidableEq, Repr

/-- What the scanner is in the middle of. -/
inductive Lex where
  | idle
  | attr (acc : List Char)
  | word (acc : List Char)
  | str (quote : Char) (acc : List Char)
  deriving DecidableEq, Repr

/-- Characters of a name. -/
def isNameChar (c : Char) : Bool :=
  c.isAlphanum || c == '-' || c == '_' || c == '.'

/-- White space between tokens. -/
def isSpace (c : Char) : Bool :=
  c == ' ' || c == '\t' || c == '\n' || c == '\r'

/-- The scanner meets `c` at the start of a token: the tokens completed by `c` alone and
what it is in the middle of afterwards; `none` for a character outside the fragment. -/
def startToken (c : Char) : Option (List Token × Lex) :=
  if isSpace c then some ([], .idle)
  else if c = '@' then some ([], .attr [])
  else if c = '"' then some ([], .str '"' [])
  else if c = '\'' then some ([], .str '\'' [])
  else if c = '=' then some ([.eq], .idle)
  else if c = ']' then some ([.close], .idle)
  else if c.isAlpha || c == '_' then some ([], .word [c])
  else none

/-- The tokens of a character sequence, `none` when it leaves the fragment.  A string
literal runs to the next occurrence of the quote that opened it. -/
def scan : Lex → List Char → Option (List Token)
  | .idle, [] => some []
  | .attr acc, [] => if acc = [] then none else some [.attr acc]
  | .word acc, [] => some [.word acc]
  | .str _ _, [] => none
  | .idle, c :: cs =>
    match startToken c with
    | none => none
    | some (out, lx) => (scan lx cs).map (fun ts => out ++ ts)
  | .attr acc, c :: cs =>
    if isNameChar c then scan (.attr (acc ++ [c])) cs
    else if acc = [] then none
    else
      match startToken c with
      | none => none
      | some (out, lx) => (scan lx cs).map (fun ts => .attr acc :: (out ++ ts))
  | .word acc, c :: cs =>
    if isNameChar c then scan (.word (acc ++ [c])) cs
    else
      match startToken c with
      | none => none
      | some (out, lx) => (scan lx cs).map (fun ts => .word acc :: (out ++ ts))
  | .str q acc, c :: cs =>
    if c = q then (scan .idle cs).map (fun ts => .lit acc :: ts)
    else scan (.str q (acc ++ [c])) cs

/-- An operand of a comparison: an attribute of the context element or a literal. -/
inductive Operand where
  | attr (name : String)
  | lit (s : String)
  deriving DecidableEq, Repr

/-- A predicate of the fragment. -/
inductive Pred where
  | truth (o : Operand)
  | eq (a b : Operand)
  | and (p q : Pred)
  | or (p q : Pred)
  deriving DecidableEq, Repr

/-- Cut a token list at every occurrence of the bare name `w`. -/
def splitAtWord (w : List Char) : List Token → List (List Token)
  | [] => [[]]
  | t :: ts =>
    if t = .word w then [] :: splitAtWord w ts
    else
      match splitAtWord w ts with
      | [] => [[t]]
      | g :: gs => (t :: g) :: gs

/-- An operand token. -/
def parseOperand : Token → Option Operand
  | .attr n => some (.attr (String.mk n))
  | .lit s => some (.lit (String.mk s))
  | _ => none

/-- A single operand or one comparison `a = b`. -/
def parseComparison : List Token → Option Pred
  | [a] => (parseOperand a).map .truth
  | [a, .eq, b] =>
    match parseOperand a, parseOperand b with
    | some x, some y => some (.eq x y)
    | _, _ => none
  | _ => none

/-- Combine a non-empty list of parsed parts, left to right. -/
def combine (op : Pred → Pred → Pred) : List (Option Pred) → Option Pred
  | [] => none
  | p :: ps => ps.foldl (fun acc q =>
      match acc, q with
      | some a, some b => some (op a b)
      | _, _ => none) p

/-- A conjunction: comparisons joined by `and`. -/
def parseAnd (ts : List Token) : Option Pred :=
  combine .and ((splitAtWord ['a', 'n', 'd'] ts).map parseComparison)

/-- A disjunction of conjunctions: `or` binds weaker than `and`. -/
def parseOr (ts : List Token) : Option Pred :=
  combine .or ((splitAtWord ['o', 'r'] ts).map parseAnd)

/-- Remove a prefix. -/
def stripPrefix : List Char → List Char → Option (List Char)
  | [], cs => some cs
  | _ :: _, [] => none
  | p :: ps, c :: cs => if p = c then stripPrefix ps cs else none

/-- The predicate of an expression text of the form `ancestor::*[ ... ]`. -/
def parsePredicate (text : String) : Option Pred :=
  match stripPrefix "ancestor::*[".toList text.toList with
  | none => none
  | some body =>
    match scan .idle body with
    | none => none
    | some ts =>
      match ts.getLast? with
      | some .close => parseOr ts.dropLast
      | _ => none

/-- The string value of an operand at an element, when there is one. -/
def Operand.value (el : Element) : Operand → Option String
  | .attr n => el.attributes.lookup n
  | .lit s => some s

/-- An operand taken as a truth value: an attribute is true when present, a literal when
not empty. -/
def Operand.holds (el : Element) : Operand → Bool
  | .attr n => (el.attributes.lookup n).isSome
  | .lit s => s != ""

/-- Truth of a predicate at an element. -/
def Pred.eval (el : Element) : Pred → Bool
  | .truth o => o.holds el
  | .eq a b =>
    match a.value el, b.value el with
    | some x, some y => x == y
    | _, _ => false
  | .and p q => p.eval el && q.eval el
  | .or p q => p.eval el || q.eval el

/-- A compiled ancestor search: `ancestor::*[pred]`, or a text outside the fragment, kept
as it is. -/
inductive Expression where
  | ancestors (pred : Pred)
  | unsupported (text : String)
  deriving DecidableEq, Repr

/-- The call `xpath.Compile(text)`. -/
def xpath.Compile (text : String) : Expression :=
  match parsePredicate text with
  | some pred => .ancestors pred
  | none => .unsupported text

/-- The variable `allScopePath`. -/
def allScopePath : Expression := xpath.Compile "ancestor::*[@itemscope and @itemtype]"

/-- The template `scopeSearchTmpl` filled with `itype` by `fmt.Sprintf` (the type is pasted
between the quotes unchanged) and compiled, as `Find` does. -/
def scopeSearchTmpl (itype : String) : Expression :=
  xpath.Compile ("ancestor::*[@itemscope and @itemtype=\"" ++ itype ++ "\"]")

/-- Whether an element passes the predicate between the brackets; an expression that is
not evaluated selects nothing. -/
def Expression.test : Expression → Element → Bool
  | .ancestors pred, el => pred.eval el
  | .unsupported _, _ => false

/-- The call `node.Search(expr)` for an ancestor expression: the ancestors passing the
predicate, in document order. -/
def XmlNode.Search (node : XmlNode) (expr : Expression) : Except String (List Element) :=
  match node.ancestors with
  | .ok as => .ok (as.filter expr.test)
  | .error e => .error e

/-- The search root: `basePath` and, standing for `root`, the outcome of
searching `basePath//*[@itemprop]` from it. -/
structure Node where
  basePath : String
  propNodes : Except String (List XmlNode)

/-! ## A concrete document tree realising the adapter -/

/-- A parsed document: text nodes and elements with attributes and children. -/
inductive Html where
  | text (s : String)
  | element (name : String) (attributes : List (String × String)) (children : List Html)

mutual
/-- Text content of a node: the text of all its descendants, in order. -/
def Html.content : Html → String
  | .text s => s
  | .element _ _ cs => Html.contentList cs
/-- Text content of a list of nodes. -/
def Html.contentList : List Html → String
  | [] => ""
  | c :: cs => c.content ++ Html.contentList cs
end

/-- Characters of a structural path: every step is a slash followed by as many
stars as the position of the child among its siblings. -/
def pathChars : List Nat → List Char
  | [] => []
  | i :: rest => '/' :: (List.replicate i '*' ++ pathChars rest)

/-- The string `Path()` gives for the node reached from the root by the child positions `idx`. -/
def encodePath (idx : List Nat) : String := String.mk (pathChars idx)

/-- The element record of the element `name attrs children` sitting at `idx`. -/
def Html.record (idx : List Nat) (name : String) (attrs : List (String × String))
    (children : List Html) : Element :=
  { name := name, attributes := attrs, content := Html.contentList children,
    path := encodePath idx }

mutual
/-- The elements carrying `itemprop` in the subtree `t` (sitting at `idx`, below the
ancestors `anc`), in document order, each with its ancestor axis. -/
def Html.propNodes (idx : List Nat) (anc : List Element) : Html → List XmlNode
  | .text _ => []
  | .element name attrs cs =>
    (if (attrs.lookup "itemprop").isSome then
        [{ toElement := Html.record idx name attrs cs, ancestors := .ok anc }]
      else []) ++
      Html.propNodesList idx (anc ++ [Html.record idx name attrs cs]) 0 cs
/-- The same for the children of one element, the first of which has position `i`. -/
def Html.propNodesList (idx : List Nat) (anc : List Element) : Nat → List Html → List XmlNode
  | _, [] => []
  | i, c :: cs => Html.propNodes (idx ++ [i]) anc c ++ Html.propNodesList idx anc (i + 1) cs
end

/-- The function `ParseXmlNode` applied to the root element of a document: the search
`basePath//*[@itemprop]` yields the proper descendants carrying `itemprop`. -/
def ParseXmlNode : Html → Node
  | .text _ => { basePath := encodePath [], propNodes := .ok [] }
  | .element name attrs cs =>
    { basePath := encodePath [],
      propNodes := .ok (Html.propNodesList [] [Html.record [] name attrs cs] 0 cs) }

/-! ## `strings.Split` with a one-character separator -/

/-- Cut a character list at every occurrence of `sep`. -/
def splitChars (sep : Char) : List Char → List (List Char)
  | [] => [[]]
  | c :: cs =>
    if c = sep then [] :: splitChars sep cs
    else
      match splitChars sep cs with
      | [] => [[c]]
      | w :: ws => (c :: w) :: ws

/-- The call `strings.Split(s, sep)` for a separator of one character. -/
def strings.Split (s : String) (sep : Char) : List String :=
  (splitChars sep s.toList).map String.mk

/-! ## The package -/

/-- The function `getAttr`: the attribute's content and whether it is present. -/
def getAttr (attrs : List (String × String)) (attr : String) : String × Bool :=
  match attrs.lookup attr with
  | some val => (val, true)
  | none => ("", false)

/-- What `getPropVal` returns, plus the memory after the call. -/
structure PropVal where
  props : List String
  val : Property
  ok : Bool
  heap : Heap

/-- The function `getPropVal`. -/
def getPropVal (heap : Heap) (node : Element) : PropVal :=
  let attrs := node.attributes
  let prop := (getAttr attrs "itemprop").1
  let props := strings.Split prop ' '
  if (getAttr attrs "itemscope").2 then
    let itype := (getAttr attrs "itemtype").1
    let mk := makeItem heap itype
    { props := props, val := .item mk.1, ok := true, heap := mk.2 }
  else
    let res : String × Bool :=
      if node.name = "img" then getAttr attrs "src"
      else if node.name = "a" then getAttr attrs "href"
      else
        let ac := getAttr attrs "content"
        if !ac.2 then (node.content, true) else (ac.1, true)
    { props := props, val := .plainData res.1, ok := res.2, heap := heap }

/-- What `getScope` returns. -/
structure Scope where
  scopePath : String
  scopeType : String
  ok : Bool
  deriving DecidableEq, Repr

/-- The function `getScope`; the error of `Search` is dropped, as in the source. -/
def getScope (scopeSearchPath : Expression) (node : XmlNode) : Scope :=
  let scopes : List Element :=
    match node.Search scopeSearchPath with
    | .ok r => r
    | .error _ => []
  match scopes.getLast? with
  | some scope =>
    { scopePath := scope.path, scopeType := (getAttr scope.attributes "itemtype").1, ok := true }
  | none => { scopePath := "", scopeType := "", ok := false }

/-- Assignment `m[key] = ptr` on a `map[string]*Item`. -/
def mapSet : List (String × Nat) → String → Nat → List (String × Nat)
  | [], key, ptr => [(key, ptr)]
  | (k, p) :: rest, key, ptr =>
    if k = key then (k, ptr) :: rest else (k, p) :: mapSet rest key ptr

/-- The locals of `find` that live across iterations, and the memory. -/
structure State where
  found : List Nat
  items : List (String × Nat)
  heap : Heap
  deriving DecidableEq, Repr

/-- Ways in which `find` can stop without a result. -/
inductive Error where
  /-- the property search failed; the adapter's message is passed on -/
  | query (msg : String)
  /-- the conversion `val.(*Item)` met a value that is not an item -/
  | typeAssertion
  deriving DecidableEq, Repr

/-- The pair of statements `items[path] = item; found = append(found, item)`, which
`find` executes at lines 103-104 and again at lines 114-115. -/
def State.register (st : State) (path : String) (ptr : Nat) : State :=
  { found := st.found ++ [ptr], items := mapSet st.items path ptr, heap := st.heap }

/-- Lines 101-105 of `find`: make sure `items[scopePath]` exists; returns the pointer
stored there and the new state. -/
def ensureItem (st : State) (sc : Scope) : Nat × State :=
  match st.items.lookup sc.scopePath with
  | some ptr => (ptr, st)
  | none =>
    let mk := makeItem st.heap sc.scopeType
    (mk.1, State.register { st with heap := mk.2 } sc.scopePath mk.1)

/-- Lines 107-109 of `find`: add the value under every name. -/
def addProps (heap : Heap) (ptr : Nat) (props : List String) (val : Property) : Heap :=
  props.foldl (fun h prop => heapAddProp h ptr prop val) heap

/-- One iteration of the loop of `find`. -/
def findStep (scopeSearchPath : Expression) (itype : String) (st : State)
    (propNode : XmlNode) : Except Error State :=
  let r := getPropVal st.heap propNode.toElement
  let st0 : State := { st with heap := r.heap }
  if !r.ok then .ok st0
  else
    let sc := getScope scopeSearchPath propNode
    if !sc.ok then .ok st0
    else
      let en := ensureItem st0 sc
      let st1 : State := { en.2 with heap := addProps en.2.heap en.1 r.props r.val }
      if r.val.Type st1.heap != "Text" && (itype == "" || r.val.Type st1.heap == itype) then
        match r.val with
        | .item ptr => .ok (st1.register propNode.path ptr)
        | .plainData _ => .error .typeAssertion
      else .ok st1

/-- The loop of `find` over the property elements. -/
def findLoop (scopeSearchPath : Expression) (itype : String) :
    State → List XmlNode → Except Error State
  | st, [] => .ok st
  | st, propNode :: rest =>
    match findStep scopeSearchPath itype st propNode with
    | .ok st1 => findLoop scopeSearchPath itype st1 rest
    | .error e => .error e

/-- The method `Node.find`.  The result carries `found` together with the memory the
pointers refer to and the final `items` map. -/
def Node.find (node : Node) (scopeSearchPath : Expression) (itype : String) :
    Except Error State :=
  match node.propNodes with
  | .error e => .error (.query e)
  | .ok propNodes =>
    findLoop scopeSearchPath itype { found := [], items := [], heap := [] } propNodes

/-- The method `Node.FindAll`. -/
def Node.FindAll (node : Node) : Except Error State :=
  node.find allScopePath ""

/-- The method `Node.Find`. -/
def Node.Find (node : Node) (itype : String) : Except Error State :=
  node.find (scopeSearchTmpl itype) itype

/-! ## Vocabulary of the statements -/

/-- The paths of the ancestors of a property element (none when the axis could not be walked). -/
def ancestorPaths (nd : XmlNode) : List String :=
  match nd.ancestors with
  | .ok as => as.map (fun a => a.path)
  | .error _ => []

/-- Document order of a sequence of property elements, as far as `find` can observe it:
no element has its own path among its ancestors, a later element never has the path of an
earlier one, and a later element is never an ancestor of an earlier one. -/
def DocOrder (nodes : List XmlNode) : Prop :=
  (∀ nd ∈ nodes, nd.path ∉ ancestorPaths nd) ∧
    nodes.Pairwise (fun a b => b.path ≠ a.path ∧ b.path ∉ ancestorPaths a)

instance (nodes : List XmlNode) : Decidable (DocOrder nodes) := by
  unfold DocOrder; infer_instance

/-- The element `x` sits at the child positions `q` and its ancestors sit at proper
prefixes of `q`. -/
def Located (x : XmlNode) (q : List Nat) : Prop :=
  x.path = encodePath q ∧
    ∀ a ∈ ancestorPaths x, ∃ p r, r ≠ [] ∧ q = p ++ r ∧ a = encodePath p

/-- The paths registered in the `items` map. -/
def State.keys (st : State) : List String := st.items.map Prod.fst

/-- The values stored under the name `prop` in the item registered for the scope path `P`
(empty when no item is registered for `P`). -/
def State.valuesFor (st : State) (P prop : String) : List Property :=
  match st.items.lookup P with
  | some ptr => valuesAt st.heap ptr prop
  | none => []

/-- The state `find` starts its loop in. -/
def State.init : State := { found := [], items := [], heap := [] }

/-- Consistency of the locals of `find`: the output list is the list of registered
pointers, every path is registered once, no pointer is registered twice, and every
registered pointer is allocated. -/
structure State.Inv (st : State) : Prop where
  found_eq : st.items.map Prod.snd = st.found
  keys_nodup : (st.items.map Prod.fst).Nodup
  ptrs_nodup : st.found.Nodup
  ptrs_lt : ∀ p ∈ st.found, p < st.heap.length

/-- What one property element contributes to the sequence under `prop` of the scope `P`
when it is visited in state `st`: its value, once per occurrence of `prop` among its
names, provided the reader succeeded and the resolver returned `P`. -/
def contribution (expr : Expression) (P prop : String) (st : State) (nd : XmlNode) :
    List Property :=
  if (getPropVal st.heap nd.toElement).ok && (getScope expr nd).ok &&
      (getScope expr nd).scopePath == P then
    List.replicate ((getPropVal st.heap nd.toElement).props.count prop)
      (getPropVal st.heap nd.toElement).val
  else []

/-- The contributions of a sequence of property elements to the name `prop` of the scope
`P`, in the order of the sequence; the state only serves to know which pointer the reader
hands out at each element. -/
def expectedValues (expr : Expression) (itype P prop : String) :
    State → List XmlNode → List Property
  | _, [] => []
  | st, nd :: rest =>
    contribution expr P prop st nd ++
      (match findStep expr itype st nd with
       | .ok st1 => expectedValues expr itype P prop st1 rest
       | .error _ => [])

/-- Whether the reader succeeds on an element (the answer does not depend on the memory). -/
def readerOk (nd : Element) : Bool := (getPropVal [] nd).ok

/-- Whether a property element opens a scope of its own. -/
def opensScope (nd : Element) : Bool := (getAttr nd.attributes "itemscope").2

/-- The type a property element declares (empty when it declares none). -/
def declaredType (nd : Element) : String := (getAttr nd.attributes "itemtype").1

/-- The test of line 112 for a property element that opens a scope: its nested item is
registered under the element's own path and appended to the output. -/
def surfaces (itype : String) (nd : Element) : Bool :=
  opensScope nd && (declaredType nd != "Text" && (itype == "" || declaredType nd == itype))

/-- The paths one property element asks to have registered: the scope it resolves to and,
when its nested item surfaces, its own path. -/
def newKeys (expr : Expression) (itype : String) (nd : XmlNode) : List String :=
  if readerOk nd.toElement && (getScope expr nd).ok then
    (getScope expr nd).scopePath :: (if surfaces itype nd.toElement then [nd.path] else [])
  else []

/-- The state after lines 101-109 for a property element whose reader and resolver both
succeeded: the scope's item exists and holds the new value under every name. -/
def attached (expr : Expression) (st : State) (nd : XmlNode) : State :=
  let r := getPropVal st.heap nd.toElement
  let en := ensureItem { st with heap := r.heap } (getScope expr nd)
  { en.2 with heap := addProps en.2.heap en.1 r.props r.val }

/-- The property elements a search root iterates over (none when the search failed). -/
def propNodesOf (node : Node) : List XmlNode :=
  match node.propNodes with
  | .ok nodes => nodes
  | .error _ => []

/-! ## Sample documents -/

/-- A person with a nested organisation, an image without `src`, a property with two
names and a plain name:
`<div itemscope itemtype="Person"><span itemprop="worksFor" itemscope itemtype="Org">
<span itemprop="name">Acme</span></span><img itemprop="photo">
<span itemprop="a b" content="v"></span><span itemprop="name">Ada</span></div>`. -/
def docPerson : Html :=
  .element "html" [] [.element "body" [] [
    .element "div" [("itemscope", ""), ("itemtype", "Person")] [
      .element "span" [("itemprop", "worksFor"), ("itemscope", ""), ("itemtype", "Org")] [
        .element "span" [("itemprop", "name")] [.text "Acme"]],
      .element "img" [("itemprop", "photo")] [],
      .element "span" [("itemprop", "a b"), ("content", "v")] [],
      .element "span" [("itemprop", "name")] [.text "Ada"]]]]

/-- The element `<img itemprop="photo" src="p.jpg">`. -/
def imgPhoto : Element :=
  { name := "img", attributes := [("itemprop", "photo"), ("src", "p.jpg")], content := "",
    path := "/html/body/img" }

/-- The element `<a itemprop="link" href="/x">`. -/
def aLink : Element :=
  { name := "a", attributes := [("itemprop", "link"), ("href", "/x")], content := "",
    path := "/html/body/a" }

/-- The element `<span itemprop="name">Ada</span>`. -/
def spanName : Element :=
  { name := "span", attributes := [("itemprop", "name")], content := "Ada",
    path := "/html/body/span" }

/-- The element `<meta itemprop="age" content="30">`. -/
def metaAge : Element :=
  { name := "meta", attributes := [("itemprop", "age"), ("content", "30")], content := "",
    path := "/html/head/meta" }

/-- The element `<img itemprop="photo">` (no `src`) below a typed scope. -/
def imgNoSrc : XmlNode :=
  { name := "img", attributes := [("itemprop", "photo")], content := "",
    path := "/html/body/div/img",
    ancestors := .ok [
      { name := "html", attributes := [], content := "Ada", path := "/html" },
      { name := "body", attributes := [], content := "Ada", path := "/html/body" },
      { name := "div", attributes := [("itemscope", ""), ("itemtype", "Person")],
        content := "Ada", path := "/html/body/div" }] }

/-- The element `<span itemprop="name">Ada</span>` below the same scope. -/
def spanAda : XmlNode :=
  { name := "span", attributes := [("itemprop", "name")], content := "Ada",
    path := "/html/body/div/span",
    ancestors := imgNoSrc.ancestors }

/-- The element `<span itemprop="a b" content="v">` below a typed scope `S`. -/
def spanAB : XmlNode :=
  { name := "span", attributes := [("itemprop", "a b"), ("content", "v")], content := "",
    path := "/html/body/div/span[2]",
    ancestors := imgNoSrc.ancestors }

/-- The ancestors `html > body > outer[itemtype=A] > inner[itemtype=A]`. -/
def ancestorsAA : List Element :=
  [{ name := "html", attributes := [], content := "x", path := "/html" },
   { name := "body", attributes := [], content := "x", path := "/html/body" },
   { name := "div", attributes := [("itemscope", ""), ("itemtype", "A")], content := "x",
     path := "/html/body/div" },
   { name := "div", attributes := [("itemscope", ""), ("itemtype", "A")], content := "x",
     path := "/html/body/div/div" }]

/-- The property `<span itemprop="propX">x</span>` inside `outer[A] > inner[A]`. -/
def propXinAA : XmlNode :=
  { name := "span", attributes := [("itemprop", "propX")], content := "x",
    path := "/html/body/div/div/span", ancestors := .ok ancestorsAA }

/-- The ancestors `html > body > outer[itemtype=A] > mid[itemtype=B]`. -/
def ancestorsAB : List Element :=
  [{ name := "html", attributes := [], content := "x", path := "/html" },
   { name := "body", attributes := [], content := "x", path := "/html/body" },
   { name := "div", attributes := [("itemscope", ""), ("itemtype", "A")], content := "x",
     path := "/html/body/div" },
   { name := "div", attributes := [("itemscope", ""), ("itemtype", "B")], content := "x",
     path := "/html/body/div/div" }]

/-- The property `<span itemprop="propX">x</span>` inside `outer[A] > mid[B]`. -/
def propXinAB : XmlNode :=
  { name := "span", attributes := [("itemprop", "propX")], content := "x",
    path := "/html/body/div/div/span", ancestors := .ok ancestorsAB }

/-- A search root whose property search yields the given elements. -/
def rootOver (nodes : List XmlNode) : Node :=
  { basePath := "/html", propNodes := .ok nodes }

/-- A property below a scope that declares no type:
`<div itemscope><span itemprop="name">Ada</span></div>`. -/
def docUntyped : Html :=
  .element "html" [] [.element "body" [] [
    .element "div" [("itemscope", "")] [
      .element "span" [("itemprop", "name")] [.text "Ada"]]]]

/-- The property `<span itemprop="name">Ada</span>` inside
`outer[itemscope itemtype=Person] > mid[itemscope]`, the nearer scope being untyped. -/
def spanUnderUntyped : XmlNode :=
  { name := "span", attributes := [("itemprop", "name")], content := "Ada",
    path := "/html/body/div/div/span",
    ancestors := .ok [
      { name := "html", attributes := [], content := "Ada", path := "/html" },
      { name := "body", attributes := [], content := "Ada", path := "/html/body" },
      { name := "div", attributes := [("itemscope", ""), ("itemtype", "Person")],
        content := "Ada", path := "/html/body/div" },
      { name := "div", attributes := [("itemscope", "")], content := "Ada",
        path := "/html/body/div/div" }] }

/-- The scope paths to which at least one valid property element resolves, each once. -/
def resolvedScopes (expr : Expression) (nodes : List XmlNode) : List String :=
  ((nodes.filter (fun nd => readerOk nd.toElement && (getScope expr nd).ok)).map
    (fun nd => (getScope expr nd).scopePath)).dedup

/-- The paths one valid, resolved property element puts on the list: the scope it resolves
to and, when it opens a scope itself, its own path. -/
def listedBy (expr : Expression) (nd : XmlNode) : List String :=
  if readerOk nd.toElement && (getScope expr nd).ok then
    (getScope expr nd).scopePath :: (if opensScope nd.toElement then [nd.path] else [])
  else []

/-- The distinct paths of the elements that have a valid property resolving to them or are
themselves valid scope-opening properties resolving to an enclosing scope. -/
def listedPaths (expr : Expression) (nodes : List XmlNode) : List String :=
  (nodes.flatMap (listedBy expr)).dedup

/-- A person whose only property is a nested organisation without properties:
`<div itemscope itemtype="Person"><span itemprop="worksFor" itemscope itemtype="Org">
</span></div>`. -/
def docOrgOnly : Html :=
  .element "html" [] [.element "body" [] [
    .element "div" [("itemscope", ""), ("itemtype", "Person")] [
      .element "span" [("itemprop", "worksFor"), ("itemscope", ""), ("itemtype", "Org")] []]]]

/-- A person whose nested item declares the type `"Text"` and has a property of its own:
`<div itemscope itemtype="Person"><span itemprop="worksFor" itemscope itemtype="Text">
<span itemprop="name">x</span></span></div>`. -/
def docTextScope : Html :=
  .element "html" [] [.element "body" [] [
    .element "div" [("itemscope", ""), ("itemtype", "Person")] [
      .element "span" [("itemprop", "worksFor"), ("itemscope", ""), ("itemtype", "Text")] [
        .element "span" [("itemprop", "name")] [.text "x"]]]]]

/-- The element `<img itemprop="logo" itemscope itemtype="Org">`: an image without `src`
that opens a scope. -/
def imgScope : Element :=
  { name := "img", attributes := [("itemprop", "logo"), ("itemscope", ""), ("itemtype", "Org")],
    content := "", path := "/html/body/div/img" }

/-- The element `<a itemprop="home" itemscope>`: a link without `href` and without
`itemtype` that opens a scope. -/
def aScope : Element :=
  { name := "a", attributes := [("itemprop", "home"), ("itemscope", "")],
    content := "", path := "/html/body/div/a" }

/-- A search root whose property search fails with the given message. -/
def rootFailing (msg : String) : Node :=
  { basePath := "/html", propNodes := .error msg }

/-- Every item of the output list is allocated and has the declared type `T`. -/
def State.FoundTyped (T : String) (st : State) : Prop :=
  ∀ q ∈ st.found, q < st.heap.length ∧ typeAt st.heap q = T

/-- A person of type `A` with a nested item of type `A`, a nested item of type `B`, and a
plain property below each of them:
`<div itemscope itemtype="A"><span itemprop="same" itemscope itemtype="A">
<span itemprop="x">1</span></span><span itemprop="other" itemscope itemtype="B">
<span itemprop="y">2</span></span></div>`. -/
def docTwoNested : Html :=
  .element "html" [] [.element "body" [] [
    .element "div" [("itemscope", ""), ("itemtype", "A")] [
      .element "span" [("itemprop", "same"), ("itemscope", ""), ("itemtype", "A")] [
        .element "span" [("itemprop", "x")] [.text "1"]],
      .element "span" [("itemprop", "other"), ("itemscope", ""), ("itemtype", "B")] [
        .element "span" [("itemprop", "y")] [.text "2"]]]]]

/-- A person whose only property is a nested item of declared type `"Text"`:
`<div itemscope itemtype="Person"><span itemprop="worksFor" itemscope itemtype="Text">
</span></div>`; it differs from `docOrgOnly` in the nested type only. -/
def docTextLeaf : Html :=
  .element "html" [] [.element "body" [] [
    .element "div" [("itemscope", ""), ("itemtype", "Person")] [
      .element "span" [("itemprop", "worksFor"), ("itemscope", ""), ("itemtype", "Text")] []]]]

/-- An item of declared type `"Text"` with a nested item of the same type:
`<div itemscope itemtype="Text"><span itemprop="part" itemscope itemtype="Text">
</span></div>`. -/
def docTextInText : Html :=
  .element "html" [] [.element "body" [] [
    .element "div" [("itemscope", ""), ("itemtype", "Text")] [
      .element "span" [("itemprop", "part"), ("itemscope", ""), ("itemtype", "Text")] []]]]

/-- The paths registered by a pass over `nodes` that starts with the paths `keys`, in the
order of registration: each element adds, in this order, the scope path it resolves to
and its own path (when its nested item surfaces), unless already registered. -/
def registered (expr : Expression) (itype : String) : List String → List XmlNode → List String
  | keys, [] => keys
  | keys, nd :: rest =>
    registered expr itype
      (keys ++ (newKeys expr itype nd).filter (fun k => decide (k ∉ keys))) rest

/-- An outer scope whose first direct property comes after a property of an inner scope
that is not itself a property:
`<div itemscope itemtype="A"><div itemscope itemtype="B"><span itemprop="x">1</span></div>
<span itemprop="y">2</span></div>`. -/
def docInnerFirst : Html :=
  .element "html" [] [.element "body" [] [
    .element "div" [("itemscope", ""), ("itemtype", "A")] [
      .element "div" [("itemscope", ""), ("itemtype", "B")] [
        .element "span" [("itemprop", "x")] [.text "1"]],
      .element "span" [("itemprop", "y")] [.text "2"]]]]

/-- The `i`-th property element of a search root (an empty element when there is none). -/
def nthNode (node : Node) (i : Nat) : XmlNode :=
  match (propNodesOf node).drop i with
  | nd :: _ => nd
  | [] => { name := "", attributes := [], content := "", path := "", ancestors := .ok [] }

/-- A scope-opening property outside every scope, followed by a person with a nested
organisation:
`<span itemprop="org" itemscope itemtype="Org"></span><div itemscope itemtype="Person">
<span itemprop="worksFor" itemscope itemtype="Org"></span></div>`. -/
def docOrphan : Html :=
  .element "html" [] [.element "body" [] [
    .element "span" [("itemprop", "org"), ("itemscope", ""), ("itemtype", "Org")] [],
    .element "div" [("itemscope", ""), ("itemtype", "Person")] [
      .element "span" [("itemprop", "worksFor"), ("itemscope", ""), ("itemtype", "Org")] []]]]

/-- A type string that holds a double quote: pasted into the template it gives the text
`ancestor::*[@itemscope and @itemtype="A" or "1"="1"]`. -/
def typeWithQuote : String := "A\" or \"1\"=\"1"

/-- A property below a scope of type `B`:
`<div itemscope itemtype="B"><span itemprop="x">1</span></div>`. -/
def docTypeB : Html :=
  .element "html" [] [.element "body" [] [
    .element "div" [("itemscope", ""), ("itemtype", "B")] [
      .element "span" [("itemprop", "x")] [.text "1"]]]]

/-- A property below a scope of type `B` that lies in a scope whose type is the string
`typeWithQuote`:
`<div itemscope itemtype='A" or "1"="1'><div itemscope itemtype="B">
<span itemprop="propX">x</span></div></div>`. -/
def docQuotedOuter : Html :=
  .element "html" [] [.element "body" [] [
    .element "div" [("itemscope", ""), ("itemtype", typeWithQuote)] [
      .element "div" [("itemscope", ""), ("itemtype", "B")] [
        .element "span" [("itemprop", "propX")] [.text "x"]]]]]

/-- A scope-opening property of type `B` with a plain property inside, in a scope whose
type is the string `typeWithQuote`:
`<div itemscope itemtype='A" or "1"="1'><span itemprop="p" itemscope itemtype="B">
<span itemprop="x">1</span></span></div>`. -/
def docQuotedNested : Html :=
  .element "html" [] [.element "body" [] [
    .element "div" [("itemscope", ""), ("itemtype", typeWithQuote)] [
      .element "span" [("itemprop", "p"), ("itemscope", ""), ("itemtype", "B")] [
        .element "span" [("itemprop", "x")] [.text "1"]]]]]

/-- The address of an item after one more item has been put at address `L`: addresses
below `L` stay, the others move up by one. -/
def shiftPtr (L p : Nat) : Nat := if p < L then p else p + 1

/-- A property value with its pointer moved. -/
def Property.shift (L : Nat) : Property → Property
  | .plainData s => .plainData s
  | .item p => .item (shiftPtr L p)

/-- An item with the pointers in its property map moved. -/
def Item.shift (L : Nat) (it : Item) : Item :=
  { itemType := it.itemType,
    properties := it.properties.map (fun kv => (kv.1, kv.2.map (Property.shift L))) }

/-- The memory with the item `g` put at address `L` and every pointer moved accordingly. -/
def heapInsert (L : Nat) (g : Item) (h : Heap) : Heap :=
  (h.take L).map (Item.shift L) ++ g :: (h.drop L).map (Item.shift L)

/-- The state of `find` as it is when the item `g` has additionally been allocated at
address `L`: same registered paths, same items in the same order with the same types and
values, every address from `L` on moved up by one, and `g` at `L`, referenced by nothing. -/
def State.shift (L : Nat) (g : Item) (st : State) : State :=
  { found := st.found.map (shiftPtr L),
    items := st.items.map (fun kp => (kp.1, shiftPtr L kp.2)),
    heap := heapInsert L g st.heap }

/-- Every pointer held by the state (in the list, in the map, in a property map) is
allocated. -/
structure State.Closed (st : State) : Prop where
  found_lt : ∀ p ∈ st.found, p < st.heap.length
  items_lt : ∀ kp ∈ st.items, kp.2 < st.heap.length
  props_lt : ∀ it ∈ st.heap, ∀ kv ∈ it.properties, ∀ p, Property.item p ∈ kv.2 →
    p < st.heap.length

/-- Every pointer stored in a property map of the memory `h` is below `n`. -/
def HeapClosed (n : Nat) (h : Heap) : Prop :=
  ∀ it ∈ h, ∀ kv ∈ it.properties, ∀ p, Property.item p ∈ kv.2 → p < n

/-! ## Auxiliary facts -/

theorem lookup_mapSet (m : List (String × Nat)) (k k' : String) (p : Nat) :
    (mapSet m k p).lookup k' = if k' = k then some p else m.lookup k' := by
  induction m with
  | nil =>
    by_cases h : k' = k
    · simp [mapSet, List.lookup_cons, h]
    · have h2 : (k' == k) = false := by simpa using h
      simp [mapSet, List.lookup_cons, h, h2]
  | cons hd tl ih =>
    obtain ⟨a, b⟩ := hd
    by_cases hak : a = k
    · by_cases h : k' = k
      · simp [mapSet, List.lookup_cons, hak, h]
      · have h2 : (k' == k) = false := by simpa using h
        simp [mapSet, List.lookup_cons, hak, h, h2]
    · by_cases h : k' = k
      · subst h
        have h2 : (k' == a) = false := by simpa using fun h => hak h.symm
        simp [mapSet, List.lookup_cons, hak, h2, ih]
      · simp only [mapSet, hak, if_false, List.lookup_cons, ih, h]

theorem mapSet_of_not_mem (m : List (String × Nat)) (k : String) (p : Nat)
    (h : k ∉ m.map Prod.fst) : mapSet m k p = m ++ [(k, p)] := by
  induction m with
  | nil => rfl
  | cons hd tl ih =>
    obtain ⟨a, b⟩ := hd
    simp only [List.map_cons, List.mem_cons, not_or] at h
    have hak : ¬ a = k := fun e => h.1 e.symm
    simp [mapSet, hak, ih h.2]

theorem lookup_eq_none_of_not_mem (m : List (String × Nat)) (k : String)
    (h : k ∉ m.map Prod.fst) : m.lookup k = none := by
  induction m with
  | nil => rfl
  | cons hd tl ih =>
    obtain ⟨a, b⟩ := hd
    simp only [List.map_cons, List.mem_cons, not_or] at h
    have h2 : (k == a) = false := by simpa using h.1
    simp [List.lookup_cons, h2, ih h.2]

theorem not_mem_of_lookup_eq_none (m : List (String × Nat)) (k : String)
    (h : m.lookup k = none) : k ∉ m.map Prod.fst := by
  induction m with
  | nil => simp
  | cons hd tl ih =>
    obtain ⟨a, b⟩ := hd
    by_cases hka : k = a
    · subst hka; simp [List.lookup_cons] at h
    · have h2 : (k == a) = false := by simpa using hka
      simp only [List.lookup_cons, h2] at h
      simp [hka, ih h]

theorem lookup_mem (m : List (String × Nat)) (k : String) (p : Nat)
    (h : m.lookup k = some p) : (k, p) ∈ m := by
  induction m with
  | nil => simp at h
  | cons hd tl ih =>
    obtain ⟨a, b⟩ := hd
    by_cases hka : k = a
    · subst hka; simp [List.lookup_cons] at h; simp [h]
    · have h2 : (k == a) = false := by simpa using hka
      simp only [List.lookup_cons, h2] at h
      exact List.mem_cons_of_mem _ (ih h)

theorem lookup_of_mem (m : List (String × Nat)) (k : String) (p : Nat)
    (hn : (m.map Prod.fst).Nodup) (h : (k, p) ∈ m) : m.lookup k = some p := by
  induction m with
  | nil => simp at h
  | cons hd tl ih =>
    obtain ⟨a, b⟩ := hd
    simp only [List.map_cons, List.nodup_cons] at hn
    rcases List.mem_cons.1 h with h1 | h1
    · cases h1; simp [List.lookup_cons]
    · have hka : k ≠ a := by
        intro e
        exact hn.1 (List.mem_map.2 ⟨(k, p), h1, e⟩)
      have h2 : (k == a) = false := by simpa using hka
      simp only [List.lookup_cons, h2]
      exact ih hn.2 h1


theorem lookup_appendProp (m : List (String × List Property)) (k n : String) (v : Property) :
    ((appendProp m k v).lookup n).getD [] =
      (m.lookup n).getD [] ++ (if n = k then [v] else []) := by
  induction m with
  | nil =>
    by_cases h : n = k
    · simp [appendProp, List.lookup_cons, h]
    · have h2 : (n == k) = false := by simpa using h
      simp [appendProp, List.lookup_cons, h, h2]
  | cons hd tl ih =>
    obtain ⟨a, vs⟩ := hd
    by_cases hak : a = k
    · by_cases h : n = k
      · simp [appendProp, List.lookup_cons, hak, h]
      · have h2 : (n == k) = false := by simpa using h
        simp [appendProp, List.lookup_cons, hak, h, h2]
    · by_cases hna : n = a
      · have hnk : ¬ n = k := fun e => hak (hna ▸ e)
        simp [appendProp, List.lookup_cons, hak, hna, hnk]
      · have h2 : (n == a) = false := by simpa using hna
        simp only [appendProp, hak, if_false, List.lookup_cons, h2, ih]

theorem Item.values_addProp (it : Item) (k n : String) (v : Property) :
    (it.addProp k v).values n = it.values n ++ (if n = k then [v] else []) := by
  simp only [Item.values, Item.addProp, lookup_appendProp]

theorem heapAddProp_length (h : Heap) (p : Nat) (k : String) (v : Property) :
    (heapAddProp h p k v).length = h.length := by
  unfold heapAddProp
  split <;> simp

theorem valuesAt_heapAddProp (h : Heap) (p q : Nat) (k n : String) (v : Property) :
    valuesAt (heapAddProp h p k v) q n =
      valuesAt h q n ++ (if q = p ∧ n = k ∧ p < h.length then [v] else []) := by
  unfold heapAddProp
  cases hp : h[p]? with
  | none =>
    have hlen : ¬ p < h.length := by
      intro hlt
      rw [List.getElem?_eq_getElem hlt] at hp
      cases hp
    simp [hlen]
  | some it =>
    have hlen : p < h.length := by
      by_contra hge
      rw [List.getElem?_eq_none (Nat.le_of_not_lt hge)] at hp
      cases hp
    by_cases hqp : q = p
    · subst hqp
      simp only [valuesAt, List.getElem?_set_self hlen, hp, Item.values_addProp, hlen,
        true_and, and_true]
    · have hne : p ≠ q := fun e => hqp e.symm
      simp [valuesAt, List.getElem?_set_ne hne, hqp]

theorem typeAt_heapAddProp (h : Heap) (p q : Nat) (k : String) (v : Property) :
    typeAt (heapAddProp h p k v) q = typeAt h q := by
  unfold heapAddProp
  cases hp : h[p]? with
  | none => rfl
  | some it =>
    by_cases hqp : q = p
    · subst hqp
      have hlen : q < h.length := by
        by_contra hge
        rw [List.getElem?_eq_none (Nat.le_of_not_lt hge)] at hp
        cases hp
      simp [typeAt, List.getElem?_set_self hlen, hp, Item.addProp]
    · have hne : p ≠ q := fun e => hqp e.symm
      simp [typeAt, List.getElem?_set_ne hne]

theorem addProps_length (h : Heap) (p : Nat) (props : List String) (v : Property) :
    (addProps h p props v).length = h.length := by
  induction props generalizing h with
  | nil => rfl
  | cons k ks ih =>
    simp only [addProps, List.foldl_cons] at ih ⊢
    rw [ih, heapAddProp_length]

theorem typeAt_addProps (h : Heap) (p q : Nat) (props : List String) (v : Property) :
    typeAt (addProps h p props v) q = typeAt h q := by
  induction props generalizing h with
  | nil => rfl
  | cons k ks ih =>
    simp only [addProps, List.foldl_cons] at ih ⊢
    rw [ih, typeAt_heapAddProp]

theorem valuesAt_addProps (h : Heap) (p q : Nat) (props : List String) (n : String)
    (v : Property) :
    valuesAt (addProps h p props v) q n =
      valuesAt h q n ++
        (if q = p ∧ p < h.length then List.replicate (props.count n) v else []) := by
  induction props generalizing h with
  | nil => simp [addProps]
  | cons k ks ih =>
    simp only [addProps, List.foldl_cons] at ih ⊢
    rw [ih, valuesAt_heapAddProp, heapAddProp_length]
    by_cases hq : q = p ∧ p < h.length
    · obtain ⟨hqp, hlt⟩ := hq
      by_cases hnk : n = k
      · subst hnk
        simp [hqp, hlt, List.count_cons_self, List.replicate_succ]
      · have hkn : ¬ k = n := fun e => hnk e.symm
        have h2 : (k == n) = false := by simpa using hkn
        simp [hqp, hlt, hnk, List.count_cons, h2]
    · have h1 : ¬ (q = p ∧ n = k ∧ p < h.length) := fun hh => hq ⟨hh.1, hh.2.2⟩
      simp [hq, h1]

theorem valuesAt_append_of_lt (h ext : Heap) (p : Nat) (n : String)
    (hp : p < h.length) : valuesAt (h ++ ext) p n = valuesAt h p n := by
  simp [valuesAt, List.getElem?_append_left hp]

theorem typeAt_append_of_lt (h ext : Heap) (p : Nat) (hp : p < h.length) :
    typeAt (h ++ ext) p = typeAt h p := by
  simp [typeAt, List.getElem?_append_left hp]

theorem valuesAt_append_length (h : Heap) (x : Item) (n : String) :
    valuesAt (h ++ [x]) h.length n = x.values n := by
  simp [valuesAt]

theorem typeAt_append_length (h : Heap) (x : Item) :
    typeAt (h ++ [x]) h.length = x.itemType := by
  simp [typeAt]


/-! ### Reading the XPath texts -/

/-- Inside a string literal the scanner reads up to the closing quote. -/
theorem scan_str (q : Char) (T : List Char) (hq : q ∉ T) (rest : List Char) :
    ∀ acc, scan (.str q acc) (T ++ q :: rest) =
      (scan .idle rest).map (fun ts => .lit (acc ++ T) :: ts) := by
  induction T with
  | nil => intro acc; simp [scan]
  | cons c cs ih =>
    intro acc
    simp only [List.mem_cons, not_or] at hq
    have hc : ¬ c = q := fun e => hq.1 e.symm
    have h := ih hq.2 (acc ++ [c])
    simp only [List.cons_append, scan, hc, if_false]
    simpa using h

/-- The tokens of the fixed part of the template. -/
theorem scan_template (tail : List Char) :
    scan .idle ("@itemscope and @itemtype=\"".toList ++ tail) =
      (scan (.str '"' []) tail).map (fun ts =>
        [.attr "itemscope".toList, .word "and".toList, .attr "itemtype".toList, .eq] ++ ts) := by
  have h : "@itemscope and @itemtype=\"".toList =
      ['@', 'i', 't', 'e', 'm', 's', 'c', 'o', 'p', 'e', ' ', 'a', 'n', 'd', ' ', '@', 'i', 't',
       'e', 'm', 't', 'y', 'p', 'e', '=', '"'] := by rfl
  rw [h]
  simp +decide [scan, startToken, Option.map_map, Function.comp_def]


theorem stripPrefix_append (p r : List Char) : stripPrefix p (p ++ r) = some r := by
  induction p with
  | nil => cases r <;> rfl
  | cons c cs ih => simp [stripPrefix, ih]

/-- For a type without a double quote the filled template is read as
`@itemscope and @itemtype = "T"`. -/
theorem parsePredicate_template (T : String) (hq : '"' ∉ T.toList) :
    parsePredicate ("ancestor::*[@itemscope and @itemtype=\"" ++ T ++ "\"]") =
      some (.and (.truth (.attr "itemscope")) (.eq (.attr "itemtype") (.lit T))) := by
  have htext : ("ancestor::*[@itemscope and @itemtype=\"" ++ T ++ "\"]").toList =
      "ancestor::*[".toList ++ ("@itemscope and @itemtype=\"".toList ++
        (T.toList ++ '"' :: [']'])) := by
    simp only [String.toList, String.data_append]
    simp
  unfold parsePredicate
  rw [htext, stripPrefix_append]
  simp only []
  rw [scan_template, scan_str '"' T.toList hq]
  simp +decide [scan, startToken, parseOr, parseAnd, splitAtWord, combine, parseComparison,
    parseOperand]

/-- What `allScopePath` tests: both attributes are present. -/
theorem allScopePath_test (el : Element) :
    allScopePath.test el =
      ((el.attributes.lookup "itemscope").isSome && (el.attributes.lookup "itemtype").isSome) := by
  have h : allScopePath =
      .ancestors (.and (.truth (.attr "itemscope")) (.truth (.attr "itemtype"))) := by rfl
  rw [h]
  rfl

/-- What the filled template tests when the type has no double quote: `itemscope` is
present and `itemtype` is exactly the type. -/
theorem scopeSearchTmpl_test (T : String) (hq : '"' ∉ T.toList) (el : Element) :
    (scopeSearchTmpl T).test el =
      ((el.attributes.lookup "itemscope").isSome && el.attributes.lookup "itemtype" == some T) := by
  unfold scopeSearchTmpl xpath.Compile
  rw [parsePredicate_template T hq]
  simp only [Expression.test, Pred.eval, Operand.holds, Operand.value]
  cases h : el.attributes.lookup "itemtype" with
  | none => simp
  | some v => simp

/-! ### The reader -/

theorem getPropVal_props (h : Heap) (nd : Element) :
    (getPropVal h nd).props = strings.Split (getAttr nd.attributes "itemprop").1 ' ' := by
  by_cases hs : (getAttr nd.attributes "itemscope").2 = true <;> simp [getPropVal, hs]

theorem getPropVal_of_scope (h : Heap) (nd : Element)
    (hs : (getAttr nd.attributes "itemscope").2 = true) :
    (getPropVal h nd).val = .item h.length ∧ (getPropVal h nd).ok = true ∧
      (getPropVal h nd).heap =
        h ++ [{ itemType := (getAttr nd.attributes "itemtype").1, properties := [] }] := by
  simp [getPropVal, hs, makeItem]

theorem getPropVal_of_not_scope (h : Heap) (nd : Element)
    (hs : (getAttr nd.attributes "itemscope").2 = false) :
    (getPropVal h nd).heap = h ∧ ∃ s, (getPropVal h nd).val = .plainData s := by
  simp [getPropVal, hs]

theorem getPropVal_ok_indep (h h' : Heap) (nd : Element) :
    (getPropVal h nd).ok = (getPropVal h' nd).ok := by
  by_cases hs : (getAttr nd.attributes "itemscope").2 = true <;> simp [getPropVal, hs]

theorem getPropVal_heap_length (h : Heap) (nd : Element) :
    h.length ≤ (getPropVal h nd).heap.length := by
  cases hs : (getAttr nd.attributes "itemscope").2
  · rw [(getPropVal_of_not_scope h nd hs).1]
  · rw [(getPropVal_of_scope h nd hs).2.2]; simp

/-! ### Consistency of the state -/

theorem State.Inv.lookup_lt {st : State} (hinv : st.Inv) {P : String} {p : Nat}
    (h : st.items.lookup P = some p) : p < st.heap.length := by
  apply hinv.ptrs_lt
  rw [← hinv.found_eq]
  exact List.mem_map.2 ⟨(P, p), lookup_mem _ _ _ h, rfl⟩

theorem State.Inv.lookup_inj {st : State} (hinv : st.Inv) {P Q : String} {p : Nat}
    (hP : st.items.lookup P = some p) (hQ : st.items.lookup Q = some p) : P = Q := by
  have hnd : (st.items.map Prod.snd).Nodup := by rw [hinv.found_eq]; exact hinv.ptrs_nodup
  have := List.inj_on_of_nodup_map hnd (lookup_mem _ _ _ hP) (lookup_mem _ _ _ hQ) rfl
  exact congrArg Prod.fst this

theorem State.Inv.init : State.init.Inv :=
  ⟨rfl, List.nodup_nil, List.nodup_nil, by intro p hp; cases hp⟩

theorem State.Inv.heap_grow {st : State} (hinv : st.Inv) (h : Heap)
    (hle : st.heap.length ≤ h.length) : State.Inv { st with heap := h } :=
  ⟨hinv.found_eq, hinv.keys_nodup, hinv.ptrs_nodup,
    fun p hp => Nat.lt_of_lt_of_le (hinv.ptrs_lt p hp) hle⟩

theorem State.Inv.register {st : State} (hinv : st.Inv) (k : String) (p : Nat)
    (hk : k ∉ st.keys) (hp : p ∉ st.found) (hlt : p < st.heap.length) :
    (st.register k p).Inv := by
  have hset : mapSet st.items k p = st.items ++ [(k, p)] := mapSet_of_not_mem _ _ _ hk
  refine ⟨?_, ?_, ?_, ?_⟩
  · simp [State.register, hset, hinv.found_eq]
  · simp only [State.register, hset, List.map_append, List.map_cons, List.map_nil]
    refine List.Nodup.append hinv.keys_nodup (List.nodup_singleton _) ?_
    intro a ha hb
    rw [List.mem_singleton] at hb
    subst hb
    exact hk ha
  · simp only [State.register]
    refine List.Nodup.append hinv.ptrs_nodup (List.nodup_singleton _) ?_
    intro a ha hb
    rw [List.mem_singleton] at hb
    subst hb
    exact hp ha
  · intro q hq
    simp only [State.register, List.mem_append, List.mem_singleton] at hq
    rcases hq with hq | hq
    · exact hinv.ptrs_lt q hq
    · subst hq; exact hlt

theorem State.keys_register (st : State) (k : String) (p : Nat) (hk : k ∉ st.keys) :
    (st.register k p).keys = st.keys ++ [k] := by
  simp [State.register, State.keys, mapSet_of_not_mem _ _ _ hk]

/-! ### Effect of the elementary operations on the stored values -/

theorem State.valuesFor_register (st : State) (k : String) (p : Nat) (hk : k ∉ st.keys)
    (hempty : ∀ n, valuesAt st.heap p n = []) (P n : String) :
    (st.register k p).valuesFor P n = st.valuesFor P n := by
  simp only [State.valuesFor, State.register, lookup_mapSet]
  by_cases hPk : P = k
  · subst hPk
    simp [lookup_eq_none_of_not_mem _ _ hk, hempty]
  · simp [hPk]

theorem State.valuesFor_heap_append {st : State} (hinv : st.Inv) (x : Item) (P n : String) :
    State.valuesFor { st with heap := st.heap ++ [x] } P n = st.valuesFor P n := by
  simp only [State.valuesFor]
  cases hl : st.items.lookup P with
  | none => rfl
  | some p => exact valuesAt_append_of_lt _ _ _ _ (hinv.lookup_lt hl)

theorem State.valuesFor_addProps {st : State} (hinv : st.Inv) (K : String) (q : Nat)
    (hK : st.items.lookup K = some q) (props : List String) (v : Property) (P n : String) :
    State.valuesFor { st with heap := addProps st.heap q props v } P n =
      st.valuesFor P n ++ (if P = K then List.replicate (props.count n) v else []) := by
  simp only [State.valuesFor]
  cases hl : st.items.lookup P with
  | none =>
    have hPK : ¬ P = K := by
      rintro rfl
      rw [hK] at hl; cases hl
    simp [hPK]
  | some p =>
    simp only [valuesAt_addProps]
    by_cases hPK : P = K
    · subst hPK
      have hpq : p = q := by rw [hK] at hl; cases hl; rfl
      subst hpq
      simp [hinv.lookup_lt hl]
    · have hpq : ¬ p = q := by
        rintro rfl
        exact hPK (hinv.lookup_inj hl hK)
      simp [hPK, hpq]


/-! ### The resolver -/

theorem getScope_path_mem (expr : Expression) (nd : XmlNode)
    (hok : (getScope expr nd).ok = true) :
    (getScope expr nd).scopePath ∈ ancestorPaths nd := by
  unfold getScope XmlNode.Search ancestorPaths at *
  cases hanc : nd.ancestors with
  | error e => simp [hanc] at hok
  | ok as =>
    simp only [hanc] at hok ⊢
    cases hl : (List.filter expr.test as).getLast? with
    | none => simp [hl] at hok
    | some sc =>
      simp only [hl]
      have hmem : sc ∈ List.filter expr.test as := List.mem_of_getLast?_eq_some hl
      exact List.mem_map.2 ⟨sc, (List.mem_filter.1 hmem).1, rfl⟩

/-! ### One iteration -/

theorem ensureItem_spec {st : State} (hinv : st.Inv) (sc : Scope) :
    (ensureItem st sc).2.Inv ∧
    (ensureItem st sc).2.items.lookup sc.scopePath = some (ensureItem st sc).1 ∧
    (∀ P n, (ensureItem st sc).2.valuesFor P n = st.valuesFor P n) ∧
    (ensureItem st sc).2.keys =
      st.keys ++ (if sc.scopePath ∈ st.keys then [] else [sc.scopePath]) ∧
    (∃ ext, (ensureItem st sc).2.heap = st.heap ++ ext) ∧
    (∀ p ∈ (ensureItem st sc).2.found, p ∈ st.found ∨ p = st.heap.length) := by
  unfold ensureItem
  cases hl : st.items.lookup sc.scopePath with
  | some q =>
    have hmem : sc.scopePath ∈ st.keys :=
      List.mem_map.2 ⟨(sc.scopePath, q), lookup_mem _ _ _ hl, rfl⟩
    refine ⟨hinv, hl, fun _ _ => rfl, by simp [hmem], ⟨[], by simp⟩, fun p hp => Or.inl hp⟩
  | none =>
    have hk : sc.scopePath ∉ st.keys := not_mem_of_lookup_eq_none _ _ hl
    have hinv1 : State.Inv { st with heap := st.heap ++ [⟨sc.scopeType, []⟩] } :=
      hinv.heap_grow _ (by simp)
    have hnew : st.heap.length ∉ st.found := fun hm => Nat.lt_irrefl _ (hinv.ptrs_lt _ hm)
    have hk1 : sc.scopePath ∉
        State.keys { st with heap := st.heap ++ [⟨sc.scopeType, []⟩] } := hk
    refine ⟨?_, ?_, ?_, ?_, ⟨[⟨sc.scopeType, []⟩], rfl⟩, ?_⟩
    · exact hinv1.register _ _ hk1 hnew (by simp [makeItem])
    · simp [State.register, makeItem, lookup_mapSet]
    · intro P n
      simp only [makeItem]
      rw [State.valuesFor_register _ _ _ hk1 _ P n]
      · exact State.valuesFor_heap_append hinv _ P n
      · intro m; simp [valuesAt, Item.values]
    · simp only [makeItem]
      rw [State.keys_register _ _ _ hk1, if_neg hk]
      rfl
    · intro p hp
      simp only [State.register, makeItem, List.mem_append, List.mem_singleton] at hp
      exact hp


theorem findStep_of_reader_fail (expr : Expression) (itype : String) (st : State)
    (nd : XmlNode) (hok : (getPropVal st.heap nd.toElement).ok = false) :
    findStep expr itype st nd = .ok st := by
  have hs : (getAttr nd.attributes "itemscope").2 = false := by
    cases hs : (getAttr nd.attributes "itemscope").2
    · rfl
    · rw [(getPropVal_of_scope st.heap nd.toElement hs).2.1] at hok
      cases hok
  simp [findStep, hok, (getPropVal_of_not_scope st.heap nd.toElement hs).1]

theorem findStep_of_no_scope (expr : Expression) (itype : String) (st : State)
    (nd : XmlNode) (hok : (getPropVal st.heap nd.toElement).ok = true)
    (hsc : (getScope expr nd).ok = false) :
    findStep expr itype st nd =
      .ok { st with heap := (getPropVal st.heap nd.toElement).heap } := by
  simp [findStep, hok, hsc]

theorem findStep_of_plain (expr : Expression) (itype : String) (st : State)
    (nd : XmlNode) (hok : (getPropVal st.heap nd.toElement).ok = true)
    (hsc : (getScope expr nd).ok = true)
    (hs : (getAttr nd.attributes "itemscope").2 = false) :
    findStep expr itype st nd = .ok (attached expr st nd) := by
  obtain ⟨_, s, hval⟩ := getPropVal_of_not_scope st.heap nd.toElement hs
  simp [findStep, hok, hsc, hval, Property.Type, attached]

theorem attached_type (expr : Expression) (st : State) (nd : XmlNode)
    (hs : (getAttr nd.attributes "itemscope").2 = true) :
    typeAt (attached expr st nd).heap st.heap.length = declaredType nd.toElement := by
  obtain ⟨_, _, hheap⟩ := getPropVal_of_scope st.heap nd.toElement hs
  simp only [attached, typeAt_addProps]
  unfold ensureItem
  simp only [hheap]
  split
  · simp [typeAt, declaredType]
  · simp only [State.register, makeItem]
    rw [typeAt_append_of_lt _ _ _ (by simp)]
    simp [typeAt, declaredType]

theorem findStep_of_item (expr : Expression) (itype : String) (st : State)
    (nd : XmlNode) (hsc : (getScope expr nd).ok = true)
    (hs : (getAttr nd.attributes "itemscope").2 = true) :
    findStep expr itype st nd =
      .ok (if surfaces itype nd.toElement then
            (attached expr st nd).register nd.path st.heap.length
           else attached expr st nd) := by
  obtain ⟨hval, hok, _⟩ := getPropVal_of_scope st.heap nd.toElement hs
  have hty := attached_type expr st nd hs
  simp only [attached, hval] at hty
  have hos : opensScope nd.toElement = true := hs
  simp only [findStep, hok, hsc, hval, Property.Type, hty, surfaces, hos, attached,
    Bool.not_true, Bool.false_eq_true, if_false, Bool.true_and]
  split <;> rfl


theorem attached_spec (expr : Expression) {st : State} (hinv : st.Inv) (nd : XmlNode) :
    (attached expr st nd).Inv ∧
    (∀ P n, (attached expr st nd).valuesFor P n =
      st.valuesFor P n ++
        (if P = (getScope expr nd).scopePath then
          List.replicate ((getPropVal st.heap nd.toElement).props.count n)
            (getPropVal st.heap nd.toElement).val
         else [])) ∧
    (attached expr st nd).keys =
      st.keys ++ (if (getScope expr nd).scopePath ∈ st.keys then []
        else [(getScope expr nd).scopePath]) ∧
    (∃ ext, (attached expr st nd).heap.length = st.heap.length + ext) ∧
    (∀ P p, st.items.lookup P = some p → (attached expr st nd).items.lookup P = some p) ∧
    ((getAttr nd.attributes "itemscope").2 = true →
      st.heap.length < (attached expr st nd).heap.length ∧
      st.heap.length ∉ (attached expr st nd).found ∧
      ∀ n, valuesAt (attached expr st nd).heap st.heap.length n = []) := by
  have hle := getPropVal_heap_length st.heap nd.toElement
  have hinv0 : State.Inv { st with heap := (getPropVal st.heap nd.toElement).heap } :=
    hinv.heap_grow _ hle
  obtain ⟨hinvE, hlookE, hvalsE, hkeysE, ⟨ext, hheapE⟩, hfoundE⟩ :=
    ensureItem_spec hinv0 (getScope expr nd)
  have hvals0 : ∀ P n,
      State.valuesFor { st with heap := (getPropVal st.heap nd.toElement).heap } P n =
        st.valuesFor P n := by
    intro P n
    cases hs : (getAttr nd.attributes "itemscope").2
    · rw [(getPropVal_of_not_scope st.heap nd.toElement hs).1]
    · rw [(getPropVal_of_scope st.heap nd.toElement hs).2.2]
      exact State.valuesFor_heap_append hinv _ P n
  refine ⟨?_, ?_, ?_, ?_, ?_, ?_⟩
  · exact hinvE.heap_grow _ (by rw [addProps_length])
  · intro P n
    have := State.valuesFor_addProps hinvE _ _ hlookE
      (getPropVal st.heap nd.toElement).props (getPropVal st.heap nd.toElement).val P n
    simp only [attached]
    rw [this, hvalsE, hvals0]
  · exact hkeysE
  · refine ⟨((getPropVal st.heap nd.toElement).heap.length - st.heap.length) + ext.length, ?_⟩
    simp only [attached, addProps_length, hheapE, List.length_append]
    omega
  · intro P p hl
    simp only [attached]
    unfold ensureItem
    split
    · exact hl
    · next hnone =>
      simp only [State.register, lookup_mapSet]
      have hne : ¬ P = (getScope expr nd).scopePath := by
        rintro rfl
        rw [hnone] at hl; cases hl
      simp [hne, hl]
  · intro hs
    obtain ⟨_, _, hheap⟩ := getPropVal_of_scope st.heap nd.toElement hs
    have hL : st.heap.length < (getPropVal st.heap nd.toElement).heap.length := by
      rw [hheap]; simp
    have hnotfound : st.heap.length ∉
        (ensureItem { st with heap := (getPropVal st.heap nd.toElement).heap }
          (getScope expr nd)).2.found := by
      intro hm
      rcases hfoundE _ hm with h1 | h1
      · exact Nat.lt_irrefl _ (hinv.ptrs_lt _ h1)
      · exact Nat.ne_of_lt hL h1
    refine ⟨?_, hnotfound, ?_⟩
    · simp only [attached, addProps_length, hheapE, List.length_append]
      omega
    · intro n
      have hne : ¬ (st.heap.length =
          (ensureItem { st with heap := (getPropVal st.heap nd.toElement).heap }
            (getScope expr nd)).1) := by
        intro he
        apply hnotfound
        rw [← hinvE.found_eq]
        exact List.mem_map.2 ⟨(_, _), lookup_mem _ _ _ hlookE, he.symm⟩
      simp only [attached, valuesAt_addProps]
      rw [if_neg (fun h => hne h.1), List.append_nil, hheapE,
        valuesAt_append_of_lt _ _ _ _ hL, hheap]
      simp [valuesAt, Item.values]


theorem State.valuesFor_after_reader {st : State} (hinv : st.Inv) (nd : Element)
    (P n : String) :
    State.valuesFor { st with heap := (getPropVal st.heap nd).heap } P n =
      st.valuesFor P n := by
  cases hs : (getAttr nd.attributes "itemscope").2
  · rw [(getPropVal_of_not_scope st.heap nd hs).1]
  · rw [(getPropVal_of_scope st.heap nd hs).2.2]
    exact State.valuesFor_heap_append hinv _ P n

theorem readerOk_eq (h : Heap) (nd : Element) : readerOk nd = (getPropVal h nd).ok :=
  getPropVal_ok_indep [] h nd

theorem findStep_spec (expr : Expression) (itype : String) {st : State} (hinv : st.Inv)
    (nd : XmlNode) (hfresh : nd.path ∉ st.keys) (hself : nd.path ∉ ancestorPaths nd) :
    ∃ st', findStep expr itype st nd = .ok st' ∧ st'.Inv ∧
      (∀ P n, st'.valuesFor P n = st.valuesFor P n ++ contribution expr P n st nd) ∧
      st'.keys = st.keys ++ (newKeys expr itype nd).filter (fun k => decide (k ∉ st.keys)) ∧
      st.heap.length ≤ st'.heap.length ∧
      (∀ P p, st.items.lookup P = some p → st'.items.lookup P = some p) := by
  cases hok : (getPropVal st.heap nd.toElement).ok with
  | false =>
    refine ⟨st, findStep_of_reader_fail expr itype st nd hok, hinv, ?_, ?_, Nat.le_refl _,
      fun _ _ h => h⟩
    · intro P n; simp [contribution, hok]
    · simp [newKeys, readerOk_eq st.heap, hok]
  | true =>
    cases hsc : (getScope expr nd).ok with
    | false =>
      refine ⟨_, findStep_of_no_scope expr itype st nd hok hsc,
        hinv.heap_grow _ (getPropVal_heap_length _ _), ?_, ?_, getPropVal_heap_length _ _,
        fun _ _ h => h⟩
      · intro P n
        rw [State.valuesFor_after_reader hinv]
        simp [contribution, hsc]
      · simp [newKeys, hsc, State.keys]
    | true =>
      obtain ⟨hinvA, hvalsA, hkeysA, ⟨ext, hlenA⟩, hlookA, hitemA⟩ :=
        attached_spec expr hinv nd
      have hne : nd.path ≠ (getScope expr nd).scopePath := by
        intro he
        exact hself (he ▸ getScope_path_mem expr nd hsc)
      have hcontr : ∀ P n, contribution expr P n st nd =
          (if P = (getScope expr nd).scopePath then
            List.replicate ((getPropVal st.heap nd.toElement).props.count n)
              (getPropVal st.heap nd.toElement).val
           else []) := by
        intro P n
        by_cases hP : P = (getScope expr nd).scopePath
        · simp [contribution, hok, hsc, hP]
        · have hP2 : ¬ (getScope expr nd).scopePath = P := fun e => hP e.symm
          simp [contribution, hok, hsc, hP, hP2]
      cases hs : (getAttr nd.attributes "itemscope").2 with
      | false =>
        have hsurf : surfaces itype nd.toElement = false := by simp [surfaces, opensScope, hs]
        refine ⟨_, findStep_of_plain expr itype st nd hok hsc hs, hinvA, ?_, ?_,
          by omega, hlookA⟩
        · intro P n; rw [hvalsA, hcontr]
        · rw [hkeysA]
          by_cases hm : (getScope expr nd).scopePath ∈ st.keys <;>
            simp [newKeys, readerOk_eq st.heap, hok, hsc, hsurf, hm]
      | true =>
        obtain ⟨hlt, hnf, hempty⟩ := hitemA hs
        rw [findStep_of_item expr itype st nd hsc hs]
        cases hsurf : surfaces itype nd.toElement with
        | false =>
          refine ⟨_, rfl, ?_, ?_, ?_, ?_, ?_⟩
          · simpa using hinvA
          · intro P n; simp only [Bool.false_eq_true, if_false]; rw [hvalsA, hcontr]
          · simp only [Bool.false_eq_true, if_false]
            rw [hkeysA]
            by_cases hm : (getScope expr nd).scopePath ∈ st.keys <;>
              simp [newKeys, readerOk_eq st.heap, hok, hsc, hsurf, hm]
          · simp only [Bool.false_eq_true, if_false]; omega
          · simpa using hlookA
        | true =>
          have hkA : nd.path ∉ (attached expr st nd).keys := by
            rw [hkeysA]
            intro hm
            rcases List.mem_append.1 hm with h1 | h1
            · exact hfresh h1
            · split at h1
              · cases h1
              · exact hne (List.mem_singleton.1 h1)
          refine ⟨_, rfl, ?_, ?_, ?_, ?_, ?_⟩
          · simpa using hinvA.register _ _ hkA hnf hlt
          · intro P n
            simp only [if_true]
            rw [State.valuesFor_register _ _ _ hkA hempty, hvalsA, hcontr]
          · simp only [if_true]
            rw [State.keys_register _ _ _ hkA, hkeysA]
            by_cases hm : (getScope expr nd).scopePath ∈ st.keys <;>
              simp [newKeys, readerOk_eq st.heap, hok, hsc, hsurf, hm, hfresh]
          · simp only [if_true, State.register]; omega
          · intro P p hl
            simp only [if_true, State.register, lookup_mapSet]
            have hP : ¬ P = nd.path := by
              rintro rfl
              rw [lookup_eq_none_of_not_mem _ _ hfresh] at hl
              cases hl
            simp [hP, hlookA P p hl]


/-! ### The whole pass -/

theorem mem_newKeys (expr : Expression) (itype : String) (nd : XmlNode) (P : String)
    (h : P ∈ newKeys expr itype nd) : P = nd.path ∨ P ∈ ancestorPaths nd := by
  unfold newKeys at h
  split at h
  · next hc =>
    simp only [Bool.and_eq_true] at hc
    rcases List.mem_cons.1 h with h1 | h1
    · exact Or.inr (h1 ▸ getScope_path_mem expr nd hc.2)
    · split at h1
      · exact Or.inl (List.mem_singleton.1 h1)
      · cases h1
  · cases h

theorem DocOrder.tail {nd : XmlNode} {rest : List XmlNode} (h : DocOrder (nd :: rest)) :
    DocOrder rest :=
  ⟨fun m hm => h.1 m (List.mem_cons_of_mem _ hm), (List.pairwise_cons.1 h.2).2⟩

theorem DocOrder.head_self {nd : XmlNode} {rest : List XmlNode} (h : DocOrder (nd :: rest)) :
    nd.path ∉ ancestorPaths nd :=
  h.1 nd (List.mem_cons_self _ _)

theorem DocOrder.head_rest {nd : XmlNode} {rest : List XmlNode} (h : DocOrder (nd :: rest))
    {m : XmlNode} (hm : m ∈ rest) : m.path ≠ nd.path ∧ m.path ∉ ancestorPaths nd :=
  (List.pairwise_cons.1 h.2).1 m hm

theorem findLoop_spec (expr : Expression) (itype : String) (nodes : List XmlNode) :
    ∀ {st : State}, st.Inv → (∀ nd ∈ nodes, nd.path ∉ st.keys) → DocOrder nodes →
    ∃ st', findLoop expr itype st nodes = .ok st' ∧ st'.Inv ∧
      (∀ P n, st'.valuesFor P n =
        st.valuesFor P n ++ expectedValues expr itype P n st nodes) ∧
      (∀ P, P ∈ st'.keys ↔ P ∈ st.keys ∨ ∃ nd ∈ nodes, P ∈ newKeys expr itype nd) ∧
      (∀ P p, st.items.lookup P = some p → st'.items.lookup P = some p) := by
  induction nodes with
  | nil =>
    intro st hinv _ _
    exact ⟨st, rfl, hinv, by simp [expectedValues], by simp, fun _ _ h => h⟩
  | cons nd rest ih =>
    intro st hinv hfresh hdoc
    obtain ⟨st1, hstep, hinv1, hvals1, hkeys1, _, hlook1⟩ :=
      findStep_spec expr itype hinv nd (hfresh nd (List.mem_cons_self _ _)) hdoc.head_self
    have hfresh1 : ∀ m ∈ rest, m.path ∉ st1.keys := by
      intro m hm hmem
      rw [hkeys1] at hmem
      rcases List.mem_append.1 hmem with h1 | h1
      · exact hfresh m (List.mem_cons_of_mem _ hm) h1
      · rcases mem_newKeys expr itype nd _ (List.mem_filter.1 h1).1 with h2 | h2
        · exact (hdoc.head_rest hm).1 h2
        · exact (hdoc.head_rest hm).2 h2
    obtain ⟨st2, hloop, hinv2, hvals2, hkeys2, hlook2⟩ := ih hinv1 hfresh1 hdoc.tail
    refine ⟨st2, ?_, hinv2, ?_, ?_, fun P p h => hlook2 P p (hlook1 P p h)⟩
    · simp only [findLoop, hstep, hloop]
    · intro P n
      rw [hvals2, hvals1]
      simp only [expectedValues, hstep, List.append_assoc]
    · intro P
      rw [hkeys2, hkeys1]
      simp only [List.mem_append, List.mem_filter, decide_eq_true_eq, List.mem_cons,
        exists_eq_or_imp]
      constructor
      · rintro ((h | ⟨h, _⟩) | h)
        · exact Or.inl h
        · exact Or.inr (Or.inl h)
        · exact Or.inr (Or.inr h)
      · rintro (h | h | h)
        · exact Or.inl (Or.inl h)
        · by_cases hk : P ∈ st.keys
          · exact Or.inl (Or.inl hk)
          · exact Or.inl (Or.inr ⟨h, hk⟩)
        · exact Or.inr h


/-! ### Documents are in document order -/

theorem pathChars_head (l : List Nat) : pathChars l = [] ∨ ∃ t, pathChars l = '/' :: t := by
  cases l with
  | nil => exact Or.inl rfl
  | cons i rest => exact Or.inr ⟨_, rfl⟩

theorem stars_split (i j : Nat) (a b : List Char)
    (ha : a = [] ∨ ∃ t, a = '/' :: t) (hb : b = [] ∨ ∃ t, b = '/' :: t)
    (h : List.replicate i '*' ++ a = List.replicate j '*' ++ b) : i = j ∧ a = b := by
  induction i generalizing j with
  | zero =>
    cases j with
    | zero => exact ⟨rfl, by simpa using h⟩
    | succ j =>
      exfalso
      simp only [List.replicate_zero, List.nil_append, List.replicate_succ, List.cons_append] at h
      rcases ha with ha | ⟨t, ha⟩
      · rw [ha] at h; cases h
      · rw [ha] at h
        have := (List.cons.inj h).1
        exact absurd this (by decide)
  | succ i ih =>
    cases j with
    | zero =>
      exfalso
      simp only [List.replicate_zero, List.nil_append, List.replicate_succ, List.cons_append] at h
      rcases hb with hb | ⟨t, hb⟩
      · rw [hb] at h; cases h
      · rw [hb] at h
        have := (List.cons.inj h).1
        exact absurd this (by decide)
    | succ j =>
      simp only [List.replicate_succ, List.cons_append] at h
      obtain ⟨h1, h2⟩ := ih j (List.cons.inj h).2
      exact ⟨by rw [h1], h2⟩

theorem pathChars_injective : ∀ (p q : List Nat), pathChars p = pathChars q → p = q
  | [], [], _ => rfl
  | [], _ :: _, h => by simp [pathChars] at h
  | _ :: _, [], h => by simp [pathChars] at h
  | i :: p, j :: q, h => by
    simp only [pathChars, List.cons.injEq, true_and] at h
    obtain ⟨h1, h2⟩ := stars_split i j _ _ (pathChars_head p) (pathChars_head q) h
    rw [h1, pathChars_injective p q h2]

theorem encodePath_injective (p q : List Nat) (h : encodePath p = encodePath q) : p = q := by
  unfold encodePath at h
  exact pathChars_injective p q (congrArg String.data h)


theorem Located.self_not_ancestor {x : XmlNode} {q : List Nat} (h : Located x q) :
    x.path ∉ ancestorPaths x := by
  intro hm
  obtain ⟨p, r, hr, hq, hp⟩ := h.2 _ hm
  have := encodePath_injective _ _ (h.1.symm.trans hp)
  rw [this] at hq
  exact hr (by simpa using hq)

theorem Located.later {x y : XmlNode} {p q : List Nat} (hx : Located x p) (hy : Located y q)
    (hnp : ∀ r, p ≠ q ++ r) : y.path ≠ x.path ∧ y.path ∉ ancestorPaths x := by
  constructor
  · intro he
    have := encodePath_injective _ _ (hy.1.symm.trans (he.trans hx.1))
    exact hnp [] (by simp [this])
  · intro hm
    obtain ⟨p', r, _, hq, hp⟩ := hx.2 _ hm
    have := encodePath_injective _ _ (hy.1.symm.trans hp)
    exact hnp r (by rw [this]; exact hq)

mutual
theorem propNodes_located : ∀ (t : Html) (idx : List Nat) (anc : List Element),
    (∀ a ∈ anc, ∃ p r, r ≠ [] ∧ idx = p ++ r ∧ a.path = encodePath p) →
    ∀ x ∈ Html.propNodes idx anc t, ∃ u, Located x (idx ++ u)
  | .text _, _, _, _, x, hx => by simp [Html.propNodes] at hx
  | .element name attrs cs, idx, anc, hanc, x, hx => by
    simp only [Html.propNodes, List.mem_append] at hx
    rcases hx with hx | hx
    · split at hx
      · rw [List.mem_singleton] at hx
        subst hx
        refine ⟨[], ?_, ?_⟩
        · simp [Html.record]
        · intro a ha
          simp only [ancestorPaths, List.mem_map] at ha
          obtain ⟨el, hel, rfl⟩ := ha
          obtain ⟨p, r, hr, hi, hp⟩ := hanc el hel
          exact ⟨p, r, hr, by simpa using hi, hp⟩
      · cases hx
    · have hanc2 : ∀ a ∈ anc ++ [Html.record idx name attrs cs],
          ∃ p r, idx = p ++ r ∧ a.path = encodePath p := by
        intro a ha
        rcases List.mem_append.1 ha with h1 | h1
        · obtain ⟨p, r, _, hi, hp⟩ := hanc a h1
          exact ⟨p, r, hi, hp⟩
        · rw [List.mem_singleton] at h1
          subst h1
          exact ⟨idx, [], by simp, rfl⟩
      obtain ⟨j, u, _, hl⟩ := propNodesList_located cs idx _ 0 hanc2 x hx
      exact ⟨j :: u, hl⟩
theorem propNodesList_located : ∀ (cs : List Html) (idx : List Nat) (anc : List Element)
    (i : Nat), (∀ a ∈ anc, ∃ p r, idx = p ++ r ∧ a.path = encodePath p) →
    ∀ x ∈ Html.propNodesList idx anc i cs, ∃ j u, i ≤ j ∧ Located x (idx ++ j :: u)
  | [], _, _, _, _, x, hx => by simp [Html.propNodesList] at hx
  | c :: cs, idx, anc, i, hanc, x, hx => by
    simp only [Html.propNodesList, List.mem_append] at hx
    rcases hx with hx | hx
    · have hanc2 : ∀ a ∈ anc, ∃ p r, r ≠ [] ∧ idx ++ [i] = p ++ r ∧ a.path = encodePath p := by
        intro a ha
        obtain ⟨p, r, hi, hp⟩ := hanc a ha
        exact ⟨p, r ++ [i], by simp, by rw [hi, List.append_assoc], hp⟩
      obtain ⟨u, hl⟩ := propNodes_located c (idx ++ [i]) anc hanc2 x hx
      exact ⟨i, u, Nat.le_refl _, by simpa using hl⟩
    · obtain ⟨j, u, hj, hl⟩ := propNodesList_located cs idx anc (i + 1) hanc x hx
      exact ⟨j, u, by omega, hl⟩
end

mutual
theorem propNodes_pairwise : ∀ (t : Html) (idx : List Nat) (anc : List Element),
    (∀ a ∈ anc, ∃ p r, r ≠ [] ∧ idx = p ++ r ∧ a.path = encodePath p) →
    (Html.propNodes idx anc t).Pairwise
      (fun a b => b.path ≠ a.path ∧ b.path ∉ ancestorPaths a)
  | .text _, _, _, _ => by simp [Html.propNodes]
  | .element name attrs cs, idx, anc, hanc => by
    have hanc2 : ∀ a ∈ anc ++ [Html.record idx name attrs cs],
        ∃ p r, idx = p ++ r ∧ a.path = encodePath p := by
      intro a ha
      rcases List.mem_append.1 ha with h1 | h1
      · obtain ⟨p, r, _, hi, hp⟩ := hanc a h1
        exact ⟨p, r, hi, hp⟩
      · rw [List.mem_singleton] at h1
        subst h1
        exact ⟨idx, [], by simp, rfl⟩
    simp only [Html.propNodes]
    rw [List.pairwise_append]
    refine ⟨?_, propNodesList_pairwise cs idx _ 0 hanc2, ?_⟩
    · split
      · exact List.pairwise_singleton _ _
      · exact List.Pairwise.nil
    · intro x hx y hy
      obtain ⟨u, hlx⟩ := propNodes_located (.element name attrs cs) idx anc hanc x (by
        simp only [Html.propNodes]; exact List.mem_append_left _ hx)
      have hu : u = [] := by
        split at hx
        · rw [List.mem_singleton] at hx
          have h1 := hlx.1
          rw [hx] at h1
          have := encodePath_injective _ _ h1
          simpa using this.symm
        · cases hx
      subst hu
      obtain ⟨j, v, _, hly⟩ := propNodesList_located cs idx _ 0 hanc2 y hy
      refine Located.later hlx hly ?_
      intro r he
      have := congrArg List.length he
      simp at this
theorem propNodesList_pairwise : ∀ (cs : List Html) (idx : List Nat) (anc : List Element)
    (i : Nat), (∀ a ∈ anc, ∃ p r, idx = p ++ r ∧ a.path = encodePath p) →
    (Html.propNodesList idx anc i cs).Pairwise
      (fun a b => b.path ≠ a.path ∧ b.path ∉ ancestorPaths a)
  | [], _, _, _, _ => by simp [Html.propNodesList]
  | c :: cs, idx, anc, i, hanc => by
    have hanc2 : ∀ a ∈ anc, ∃ p r, r ≠ [] ∧ idx ++ [i] = p ++ r ∧ a.path = encodePath p := by
      intro a ha
      obtain ⟨p, r, hi, hp⟩ := hanc a ha
      exact ⟨p, r ++ [i], by simp, by rw [hi, List.append_assoc], hp⟩
    simp only [Html.propNodesList]
    rw [List.pairwise_append]
    refine ⟨propNodes_pairwise c (idx ++ [i]) anc hanc2,
      propNodesList_pairwise cs idx anc (i + 1) hanc, ?_⟩
    intro x hx y hy
    obtain ⟨u, hlx⟩ := propNodes_located c (idx ++ [i]) anc hanc2 x hx
    obtain ⟨j, v, hj, hly⟩ := propNodesList_located cs idx anc (i + 1) hanc y hy
    refine Located.later hlx hly ?_
    intro r he
    simp only [List.append_assoc, List.singleton_append, List.cons_append,
      List.append_cancel_left_eq, List.cons.injEq] at he
    omega
end

theorem ParseXmlNode_docOrder (doc : Html) (nodes : List XmlNode)
    (h : (ParseXmlNode doc).propNodes = .ok nodes) : DocOrder nodes := by
  cases doc with
  | text s =>
    simp only [ParseXmlNode, Except.ok.injEq] at h
    subst h
    exact ⟨by simp, List.Pairwise.nil⟩
  | element name attrs cs =>
    simp only [ParseXmlNode, Except.ok.injEq] at h
    subst h
    have hanc : ∀ a ∈ [Html.record [] name attrs cs],
        ∃ p r, ([] : List Nat) = p ++ r ∧ a.path = encodePath p := by
      intro a ha
      rw [List.mem_singleton] at ha
      subst ha
      exact ⟨[], [], rfl, rfl⟩
    refine ⟨?_, propNodesList_pairwise cs [] _ 0 hanc⟩
    intro x hx
    obtain ⟨j, u, _, hl⟩ := propNodesList_located cs [] _ 0 hanc x hx
    exact hl.self_not_ancestor


/-! ### Resolution to the nearest matching ancestor -/

theorem getScope_of_split (expr : Expression) (nd : XmlNode) (before after : List Element)
    (inner : Element) (hanc : nd.ancestors = .ok (before ++ inner :: after))
    (hin : expr.test inner = true) (hafter : ∀ a ∈ after, expr.test a = false) :
    getScope expr nd =
      { scopePath := inner.path, scopeType := declaredType inner, ok := true } := by
  have hfa : List.filter expr.test after = [] := by
    rw [List.filter_eq_nil_iff]
    intro a ha
    simp [hafter a ha]
  simp [getScope, XmlNode.Search, hanc, List.filter_append, List.filter_cons, hin, hfa,
    declaredType]

theorem getScope_of_none (expr : Expression) (nd : XmlNode) (ancs : List Element)
    (hanc : nd.ancestors = .ok ancs) (hnone : ∀ a ∈ ancs, expr.test a = false) :
    (getScope expr nd).ok = false := by
  have hfa : List.filter expr.test ancs = [] := by
    rw [List.filter_eq_nil_iff]
    intro a ha
    simp [hnone a ha]
  simp [getScope, XmlNode.Search, hanc, hfa]

theorem findStep_attach (expr : Expression) (itype : String) {st : State} (hinv : st.Inv)
    (nd : XmlNode) (hfresh : nd.path ∉ st.keys) (hself : nd.path ∉ ancestorPaths nd)
    (hok : (getPropVal st.heap nd.toElement).ok = true)
    (hsc : (getScope expr nd).ok = true) :
    ∃ st', findStep expr itype st nd = .ok st' ∧
      (∀ n, st'.valuesFor (getScope expr nd).scopePath n =
        st.valuesFor (getScope expr nd).scopePath n ++
          List.replicate ((getPropVal st.heap nd.toElement).props.count n)
            (getPropVal st.heap nd.toElement).val) ∧
      (∀ P, P ≠ (getScope expr nd).scopePath → ∀ n, st'.valuesFor P n = st.valuesFor P n) := by
  obtain ⟨st', hstep, _, hvals, _⟩ := findStep_spec expr itype hinv nd hfresh hself
  refine ⟨st', hstep, ?_, ?_⟩
  · intro n
    rw [hvals]
    simp [contribution, hok, hsc]
  · intro P hP n
    rw [hvals]
    have hP2 : ¬ (getScope expr nd).scopePath = P := fun e => hP e.symm
    simp [contribution, hP2]

theorem findStep_skip (expr : Expression) (itype : String) (st : State) (nd : XmlNode)
    (hsc : (getScope expr nd).ok = false) :
    ∃ st', findStep expr itype st nd = .ok st' ∧ st'.found = st.found ∧
      st'.items = st.items ∧ ∀ p n, p < st.heap.length →
        valuesAt st'.heap p n = valuesAt st.heap p n := by
  cases hok : (getPropVal st.heap nd.toElement).ok with
  | false =>
    exact ⟨st, findStep_of_reader_fail expr itype st nd hok, rfl, rfl, fun _ _ _ => rfl⟩
  | true =>
    refine ⟨_, findStep_of_no_scope expr itype st nd hok hsc, rfl, rfl, ?_⟩
    intro p n hp
    cases hs : (getAttr nd.attributes "itemscope").2
    · simp only [(getPropVal_of_not_scope st.heap nd.toElement hs).1]
    · simp only [(getPropVal_of_scope st.heap nd.toElement hs).2.2]
      exact valuesAt_append_of_lt _ _ _ _ hp

theorem attached_new (expr : Expression) (st : State) (nd : XmlNode)
    (hnone : st.items.lookup (getScope expr nd).scopePath = none) :
    (attached expr st nd).items.lookup (getScope expr nd).scopePath =
      some (getPropVal st.heap nd.toElement).heap.length ∧
    typeAt (attached expr st nd).heap (getPropVal st.heap nd.toElement).heap.length =
      (getScope expr nd).scopeType ∧
    (getPropVal st.heap nd.toElement).heap.length ∈ (attached expr st nd).found := by
  refine ⟨?_, ?_, ?_⟩
  · simp [attached, ensureItem, hnone, State.register, makeItem, lookup_mapSet]
  · simp only [attached, ensureItem, hnone, State.register, makeItem]
    rw [typeAt_addProps, typeAt_append_length]
  · simp [attached, ensureItem, hnone, State.register, makeItem]

theorem findStep_new_scope (expr : Expression) (itype : String) {st : State} (hinv : st.Inv)
    (nd : XmlNode) (hself : nd.path ∉ ancestorPaths nd)
    (hok : (getPropVal st.heap nd.toElement).ok = true)
    (hsc : (getScope expr nd).ok = true)
    (hnone : st.items.lookup (getScope expr nd).scopePath = none) :
    ∃ st' ptr, findStep expr itype st nd = .ok st' ∧
      st'.items.lookup (getScope expr nd).scopePath = some ptr ∧
      typeAt st'.heap ptr = (getScope expr nd).scopeType ∧
      ptr ∈ st'.found ∧ ptr ∉ st.found ∧ st.heap.length ≤ ptr := by
  obtain ⟨hlook, hty, hmem⟩ := attached_new expr st nd hnone
  have hfr := getPropVal_heap_length st.heap nd.toElement
  have hnotin : (getPropVal st.heap nd.toElement).heap.length ∉ st.found := by
    intro hm
    have h1 := hinv.ptrs_lt _ hm
    have h2 := getPropVal_heap_length st.heap nd.toElement
    omega
  have hne : ¬ (getScope expr nd).scopePath = nd.path := by
    intro he
    exact hself (he ▸ getScope_path_mem expr nd hsc)
  cases hs : (getAttr nd.attributes "itemscope").2 with
  | false =>
    exact ⟨_, _, findStep_of_plain expr itype st nd hok hsc hs, hlook, hty, hmem, hnotin, hfr⟩
  | true =>
    refine ⟨_, _, findStep_of_item expr itype st nd hsc hs, ?_, ?_, ?_, hnotin, hfr⟩
    · split
      · simp only [State.register, lookup_mapSet, hne, if_false]
        exact hlook
      · exact hlook
    · split
      · exact hty
      · exact hty
    · split
      · exact List.mem_append_left _ hmem
      · exact hmem

/-! ### Splitting a pass -/

theorem findLoop_append (expr : Expression) (itype : String) (pre rest : List XmlNode) :
    ∀ st, findLoop expr itype st (pre ++ rest) =
      match findLoop expr itype st pre with
      | .ok st1 => findLoop expr itype st1 rest
      | .error e => .error e := by
  induction pre with
  | nil => intro st; rfl
  | cons nd pre ih =>
    intro st
    simp only [List.cons_append, findLoop]
    cases findStep expr itype st nd with
    | ok st1 => exact ih st1
    | error e => rfl

theorem DocOrder.split {pre rest : List XmlNode} (h : DocOrder (pre ++ rest)) :
    DocOrder pre ∧ DocOrder rest ∧
      ∀ a ∈ pre, ∀ b ∈ rest, b.path ≠ a.path ∧ b.path ∉ ancestorPaths a := by
  obtain ⟨h1, h2⟩ := h
  rw [List.pairwise_append] at h2
  exact ⟨⟨fun nd hnd => h1 nd (List.mem_append_left _ hnd), h2.1⟩,
    ⟨fun nd hnd => h1 nd (List.mem_append_right _ hnd), h2.2.1⟩, h2.2.2⟩

theorem State.Inv.found_length {st : State} (hinv : st.Inv) :
    st.found.length = st.keys.length := by
  rw [← hinv.found_eq]
  simp [State.keys]

/-! ### Nested items -/

theorem findStep_surfaces (expr : Expression) (itype : String) (st : State) (nd : XmlNode)
    (hsc : (getScope expr nd).ok = true) (hsurf : surfaces itype nd.toElement = true) :
    ∃ st', findStep expr itype st nd = .ok st' ∧
      (getPropVal st.heap nd.toElement).val = .item st.heap.length ∧
      st'.items.lookup nd.path = some st.heap.length ∧ st.heap.length ∈ st'.found ∧
      typeAt st'.heap st.heap.length = declaredType nd.toElement := by
  have hs : (getAttr nd.attributes "itemscope").2 = true := by
    simp only [surfaces, opensScope, Bool.and_eq_true] at hsurf
    exact hsurf.1
  refine ⟨_, findStep_of_item expr itype st nd hsc hs,
    (getPropVal_of_scope st.heap nd.toElement hs).1, ?_, ?_, ?_⟩
  · simp [hsurf, State.register, lookup_mapSet]
  · simp [hsurf, State.register]
  · simp only [hsurf, if_true, State.register]
    exact attached_type expr st nd hs

theorem findStep_not_surfaces (expr : Expression) (itype : String) (st : State)
    (nd : XmlNode) (hok : (getPropVal st.heap nd.toElement).ok = true)
    (hsc : (getScope expr nd).ok = true) (hsurf : surfaces itype nd.toElement = false) :
    findStep expr itype st nd = .ok (attached expr st nd) := by
  cases hs : (getAttr nd.attributes "itemscope").2 with
  | false => exact findStep_of_plain expr itype st nd hok hsc hs
  | true => simp [findStep_of_item expr itype st nd hsc hs, hsurf]

/-! ### `strings.Split` -/

theorem splitChars_ne_nil (sep : Char) (l : List Char) : splitChars sep l ≠ [] := by
  cases l with
  | nil => simp [splitChars]
  | cons c cs =>
    simp only [splitChars]
    split
    · simp
    · split <;> simp

theorem intercalate_cons_cons (sep a b : List Char) (l : List (List Char)) :
    List.intercalate sep (a :: b :: l) = a ++ sep ++ List.intercalate sep (b :: l) := by
  simp [List.intercalate, List.intersperse]

theorem splitChars_intercalate (sep : Char) (l : List Char) :
    List.intercalate [sep] (splitChars sep l) = l := by
  induction l with
  | nil => simp [splitChars, List.intercalate]
  | cons c cs ih =>
    simp only [splitChars]
    cases hsp : splitChars sep cs with
    | nil => exact absurd hsp (splitChars_ne_nil sep cs)
    | cons w ws =>
      rw [hsp] at ih
      by_cases hc : c = sep
      · simp only [hc, if_true]
        rw [intercalate_cons_cons, ih]
        simp
      · simp only [hc, if_false]
        cases ws with
        | nil =>
          simp [List.intercalate] at ih ⊢
          exact ih
        | cons w2 ws2 =>
          rw [intercalate_cons_cons] at ih ⊢
          simp only [List.cons_append, List.append_assoc]
          rw [← ih]
          simp

theorem splitChars_no_sep (sep : Char) (l : List Char) :
    ∀ w ∈ splitChars sep l, sep ∉ w := by
  induction l with
  | nil => simp [splitChars]
  | cons c cs ih =>
    simp only [splitChars]
    by_cases hc : c = sep
    · simp only [hc, if_true, List.mem_cons]
      rintro w (rfl | hw)
      · simp
      · exact ih w hw
    · simp only [hc, if_false]
      cases hsp : splitChars sep cs with
      | nil => exact absurd hsp (splitChars_ne_nil sep cs)
      | cons w ws =>
        rw [hsp] at ih
        simp only [List.mem_cons]
        rintro x (rfl | hx)
        · intro hm
          rcases List.mem_cons.1 hm with h1 | h1
          · exact hc h1.symm
          · exact ih w (List.mem_cons_self _ _) h1
        · exact ih x (List.mem_cons_of_mem _ hx)

theorem Split_spec (s : String) (sep : Char) :
    List.intercalate [sep] ((strings.Split s sep).map String.toList) = s.toList ∧
    ∀ w ∈ strings.Split s sep, sep ∉ w.toList := by
  constructor
  · simp only [strings.Split, List.map_map]
    have : (String.toList ∘ String.mk) = id := by funext l; rfl
    rw [this, List.map_id, splitChars_intercalate]
  · intro w hw
    simp only [strings.Split, List.mem_map] at hw
    obtain ⟨l, hl, rfl⟩ := hw
    exact splitChars_no_sep sep _ l hl

/-! ### The pass never stops half-way -/

theorem findStep_ok (expr : Expression) (itype : String) (st : State) (nd : XmlNode) :
    ∃ st', findStep expr itype st nd = .ok st' := by
  cases hok : (getPropVal st.heap nd.toElement).ok with
  | false => exact ⟨_, findStep_of_reader_fail expr itype st nd hok⟩
  | true =>
    cases hsc : (getScope expr nd).ok with
    | false => exact ⟨_, findStep_of_no_scope expr itype st nd hok hsc⟩
    | true =>
      cases hs : (getAttr nd.attributes "itemscope").2 with
      | false => exact ⟨_, findStep_of_plain expr itype st nd hok hsc hs⟩
      | true => exact ⟨_, findStep_of_item expr itype st nd hsc hs⟩

theorem findLoop_ok (expr : Expression) (itype : String) (nodes : List XmlNode) :
    ∀ st, ∃ st', findLoop expr itype st nodes = .ok st' := by
  induction nodes with
  | nil => intro st; exact ⟨st, rfl⟩
  | cons nd rest ih =>
    intro st
    obtain ⟨st1, h1⟩ := findStep_ok expr itype st nd
    obtain ⟨st2, h2⟩ := ih st1
    exact ⟨st2, by simp only [findLoop, h1, h2]⟩

/-! ### Closed forms of the state after attaching, and the types of the listed items -/

theorem attached_of_registered (expr : Expression) (st : State) (nd : XmlNode) (q : Nat)
    (hl : st.items.lookup (getScope expr nd).scopePath = some q) :
    attached expr st nd =
      { found := st.found, items := st.items,
        heap := addProps (getPropVal st.heap nd.toElement).heap q
          (getPropVal st.heap nd.toElement).props (getPropVal st.heap nd.toElement).val } := by
  simp [attached, ensureItem, hl]

theorem attached_of_unregistered (expr : Expression) (st : State) (nd : XmlNode)
    (hl : st.items.lookup (getScope expr nd).scopePath = none) :
    attached expr st nd =
      { found := st.found ++ [(getPropVal st.heap nd.toElement).heap.length],
        items := mapSet st.items (getScope expr nd).scopePath
          (getPropVal st.heap nd.toElement).heap.length,
        heap := addProps
          ((getPropVal st.heap nd.toElement).heap ++
            [{ itemType := (getScope expr nd).scopeType, properties := [] }])
          (getPropVal st.heap nd.toElement).heap.length
          (getPropVal st.heap nd.toElement).props (getPropVal st.heap nd.toElement).val } := by
  simp [attached, ensureItem, hl, State.register, makeItem]

theorem getPropVal_typeAt (h : Heap) (nd : Element) (q : Nat) (hq : q < h.length) :
    typeAt (getPropVal h nd).heap q = typeAt h q := by
  cases hs : (getAttr nd.attributes "itemscope").2
  · rw [(getPropVal_of_not_scope h nd hs).1]
  · rw [(getPropVal_of_scope h nd hs).2.2]
    exact typeAt_append_of_lt _ _ _ hq

theorem attached_typeAt (expr : Expression) (st : State) (nd : XmlNode) (q : Nat)
    (hq : q < st.heap.length) :
    typeAt (attached expr st nd).heap q = typeAt st.heap q := by
  have hq2 : q < (getPropVal st.heap nd.toElement).heap.length :=
    Nat.lt_of_lt_of_le hq (getPropVal_heap_length _ _)
  cases hl : st.items.lookup (getScope expr nd).scopePath with
  | some p =>
    rw [attached_of_registered expr st nd p hl]
    simp only [typeAt_addProps]
    exact getPropVal_typeAt _ _ _ hq
  | none =>
    rw [attached_of_unregistered expr st nd hl]
    simp only [typeAt_addProps]
    rw [typeAt_append_of_lt _ _ _ hq2]
    exact getPropVal_typeAt _ _ _ hq

theorem attached_heap_length (expr : Expression) (st : State) (nd : XmlNode) :
    (getPropVal st.heap nd.toElement).heap.length ≤ (attached expr st nd).heap.length := by
  cases hl : st.items.lookup (getScope expr nd).scopePath with
  | some p => rw [attached_of_registered expr st nd p hl]; simp [addProps_length]
  | none => rw [attached_of_unregistered expr st nd hl]; simp [addProps_length]

theorem attached_foundTyped (expr : Expression) (T : String) (st : State) (nd : XmlNode)
    (hst : st.FoundTyped T) (hT : (getScope expr nd).scopeType = T) :
    (attached expr st nd).FoundTyped T := by
  have hlen := attached_heap_length expr st nd
  have hle := getPropVal_heap_length st.heap nd.toElement
  have hold : ∀ q ∈ st.found, q < (attached expr st nd).heap.length ∧
      typeAt (attached expr st nd).heap q = T := by
    intro q hq
    obtain ⟨h1, h2⟩ := hst q hq
    exact ⟨by omega, by rw [attached_typeAt expr st nd q h1]; exact h2⟩
  cases hl : st.items.lookup (getScope expr nd).scopePath with
  | some p =>
    intro q hq
    have hf : (attached expr st nd).found = st.found := by
      rw [attached_of_registered expr st nd p hl]
    rw [hf] at hq
    exact hold q hq
  | none =>
    intro q hq
    have hf : (attached expr st nd).found =
        st.found ++ [(getPropVal st.heap nd.toElement).heap.length] := by
      rw [attached_of_unregistered expr st nd hl]
    rw [hf] at hq
    rcases List.mem_append.1 hq with h1 | h1
    · exact hold q h1
    · rw [List.mem_singleton] at h1
      subst h1
      rw [attached_of_unregistered expr st nd hl]
      simp only [addProps_length, typeAt_addProps, typeAt_append_length, List.length_append,
        List.length_singleton]
      exact ⟨by omega, hT⟩

theorem findStep_foundTyped (expr : Expression) (itype T : String) (st st' : State)
    (nd : XmlNode) (hst : st.FoundTyped T)
    (hscope : (getScope expr nd).ok = true → (getScope expr nd).scopeType = T)
    (hnest : surfaces itype nd.toElement = true → declaredType nd.toElement = T)
    (hstep : findStep expr itype st nd = .ok st') : st'.FoundTyped T := by
  cases hok : (getPropVal st.heap nd.toElement).ok with
  | false =>
    rw [findStep_of_reader_fail expr itype st nd hok] at hstep
    cases hstep
    exact hst
  | true =>
    cases hsc : (getScope expr nd).ok with
    | false =>
      rw [findStep_of_no_scope expr itype st nd hok hsc] at hstep
      cases hstep
      intro q hq
      obtain ⟨h1, h2⟩ := hst q hq
      have hle := getPropVal_heap_length st.heap nd.toElement
      exact ⟨by simp only; omega, by simp only; rw [getPropVal_typeAt _ _ _ h1]; exact h2⟩
    | true =>
      have hA := attached_foundTyped expr T st nd hst (hscope hsc)
      cases hsurf : surfaces itype nd.toElement with
      | false =>
        rw [findStep_not_surfaces expr itype st nd hok hsc hsurf] at hstep
        cases hstep
        exact hA
      | true =>
        have hs : (getAttr nd.attributes "itemscope").2 = true := by
          simp only [surfaces, opensScope, Bool.and_eq_true] at hsurf
          exact hsurf.1
        rw [findStep_of_item expr itype st nd hsc hs] at hstep
        simp only [hsurf, if_true, Except.ok.injEq] at hstep
        subst hstep
        intro q hq
        simp only [State.register, List.mem_append, List.mem_singleton] at hq ⊢
        rcases hq with h1 | h1
        · exact hA q h1
        · subst h1
          have hlen := attached_heap_length expr st nd
          have hr := (getPropVal_of_scope st.heap nd.toElement hs).2.2
          have hL : st.heap.length < (getPropVal st.heap nd.toElement).heap.length := by
            rw [hr]; simp
          exact ⟨by omega, by rw [attached_type expr st nd hs]; exact hnest hsurf⟩

theorem findLoop_foundTyped (expr : Expression) (itype T : String) (nodes : List XmlNode)
    (hscope : ∀ nd ∈ nodes, (getScope expr nd).ok = true → (getScope expr nd).scopeType = T)
    (hnest : ∀ nd ∈ nodes, surfaces itype nd.toElement = true →
      declaredType nd.toElement = T) :
    ∀ st st', st.FoundTyped T → findLoop expr itype st nodes = .ok st' →
      st'.FoundTyped T := by
  induction nodes with
  | nil =>
    intro st st' hst h
    simp only [findLoop, Except.ok.injEq] at h
    subst h
    exact hst
  | cons nd rest ih =>
    intro st st' hst h
    obtain ⟨st1, h1⟩ := findStep_ok expr itype st nd
    simp only [findLoop, h1] at h
    exact ih (fun m hm => hscope m (List.mem_cons_of_mem _ hm))
      (fun m hm => hnest m (List.mem_cons_of_mem _ hm)) st1 st'
      (findStep_foundTyped expr itype T st st1 nd hst (hscope nd (List.mem_cons_self _ _))
        (hnest nd (List.mem_cons_self _ _)) h1) h

theorem getScope_typed_type (T : String) (hq : '"' ∉ T.toList) (nd : XmlNode)
    (hok : (getScope (scopeSearchTmpl T) nd).ok = true) :
    (getScope (scopeSearchTmpl T) nd).scopeType = T := by
  unfold getScope at *
  cases hl : (match nd.Search (scopeSearchTmpl T) with
      | .ok r => r
      | .error _ => []).getLast? with
  | none => simp [hl] at hok
  | some sc =>
    simp only [hl]
    have hmem := List.mem_of_getLast?_eq_some hl
    have htest : (scopeSearchTmpl T).test sc = true := by
      unfold XmlNode.Search at hmem
      cases hanc : nd.ancestors with
      | error e => simp [hanc] at hmem
      | ok as =>
        simp only [hanc] at hmem
        exact (List.mem_filter.1 hmem).2
    rw [scopeSearchTmpl_test T hq] at htest
    simp only [Bool.and_eq_true, beq_iff_eq] at htest
    simp [getAttr, htest.2]

/-! ### Order of registration -/

theorem registered_append (expr : Expression) (itype : String) (pre post : List XmlNode) :
    ∀ keys, registered expr itype keys (pre ++ post) =
      registered expr itype (registered expr itype keys pre) post := by
  induction pre with
  | nil => intro keys; rfl
  | cons nd pre ih =>
    intro keys
    show registered expr itype _ (pre ++ post) = _
    rw [ih]
    rfl

theorem registered_prefix (expr : Expression) (itype : String) (nodes : List XmlNode) :
    ∀ keys, ∃ later, registered expr itype keys nodes = keys ++ later := by
  induction nodes with
  | nil => intro keys; exact ⟨[], by simp [registered]⟩
  | cons nd rest ih =>
    intro keys
    obtain ⟨later, h⟩ := ih (keys ++ (newKeys expr itype nd).filter (fun k => decide (k ∉ keys)))
    exact ⟨(newKeys expr itype nd).filter (fun k => decide (k ∉ keys)) ++ later,
      by simp only [registered, h, List.append_assoc]⟩

theorem mem_registered (expr : Expression) (itype : String) (nodes : List XmlNode) :
    ∀ keys P, P ∈ registered expr itype keys nodes ↔
      P ∈ keys ∨ ∃ nd ∈ nodes, P ∈ newKeys expr itype nd := by
  induction nodes with
  | nil => intro keys P; simp [registered]
  | cons nd rest ih =>
    intro keys P
    simp only [registered, ih, List.mem_append, List.mem_filter, decide_eq_true_eq,
      List.mem_cons, exists_eq_or_imp]
    constructor
    · rintro ((h | ⟨h, _⟩) | h)
      · exact Or.inl h
      · exact Or.inr (Or.inl h)
      · exact Or.inr (Or.inr h)
    · rintro (h | h | h)
      · exact Or.inl (Or.inl h)
      · by_cases hk : P ∈ keys
        · exact Or.inl (Or.inl hk)
        · exact Or.inl (Or.inr ⟨h, hk⟩)
      · exact Or.inr h

theorem findLoop_keys (expr : Expression) (itype : String) (nodes : List XmlNode) :
    ∀ {st : State}, st.Inv → (∀ nd ∈ nodes, nd.path ∉ st.keys) → DocOrder nodes →
    ∃ st', findLoop expr itype st nodes = .ok st' ∧ st'.Inv ∧
      st'.keys = registered expr itype st.keys nodes := by
  induction nodes with
  | nil =>
    intro st hinv _ _
    exact ⟨st, rfl, hinv, rfl⟩
  | cons nd rest ih =>
    intro st hinv hfresh hdoc
    obtain ⟨st1, hstep, hinv1, _, hkeys1, _, _⟩ :=
      findStep_spec expr itype hinv nd (hfresh nd (List.mem_cons_self _ _)) hdoc.head_self
    have hfresh1 : ∀ m ∈ rest, m.path ∉ st1.keys := by
      intro m hm hmem
      rw [hkeys1] at hmem
      rcases List.mem_append.1 hmem with h1 | h1
      · exact hfresh m (List.mem_cons_of_mem _ hm) h1
      · rcases mem_newKeys expr itype nd _ (List.mem_filter.1 h1).1 with h2 | h2
        · exact (hdoc.head_rest hm).1 h2
        · exact (hdoc.head_rest hm).2 h2
    obtain ⟨st2, hloop, hinv2, hkeys2⟩ := ih hinv1 hfresh1 hdoc.tail
    refine ⟨st2, by simp only [findLoop, hstep, hloop], hinv2, ?_⟩
    rw [hkeys2, hkeys1]
    rfl

theorem not_mem_registered_of_docOrder (expr : Expression) (itype : String)
    {pre rest : List XmlNode} (hdoc : DocOrder (pre ++ rest)) {m : XmlNode} (hm : m ∈ rest) :
    m.path ∉ registered expr itype [] pre := by
  intro hmem
  rcases (mem_registered expr itype pre [] m.path).1 hmem with h | ⟨a, ha, hk⟩
  · cases h
  · rcases mem_newKeys expr itype a _ hk with h2 | h2
    · exact (hdoc.split.2.2 a ha m hm).1 h2
    · exact (hdoc.split.2.2 a ha m hm).2 h2

/-! ### Items that are not on the list stay as they are -/

theorem heapAddProp_getElem?_of_ne (h : Heap) (p q : Nat) (k : String) (v : Property)
    (hne : p ≠ q) : (heapAddProp h q k v)[p]? = h[p]? := by
  unfold heapAddProp
  cases hq : h[q]? with
  | none => rfl
  | some it => simp [List.getElem?_set_ne (Ne.symm hne)]

theorem addProps_getElem?_of_ne (h : Heap) (p q : Nat) (props : List String) (v : Property)
    (hne : p ≠ q) : (addProps h q props v)[p]? = h[p]? := by
  induction props generalizing h with
  | nil => rfl
  | cons k ks ih =>
    simp only [addProps, List.foldl_cons] at ih ⊢
    rw [ih, heapAddProp_getElem?_of_ne _ _ _ _ _ hne]

theorem getPropVal_getElem? (h : Heap) (nd : Element) (p : Nat) (hp : p < h.length) :
    (getPropVal h nd).heap[p]? = h[p]? := by
  cases hs : (getAttr nd.attributes "itemscope").2
  · rw [(getPropVal_of_not_scope h nd hs).1]
  · rw [(getPropVal_of_scope h nd hs).2.2, List.getElem?_append_left hp]

theorem attached_orphan (expr : Expression) {st : State} (hinv : st.Inv) (nd : XmlNode)
    (p : Nat) (hp : p < st.heap.length) (hnf : p ∉ st.found) :
    p ∉ (attached expr st nd).found ∧ (attached expr st nd).heap[p]? = st.heap[p]? := by
  have hle := getPropVal_heap_length st.heap nd.toElement
  have hp2 : p < (getPropVal st.heap nd.toElement).heap.length := by omega
  cases hl : st.items.lookup (getScope expr nd).scopePath with
  | some q =>
    have hq : q ∈ st.found := by
      rw [← hinv.found_eq]
      exact List.mem_map.2 ⟨(_, q), lookup_mem _ _ _ hl, rfl⟩
    have hne : p ≠ q := fun e => hnf (e ▸ hq)
    rw [attached_of_registered expr st nd q hl]
    exact ⟨hnf, by
      simp only
      rw [addProps_getElem?_of_ne _ _ _ _ _ hne, getPropVal_getElem? _ _ _ hp]⟩
  | none =>
    have hne : p ≠ (getPropVal st.heap nd.toElement).heap.length := by omega
    rw [attached_of_unregistered expr st nd hl]
    refine ⟨?_, ?_⟩
    · simp only [List.mem_append, List.mem_singleton, not_or]
      exact ⟨hnf, hne⟩
    · simp only
      rw [addProps_getElem?_of_ne _ _ _ _ _ hne, List.getElem?_append_left hp2,
        getPropVal_getElem? _ _ _ hp]

theorem findStep_orphan (expr : Expression) (itype : String) {st st' : State} (hinv : st.Inv)
    (nd : XmlNode) (hstep : findStep expr itype st nd = .ok st')
    (p : Nat) (hp : p < st.heap.length) (hnf : p ∉ st.found) :
    p ∉ st'.found ∧ st'.heap[p]? = st.heap[p]? := by
  cases hok : (getPropVal st.heap nd.toElement).ok with
  | false =>
    rw [findStep_of_reader_fail expr itype st nd hok] at hstep
    cases hstep
    exact ⟨hnf, rfl⟩
  | true =>
    cases hsc : (getScope expr nd).ok with
    | false =>
      rw [findStep_of_no_scope expr itype st nd hok hsc] at hstep
      cases hstep
      exact ⟨hnf, getPropVal_getElem? _ _ _ hp⟩
    | true =>
      obtain ⟨hA1, hA2⟩ := attached_orphan expr hinv nd p hp hnf
      cases hsurf : surfaces itype nd.toElement with
      | false =>
        rw [findStep_not_surfaces expr itype st nd hok hsc hsurf] at hstep
        cases hstep
        exact ⟨hA1, hA2⟩
      | true =>
        have hs : (getAttr nd.attributes "itemscope").2 = true := by
          simp only [surfaces, opensScope, Bool.and_eq_true] at hsurf
          exact hsurf.1
        rw [findStep_of_item expr itype st nd hsc hs] at hstep
        simp only [hsurf, if_true, Except.ok.injEq] at hstep
        subst hstep
        refine ⟨?_, hA2⟩
        simp only [State.register, List.mem_append, List.mem_singleton, not_or]
        exact ⟨hA1, by omega⟩

theorem findLoop_orphan (expr : Expression) (itype : String) (nodes : List XmlNode) :
    ∀ {st st' : State}, st.Inv → (∀ nd ∈ nodes, nd.path ∉ st.keys) → DocOrder nodes →
    findLoop expr itype st nodes = .ok st' →
    ∀ p, p < st.heap.length → p ∉ st.found → p ∉ st'.found ∧ st'.heap[p]? = st.heap[p]? := by
  induction nodes with
  | nil =>
    intro st st' _ _ _ h p _ hnf
    simp only [findLoop, Except.ok.injEq] at h
    subst h
    exact ⟨hnf, rfl⟩
  | cons nd rest ih =>
    intro st st' hinv hfresh hdoc h p hp hnf
    obtain ⟨st1, hstep, hinv1, _, hkeys1, hlen1, _⟩ :=
      findStep_spec expr itype hinv nd (hfresh nd (List.mem_cons_self _ _)) hdoc.head_self
    have hfresh1 : ∀ m ∈ rest, m.path ∉ st1.keys := by
      intro m hm hmem
      rw [hkeys1] at hmem
      rcases List.mem_append.1 hmem with h1 | h1
      · exact hfresh m (List.mem_cons_of_mem _ hm) h1
      · rcases mem_newKeys expr itype nd _ (List.mem_filter.1 h1).1 with h2 | h2
        · exact (hdoc.head_rest hm).1 h2
        · exact (hdoc.head_rest hm).2 h2
    simp only [findLoop, hstep] at h
    obtain ⟨h1, h2⟩ := findStep_orphan expr itype hinv nd hstep p hp hnf
    obtain ⟨h3, h4⟩ := ih hinv1 hfresh1 hdoc.tail h p (by omega) h1
    exact ⟨h3, h4.trans h2⟩

theorem attached_nested_item (expr : Expression) {st : State} (hinv : st.Inv) (nd : XmlNode)
    (hs : (getAttr nd.attributes "itemscope").2 = true) :
    (attached expr st nd).heap[st.heap.length]? =
      some { itemType := declaredType nd.toElement, properties := [] } := by
  have hr := (getPropVal_of_scope st.heap nd.toElement hs).2.2
  have hL : st.heap.length < (getPropVal st.heap nd.toElement).heap.length := by
    rw [hr]; simp
  have hget : (getPropVal st.heap nd.toElement).heap[st.heap.length]? =
      some { itemType := declaredType nd.toElement, properties := [] } := by
    rw [hr]; simp [declaredType]
  cases hl : st.items.lookup (getScope expr nd).scopePath with
  | some q =>
    have hq : q < st.heap.length := hinv.lookup_lt hl
    have hne : st.heap.length ≠ q := by omega
    rw [attached_of_registered expr st nd q hl]
    simp only
    rw [addProps_getElem?_of_ne _ _ _ _ _ hne, hget]
  | none =>
    have hne : st.heap.length ≠ (getPropVal st.heap nd.toElement).heap.length := by omega
    rw [attached_of_unregistered expr st nd hl]
    simp only
    rw [addProps_getElem?_of_ne _ _ _ _ _ hne, List.getElem?_append_left hL, hget]

theorem lookup_isSome_of_mem_keys (st : State) (hn : (st.items.map Prod.fst).Nodup)
    (P : String) (hP : P ∈ st.keys) : ∃ ptr, st.items.lookup P = some ptr := by
  obtain ⟨⟨Q, ptr⟩, hin, hQ⟩ := List.mem_map.1 hP
  simp only at hQ
  subst hQ
  exact ⟨ptr, lookup_of_mem _ _ _ hn hin⟩

/-! ### Moving addresses: elementary facts -/

theorem shiftPtr_ne (L p : Nat) : shiftPtr L p ≠ L := by
  unfold shiftPtr
  split <;> omega

theorem shiftPtr_inj (L p q : Nat) (h : shiftPtr L p = shiftPtr L q) : p = q := by
  unfold shiftPtr at h
  split at h <;> split at h <;> omega

theorem shiftPtr_of_lt (L p : Nat) (h : p < L) : shiftPtr L p = p := by
  simp [shiftPtr, h]

theorem shiftPtr_of_ge (L p : Nat) (h : L ≤ p) : shiftPtr L p = p + 1 := by
  have : ¬ p < L := by omega
  simp [shiftPtr, this]

theorem shiftPtr_cases (L i : Nat) : i = L ∨ ∃ q, i = shiftPtr L q := by
  rcases Nat.lt_trichotomy i L with h | h | h
  · exact Or.inr ⟨i, (shiftPtr_of_lt L i h).symm⟩
  · exact Or.inl h
  · refine Or.inr ⟨i - 1, ?_⟩
    rw [shiftPtr_of_ge L (i - 1) (by omega)]
    omega

theorem heapInsert_length (L : Nat) (g : Item) (h : Heap) (hL : L ≤ h.length) :
    (heapInsert L g h).length = h.length + 1 := by
  simp only [heapInsert, List.length_append, List.length_map, List.length_take,
    List.length_cons, List.length_drop]
  omega

theorem heapInsert_getElem?_self (L : Nat) (g : Item) (h : Heap) (hL : L ≤ h.length) :
    (heapInsert L g h)[L]? = some g := by
  unfold heapInsert
  have hlen : ((h.take L).map (Item.shift L)).length = L := by
    simp only [List.length_map, List.length_take]; omega
  rw [List.getElem?_append_right (by omega), hlen]
  simp

theorem heapInsert_getElem?_shift (L : Nat) (g : Item) (h : Heap) (hL : L ≤ h.length)
    (q : Nat) : (heapInsert L g h)[shiftPtr L q]? = (h[q]?).map (Item.shift L) := by
  unfold heapInsert
  have hlen : ((h.take L).map (Item.shift L)).length = L := by
    simp only [List.length_map, List.length_take]; omega
  by_cases hq : q < L
  · rw [shiftPtr_of_lt L q hq, List.getElem?_append_left (by omega)]
    simp [List.getElem?_take, hq]
  · rw [shiftPtr_of_ge L q (by omega), List.getElem?_append_right (by omega), hlen]
    have h1 : q + 1 - L = (q - L) + 1 := by omega
    rw [h1, List.getElem?_cons_succ, List.getElem?_map, List.getElem?_drop]
    have h2 : L + (q - L) = q := by omega
    rw [h2]

theorem heapInsert_append (L : Nat) (g x : Item) (h : Heap) (hL : L ≤ h.length)
    (hx : x.properties = []) : heapInsert L g h ++ [x] = heapInsert L g (h ++ [x]) := by
  have hxs : Item.shift L x = x := by
    cases x
    simp only at hx
    simp [Item.shift, hx]
  simp [heapInsert, List.take_append_of_le_length hL, List.drop_append_of_le_length hL, hxs]

theorem typeAt_heapInsert (L : Nat) (g : Item) (h : Heap) (hL : L ≤ h.length) (q : Nat) :
    typeAt (heapInsert L g h) (shiftPtr L q) = typeAt h q := by
  simp only [typeAt, heapInsert_getElem?_shift L g h hL]
  cases h[q]? <;> simp [Item.shift]

theorem Property.Type_shift (L : Nat) (g : Item) (h : Heap) (hL : L ≤ h.length)
    (v : Property) : (v.shift L).Type (heapInsert L g h) = v.Type h := by
  cases v with
  | plainData s => rfl
  | item p => exact typeAt_heapInsert L g h hL p

/-! ### Moving addresses commutes with the operations of `find` -/

theorem lookup_shift (L : Nat) (m : List (String × Nat)) (k : String) :
    (m.map (fun kp => (kp.1, shiftPtr L kp.2))).lookup k = (m.lookup k).map (shiftPtr L) := by
  induction m with
  | nil => rfl
  | cons hd tl ih =>
    obtain ⟨a, b⟩ := hd
    by_cases hka : k = a
    · subst hka; simp [List.lookup_cons]
    · have h2 : (k == a) = false := by simpa using hka
      simp only [List.map_cons, List.lookup_cons, h2, ih]

theorem mapSet_shift (L : Nat) (m : List (String × Nat)) (k : String) (p : Nat) :
    mapSet (m.map (fun kp => (kp.1, shiftPtr L kp.2))) k (shiftPtr L p) =
      (mapSet m k p).map (fun kp => (kp.1, shiftPtr L kp.2)) := by
  induction m with
  | nil => rfl
  | cons hd tl ih =>
    obtain ⟨a, b⟩ := hd
    by_cases hak : a = k
    · simp [mapSet, hak]
    · simp [mapSet, hak, ih]

theorem appendProp_shift (L : Nat) (m : List (String × List Property)) (k : String)
    (v : Property) :
    (appendProp m k v).map (fun kv => (kv.1, kv.2.map (Property.shift L))) =
      appendProp (m.map (fun kv => (kv.1, kv.2.map (Property.shift L)))) k (v.shift L) := by
  induction m with
  | nil => rfl
  | cons hd tl ih =>
    obtain ⟨a, vs⟩ := hd
    by_cases hak : a = k
    · simp [appendProp, hak]
    · simp [appendProp, hak, ih]

theorem Item.addProp_shift (L : Nat) (it : Item) (k : String) (v : Property) :
    (it.addProp k v).shift L = (it.shift L).addProp k (v.shift L) := by
  simp only [Item.shift, Item.addProp, appendProp_shift]

theorem heapAddProp_shift (L : Nat) (g : Item) (h : Heap) (hL : L ≤ h.length) (q : Nat)
    (k : String) (v : Property) :
    heapAddProp (heapInsert L g h) (shiftPtr L q) k (v.shift L) =
      heapInsert L g (heapAddProp h q k v) := by
  unfold heapAddProp
  rw [heapInsert_getElem?_shift L g h hL]
  cases hq : h[q]? with
  | none => rfl
  | some it =>
    have hqlt : q < h.length := by
      by_contra hge
      rw [List.getElem?_eq_none (Nat.le_of_not_lt hge)] at hq
      cases hq
    simp only [Option.map_some']
    apply List.ext_getElem?
    intro i
    have hL2 : L ≤ (h.set q (it.addProp k v)).length := by simp [hL]
    rcases shiftPtr_cases L i with hi | ⟨q', hi⟩
    · subst hi
      rw [List.getElem?_set_ne (shiftPtr_ne i q), heapInsert_getElem?_self i g h hL,
        heapInsert_getElem?_self i g _ hL2]
    · subst hi
      rw [heapInsert_getElem?_shift L g _ hL2]
      by_cases hqq : q = q'
      · subst hqq
        have hs : shiftPtr L q < (heapInsert L g h).length := by
          rw [heapInsert_length L g h hL]
          unfold shiftPtr
          split <;> omega
        rw [List.getElem?_set_self hs, List.getElem?_set_self hqlt]
        simp [Item.addProp_shift]
      · have hne : shiftPtr L q ≠ shiftPtr L q' := fun e => hqq (shiftPtr_inj L q q' e)
        rw [List.getElem?_set_ne hne, List.getElem?_set_ne hqq,
          heapInsert_getElem?_shift L g h hL]

theorem addProps_shift (L : Nat) (g : Item) (q : Nat) (props : List String) (v : Property) :
    ∀ (h : Heap), L ≤ h.length →
    addProps (heapInsert L g h) (shiftPtr L q) props (v.shift L) =
      heapInsert L g (addProps h q props v) := by
  induction props with
  | nil => intro h _; rfl
  | cons k ks ih =>
    intro h hL
    simp only [addProps, List.foldl_cons] at ih ⊢
    rw [heapAddProp_shift L g h hL, ih _ (by rw [heapAddProp_length]; exact hL)]

theorem getPropVal_shift (L : Nat) (g : Item) (h : Heap) (hL : L ≤ h.length) (nd : Element) :
    (getPropVal (heapInsert L g h) nd).props = (getPropVal h nd).props ∧
    (getPropVal (heapInsert L g h) nd).val = (getPropVal h nd).val.shift L ∧
    (getPropVal (heapInsert L g h) nd).ok = (getPropVal h nd).ok ∧
    (getPropVal (heapInsert L g h) nd).heap = heapInsert L g (getPropVal h nd).heap := by
  refine ⟨by rw [getPropVal_props, getPropVal_props], ?_, getPropVal_ok_indep _ _ _, ?_⟩
  · cases hs : (getAttr nd.attributes "itemscope").2
    · simp [getPropVal, hs, Property.shift]
    · rw [(getPropVal_of_scope _ nd hs).1, (getPropVal_of_scope h nd hs).1,
        heapInsert_length L g h hL]
      simp [Property.shift, shiftPtr_of_ge L h.length hL]
  · cases hs : (getAttr nd.attributes "itemscope").2
    · rw [(getPropVal_of_not_scope _ nd hs).1, (getPropVal_of_not_scope h nd hs).1]
    · rw [(getPropVal_of_scope _ nd hs).2.2, (getPropVal_of_scope h nd hs).2.2]
      exact heapInsert_append L g _ h hL rfl

theorem State.register_shift (L : Nat) (g : Item) (st : State) (k : String) (p : Nat) :
    (st.shift L g).register k (shiftPtr L p) = (st.register k p).shift L g := by
  simp [State.register, State.shift, mapSet_shift]

theorem ensureItem_shift (L : Nat) (g : Item) (st : State) (hL : L ≤ st.heap.length)
    (sc : Scope) :
    ensureItem (st.shift L g) sc =
      (shiftPtr L (ensureItem st sc).1, (ensureItem st sc).2.shift L g) := by
  unfold ensureItem
  have hlook : (st.shift L g).items.lookup sc.scopePath =
      (st.items.lookup sc.scopePath).map (shiftPtr L) := lookup_shift L st.items _
  rw [hlook]
  cases hl : st.items.lookup sc.scopePath with
  | some q => rfl
  | none =>
    simp only [Option.map_none', makeItem]
    have hlen : (st.shift L g).heap.length = shiftPtr L st.heap.length := by
      simp only [State.shift]
      rw [heapInsert_length L g st.heap hL, shiftPtr_of_ge L _ hL]
    have hheap : (st.shift L g).heap ++ [{ itemType := sc.scopeType, properties := [] }] =
        heapInsert L g (st.heap ++ [{ itemType := sc.scopeType, properties := [] }]) :=
      heapInsert_append L g _ st.heap hL rfl
    rw [hlen, hheap]
    refine Prod.ext rfl ?_
    exact State.register_shift L g { st with heap := st.heap ++ [⟨sc.scopeType, []⟩] } _ _

theorem attached_shift (expr : Expression) (L : Nat) (g : Item) (st : State)
    (hL : L ≤ st.heap.length) (nd : XmlNode) :
    attached expr (st.shift L g) nd = (attached expr st nd).shift L g := by
  obtain ⟨hprops, hval, _, hheap⟩ := getPropVal_shift L g st.heap hL nd.toElement
  have hL2 : L ≤ (getPropVal st.heap nd.toElement).heap.length :=
    Nat.le_trans hL (getPropVal_heap_length _ _)
  have hst0 : ({ st.shift L g with heap := (getPropVal (st.shift L g).heap nd.toElement).heap }
      : State) =
      State.shift L g { st with heap := (getPropVal st.heap nd.toElement).heap } := by
    simp only [State.shift]
    rw [hheap]
  have hL3 : L ≤ (ensureItem { st with heap := (getPropVal st.heap nd.toElement).heap }
      (getScope expr nd)).2.heap.length := by
    obtain ⟨ext, hext⟩ : ∃ ext, (ensureItem
        { st with heap := (getPropVal st.heap nd.toElement).heap }
        (getScope expr nd)).2.heap = (getPropVal st.heap nd.toElement).heap ++ ext := by
      unfold ensureItem
      split
      · exact ⟨[], by simp⟩
      · exact ⟨_, rfl⟩
    rw [hext, List.length_append]
    omega
  unfold attached
  simp only
  rw [hst0, ensureItem_shift L g _ hL2]
  simp only
  have hprops' : (getPropVal (State.shift L g st).heap nd.toElement).props =
      (getPropVal st.heap nd.toElement).props := hprops
  have hval' : (getPropVal (State.shift L g st).heap nd.toElement).val =
      (getPropVal st.heap nd.toElement).val.shift L := hval
  rw [hprops', hval']
  simp only [State.shift]
  rw [addProps_shift L g _ _ _ _ hL3]

theorem findStep_shift (expr : Expression) (itype : String) (L : Nat) (g : Item)
    (st st' : State) (hL : L ≤ st.heap.length) (nd : XmlNode)
    (hstep : findStep expr itype st nd = .ok st') :
    findStep expr itype (st.shift L g) nd = .ok (st'.shift L g) := by
  obtain ⟨_, _, hokS, hheapS⟩ := getPropVal_shift L g st.heap hL nd.toElement
  have hokS' : (getPropVal (st.shift L g).heap nd.toElement).ok =
      (getPropVal st.heap nd.toElement).ok := hokS
  have hheapS' : (getPropVal (st.shift L g).heap nd.toElement).heap =
      heapInsert L g (getPropVal st.heap nd.toElement).heap := hheapS
  cases hok : (getPropVal st.heap nd.toElement).ok with
  | false =>
    rw [findStep_of_reader_fail expr itype st nd hok] at hstep
    cases hstep
    exact findStep_of_reader_fail expr itype _ nd (by rw [hokS', hok])
  | true =>
    cases hsc : (getScope expr nd).ok with
    | false =>
      rw [findStep_of_no_scope expr itype st nd hok hsc] at hstep
      cases hstep
      rw [findStep_of_no_scope expr itype _ nd (by rw [hokS', hok]) hsc, hheapS']
      rfl
    | true =>
      cases hsurf : surfaces itype nd.toElement with
      | false =>
        rw [findStep_not_surfaces expr itype st nd hok hsc hsurf] at hstep
        cases hstep
        rw [findStep_not_surfaces expr itype _ nd (by rw [hokS', hok]) hsc hsurf,
          attached_shift expr L g st hL nd]
      | true =>
        have hs : (getAttr nd.attributes "itemscope").2 = true := by
          simp only [surfaces, opensScope, Bool.and_eq_true] at hsurf
          exact hsurf.1
        rw [findStep_of_item expr itype st nd hsc hs] at hstep
        simp only [hsurf, if_true, Except.ok.injEq] at hstep
        subst hstep
        rw [findStep_of_item expr itype _ nd hsc hs]
        simp only [hsurf, if_true]
        rw [attached_shift expr L g st hL nd]
        have hlen : (st.shift L g).heap.length = shiftPtr L st.heap.length := by
          simp only [State.shift]
          rw [heapInsert_length L g st.heap hL, shiftPtr_of_ge L _ hL]
        rw [hlen, State.register_shift]

theorem findStep_heap_length (expr : Expression) (itype : String) (st st' : State)
    (nd : XmlNode) (hstep : findStep expr itype st nd = .ok st') :
    st.heap.length ≤ st'.heap.length := by
  have hle := getPropVal_heap_length st.heap nd.toElement
  cases hok : (getPropVal st.heap nd.toElement).ok with
  | false =>
    rw [findStep_of_reader_fail expr itype st nd hok] at hstep
    cases hstep
    exact Nat.le_refl _
  | true =>
    cases hsc : (getScope expr nd).ok with
    | false =>
      rw [findStep_of_no_scope expr itype st nd hok hsc] at hstep
      cases hstep
      exact hle
    | true =>
      have hA := attached_heap_length expr st nd
      cases hsurf : surfaces itype nd.toElement with
      | false =>
        rw [findStep_not_surfaces expr itype st nd hok hsc hsurf] at hstep
        cases hstep
        omega
      | true =>
        have hs : (getAttr nd.attributes "itemscope").2 = true := by
          simp only [surfaces, opensScope, Bool.and_eq_true] at hsurf
          exact hsurf.1
        rw [findStep_of_item expr itype st nd hsc hs] at hstep
        simp only [hsurf, if_true, Except.ok.injEq] at hstep
        subst hstep
        simp only [State.register]
        omega

theorem findLoop_shift (expr : Expression) (itype : String) (L : Nat) (g : Item)
    (nodes : List XmlNode) :
    ∀ (st st' : State), L ≤ st.heap.length → findLoop expr itype st nodes = .ok st' →
      findLoop expr itype (st.shift L g) nodes = .ok (st'.shift L g) := by
  induction nodes with
  | nil =>
    intro st st' _ h
    simp only [findLoop, Except.ok.injEq] at h
    subst h
    rfl
  | cons nd rest ih =>
    intro st st' hL h
    obtain ⟨st1, h1⟩ := findStep_ok expr itype st nd
    simp only [findLoop, h1] at h
    simp only [findLoop, findStep_shift expr itype L g st st1 hL nd h1]
    exact ih st1 st' (Nat.le_trans hL (findStep_heap_length expr itype st st1 nd h1)) h

/-! ### Every pointer held by the state is allocated -/

theorem mem_mapSet (m : List (String × Nat)) (k : String) (p : Nat) (kp : String × Nat)
    (h : kp ∈ mapSet m k p) : kp ∈ m ∨ kp = (k, p) := by
  induction m with
  | nil =>
    simp only [mapSet, List.mem_singleton] at h
    exact Or.inr h
  | cons hd tl ih =>
    obtain ⟨a, b⟩ := hd
    by_cases hak : a = k
    · simp only [mapSet, hak, if_true, List.mem_cons] at h
      rcases h with h | h
      · exact Or.inr h
      · exact Or.inl (List.mem_cons_of_mem _ h)
    · simp only [mapSet, hak, if_false, List.mem_cons] at h
      rcases h with h | h
      · exact Or.inl (h ▸ List.mem_cons_self _ _)
      · rcases ih h with h1 | h1
        · exact Or.inl (List.mem_cons_of_mem _ h1)
        · exact Or.inr h1

theorem mem_appendProp (m : List (String × List Property)) (k : String) (v : Property)
    (kv : String × List Property) (h : kv ∈ appendProp m k v) (x : Property) (hx : x ∈ kv.2) :
    x = v ∨ ∃ kv' ∈ m, x ∈ kv'.2 := by
  induction m with
  | nil =>
    simp only [appendProp, List.mem_singleton] at h
    subst h
    simp only [List.mem_singleton] at hx
    exact Or.inl hx
  | cons hd tl ih =>
    obtain ⟨a, vs⟩ := hd
    by_cases hak : a = k
    · simp only [appendProp, hak, if_true, List.mem_cons] at h
      rcases h with h | h
      · subst h
        simp only [List.mem_append, List.mem_singleton] at hx
        rcases hx with hx | hx
        · exact Or.inr ⟨(a, vs), List.mem_cons_self _ _, hx⟩
        · exact Or.inl hx
      · exact Or.inr ⟨kv, List.mem_cons_of_mem _ h, hx⟩
    · simp only [appendProp, hak, if_false, List.mem_cons] at h
      rcases h with h | h
      · subst h
        exact Or.inr ⟨(a, vs), List.mem_cons_self _ _, hx⟩
      · rcases ih h with h1 | ⟨kv', hkv', h1⟩
        · exact Or.inl h1
        · exact Or.inr ⟨kv', List.mem_cons_of_mem _ hkv', h1⟩

theorem HeapClosed.mono {n n' : Nat} {h : Heap} (hc : HeapClosed n h) (hle : n ≤ n') :
    HeapClosed n' h :=
  fun it hit kv hkv p hp => Nat.lt_of_lt_of_le (hc it hit kv hkv p hp) hle

theorem HeapClosed.append {n : Nat} {h : Heap} (hc : HeapClosed n h) (x : Item)
    (hx : x.properties = []) : HeapClosed n (h ++ [x]) := by
  intro it hit kv hkv p hp
  rcases List.mem_append.1 hit with h1 | h1
  · exact hc it h1 kv hkv p hp
  · rw [List.mem_singleton] at h1
    subst h1
    rw [hx] at hkv
    cases hkv

theorem HeapClosed.heapAddProp {n : Nat} {h : Heap} (hc : HeapClosed n h) (q : Nat)
    (k : String) (v : Property) (hv : ∀ p, v = .item p → p < n) :
    HeapClosed n (heapAddProp h q k v) := by
  unfold Mcrdata.heapAddProp
  cases hq : h[q]? with
  | none => exact hc
  | some it0 =>
    have hmem0 : it0 ∈ h := List.getElem?_mem hq
    intro it hit kv hkv p hp
    rcases List.mem_or_eq_of_mem_set hit with h1 | h1
    · exact hc it h1 kv hkv p hp
    · subst h1
      rcases mem_appendProp _ _ _ kv hkv _ hp with h2 | ⟨kv', hkv', h2⟩
      · exact hv p h2.symm
      · exact hc it0 hmem0 kv' hkv' p h2

theorem HeapClosed.addProps {n : Nat} (q : Nat) (props : List String) (v : Property)
    (hv : ∀ p, v = .item p → p < n) :
    ∀ {h : Heap}, HeapClosed n h → HeapClosed n (addProps h q props v) := by
  induction props with
  | nil => intro h hc; exact hc
  | cons k ks ih =>
    intro h hc
    simp only [Mcrdata.addProps, List.foldl_cons] at ih ⊢
    exact ih (hc.heapAddProp q k v hv)

theorem getPropVal_val_lt (h : Heap) (nd : Element) (p : Nat)
    (hp : (getPropVal h nd).val = .item p) : p < (getPropVal h nd).heap.length := by
  cases hs : (getAttr nd.attributes "itemscope").2
  · obtain ⟨_, s, hval⟩ := getPropVal_of_not_scope h nd hs
    rw [hval] at hp
    cases hp
  · obtain ⟨hval, _, hheap⟩ := getPropVal_of_scope h nd hs
    rw [hval] at hp
    cases hp
    rw [hheap]
    simp

theorem getPropVal_heapClosed (h : Heap) (nd : Element) {n : Nat} (hc : HeapClosed n h) :
    HeapClosed n (getPropVal h nd).heap := by
  cases hs : (getAttr nd.attributes "itemscope").2
  · rw [(getPropVal_of_not_scope h nd hs).1]; exact hc
  · rw [(getPropVal_of_scope h nd hs).2.2]; exact hc.append _ rfl

theorem State.closed_init : State.init.Closed :=
  ⟨fun p hp => (by cases hp), fun kp hkp => (by cases hkp), fun it hit => (by cases hit)⟩

theorem attached_closed (expr : Expression) {st : State} (hc : st.Closed) (nd : XmlNode) :
    (attached expr st nd).Closed := by
  have hle := getPropVal_heap_length st.heap nd.toElement
  have hval := getPropVal_val_lt st.heap nd.toElement
  have hheap0 : HeapClosed (getPropVal st.heap nd.toElement).heap.length
      (getPropVal st.heap nd.toElement).heap :=
    getPropVal_heapClosed _ _ (HeapClosed.mono hc.props_lt hle)
  cases hl : st.items.lookup (getScope expr nd).scopePath with
  | some q =>
    rw [attached_of_registered expr st nd q hl]
    refine ⟨?_, ?_, ?_⟩
    · intro p hp
      simp only [addProps_length]
      exact Nat.lt_of_lt_of_le (hc.found_lt p hp) hle
    · intro kp hkp
      simp only [addProps_length]
      exact Nat.lt_of_lt_of_le (hc.items_lt kp hkp) hle
    · simp only [addProps_length]
      exact HeapClosed.addProps q _ _ (fun p hp => hval p hp) hheap0
  | none =>
    rw [attached_of_unregistered expr st nd hl]
    refine ⟨?_, ?_, ?_⟩
    · intro p hp
      simp only [addProps_length, List.length_append, List.length_singleton]
      simp only [List.mem_append, List.mem_singleton] at hp
      rcases hp with hp | hp
      · have := hc.found_lt p hp
        omega
      · omega
    · intro kp hkp
      simp only [addProps_length, List.length_append, List.length_singleton]
      rcases mem_mapSet _ _ _ kp hkp with h1 | h1
      · have := hc.items_lt kp h1
        omega
      · rw [h1]
        simp
    · simp only [addProps_length, List.length_append, List.length_singleton]
      refine HeapClosed.addProps _ _ _ (fun p hp => Nat.lt_succ_of_lt (hval p hp)) ?_
      exact (HeapClosed.mono hheap0 (Nat.le_succ _)).append _ rfl

theorem findStep_closed (expr : Expression) (itype : String) {st st' : State}
    (hc : st.Closed) (nd : XmlNode) (hstep : findStep expr itype st nd = .ok st') :
    st'.Closed := by
  have hle := getPropVal_heap_length st.heap nd.toElement
  cases hok : (getPropVal st.heap nd.toElement).ok with
  | false =>
    rw [findStep_of_reader_fail expr itype st nd hok] at hstep
    cases hstep
    exact hc
  | true =>
    cases hsc : (getScope expr nd).ok with
    | false =>
      rw [findStep_of_no_scope expr itype st nd hok hsc] at hstep
      cases hstep
      exact ⟨fun p hp => Nat.lt_of_lt_of_le (hc.found_lt p hp) hle,
        fun kp hkp => Nat.lt_of_lt_of_le (hc.items_lt kp hkp) hle,
        getPropVal_heapClosed _ _ (HeapClosed.mono hc.props_lt hle)⟩
    | true =>
      have hA := attached_closed expr hc nd
      cases hsurf : surfaces itype nd.toElement with
      | false =>
        rw [findStep_not_surfaces expr itype st nd hok hsc hsurf] at hstep
        cases hstep
        exact hA
      | true =>
        have hs : (getAttr nd.attributes "itemscope").2 = true := by
          simp only [surfaces, opensScope, Bool.and_eq_true] at hsurf
          exact hsurf.1
        rw [findStep_of_item expr itype st nd hsc hs] at hstep
        simp only [hsurf, if_true, Except.ok.injEq] at hstep
        subst hstep
        have hlen := attached_heap_length expr st nd
        have hr := (getPropVal_of_scope st.heap nd.toElement hs).2.2
        have hL : st.heap.length < (getPropVal st.heap nd.toElement).heap.length := by
          rw [hr]; simp
        refine ⟨?_, ?_, hA.props_lt⟩
        · intro p hp
          simp only [State.register, List.mem_append, List.mem_singleton] at hp ⊢
          rcases hp with hp | hp
          · exact hA.found_lt p hp
          · omega
        · intro kp hkp
          simp only [State.register] at hkp ⊢
          rcases mem_mapSet _ _ _ kp hkp with h1 | h1
          · exact hA.items_lt kp h1
          · rw [h1]
            simp only
            omega

theorem findLoop_closed (expr : Expression) (itype : String) (nodes : List XmlNode) :
    ∀ {st st' : State}, st.Closed → findLoop expr itype st nodes = .ok st' → st'.Closed := by
  induction nodes with
  | nil =>
    intro st st' hc h
    simp only [findLoop, Except.ok.injEq] at h
    subst h
    exact hc
  | cons nd rest ih =>
    intro st st' hc h
    obtain ⟨st1, h1⟩ := findStep_ok expr itype st nd
    simp only [findLoop, h1] at h
    exact ih (findStep_closed expr itype hc nd h1) h

theorem State.shift_of_closed {st : State} (hc : st.Closed) (g : Item) :
    st.shift st.heap.length g = { st with heap := st.heap ++ [g] } := by
  have hfound : st.found.map (shiftPtr st.heap.length) = st.found := by
    conv_rhs => rw [← List.map_id st.found]
    apply List.map_congr_left
    intro p hp
    exact shiftPtr_of_lt _ _ (hc.found_lt p hp)
  have hitems : st.items.map (fun kp => (kp.1, shiftPtr st.heap.length kp.2)) = st.items := by
    conv_rhs => rw [← List.map_id st.items]
    apply List.map_congr_left
    intro kp hkp
    simp [shiftPtr_of_lt _ _ (hc.items_lt kp hkp)]
  have hheap : st.heap.map (Item.shift st.heap.length) = st.heap := by
    conv_rhs => rw [← List.map_id st.heap]
    apply List.map_congr_left
    intro it hit
    have hprops : it.properties.map
        (fun kv => (kv.1, kv.2.map (Property.shift st.heap.length))) = it.properties := by
      conv_rhs => rw [← List.map_id it.properties]
      apply List.map_congr_left
      intro kv hkv
      have hvs : kv.2.map (Property.shift st.heap.length) = kv.2 := by
        conv_rhs => rw [← List.map_id kv.2]
        apply List.map_congr_left
        intro v hv
        cases v with
        | plainData s => rfl
        | item p =>
          simp [Property.shift, shiftPtr_of_lt _ _ (hc.props_lt it hit kv hkv p hv)]
      simp [hvs]
    cases it
    simp only [Item.shift] at hprops ⊢
    simp [hprops]
  simp only [State.shift, heapInsert, List.take_length, List.drop_length, List.map_nil,
    hfound, hitems, hheap]

/-! ### Leaving out an element that resolves to no scope -/

theorem lookup_map_values (L : Nat) (m : List (String × List Property)) (n : String) :
    ((m.map (fun kv => (kv.1, kv.2.map (Property.shift L)))).lookup n).getD [] =
      ((m.lookup n).getD []).map (Property.shift L) := by
  induction m with
  | nil => rfl
  | cons hd tl ih =>
    obtain ⟨a, vs⟩ := hd
    by_cases hna : n = a
    · subst hna; simp [List.lookup_cons]
    · have h2 : (n == a) = false := by simpa using hna
      simp only [List.map_cons, List.lookup_cons, h2, ih]

theorem valuesAt_heapInsert (L : Nat) (g : Item) (h : Heap) (hL : L ≤ h.length) (q : Nat)
    (n : String) :
    valuesAt (heapInsert L g h) (shiftPtr L q) n = (valuesAt h q n).map (Property.shift L) := by
  simp only [valuesAt, heapInsert_getElem?_shift L g h hL]
  cases h[q]? with
  | none => rfl
  | some it => simp [Item.values, Item.shift, lookup_map_values]

theorem findLoop_heap_length (expr : Expression) (itype : String) (nodes : List XmlNode) :
    ∀ (st st' : State), findLoop expr itype st nodes = .ok st' →
      st.heap.length ≤ st'.heap.length := by
  induction nodes with
  | nil =>
    intro st st' h
    simp only [findLoop, Except.ok.injEq] at h
    subst h
    exact Nat.le_refl _
  | cons nd rest ih =>
    intro st st' h
    obtain ⟨st1, h1⟩ := findStep_ok expr itype st nd
    simp only [findLoop, h1] at h
    exact Nat.le_trans (findStep_heap_length expr itype st st1 nd h1) (ih st1 st' h)

theorem findStep_unresolved (expr : Expression) (itype : String) (st : State) (nd : XmlNode)
    (hsc : (getScope expr nd).ok = false) :
    findStep expr itype st nd =
      .ok { st with heap := (getPropVal st.heap nd.toElement).heap } := by
  cases hok : (getPropVal st.heap nd.toElement).ok with
  | false =>
    have hs : (getAttr nd.attributes "itemscope").2 = false := by
      cases hs : (getAttr nd.attributes "itemscope").2
      · rfl
      · rw [(getPropVal_of_scope st.heap nd.toElement hs).2.1] at hok
        cases hok
    rw [findStep_of_reader_fail expr itype st nd hok,
      (getPropVal_of_not_scope st.heap nd.toElement hs).1]
  | true => exact findStep_of_no_scope expr itype st nd hok hsc

/-! ## The claims -/

/-- C1: for every search root whose property elements come in document order, `find`
(hence `FindAll` and `Find`) succeeds; every item of the returned list stands for a scope
path; every scope path that a property element with a successful reader resolves to has an
item, and that item is in the returned list; and for every scope path `P` an item stands
for and every name `n`, the values stored under `n` are exactly the contributions of the
property elements whose reader succeeded and whose resolver returned `P`, in document
order, one entry per occurrence of `n` among the element's names. -/
theorem find_values_exact (node : Node) (expr : Expression) (itype : String)
    (nodes : List XmlNode) (hsearch : node.propNodes = .ok nodes) (hdoc : DocOrder nodes) :
    ∃ st, node.find expr itype = .ok st ∧
      (∀ ptr ∈ st.found, ∃ P, st.items.lookup P = some ptr) ∧
      (∀ nd ∈ nodes, readerOk nd.toElement = true → (getScope expr nd).ok = true →
        ∃ ptr, st.items.lookup (getScope expr nd).scopePath = some ptr ∧ ptr ∈ st.found) ∧
      ∀ P ptr, st.items.lookup P = some ptr →
        ptr ∈ st.found ∧
        ∀ n, valuesAt st.heap ptr n = expectedValues expr itype P n State.init nodes := by
  obtain ⟨st, hloop, hinv, hvals, hkeys, _⟩ :=
    findLoop_spec expr itype nodes State.Inv.init (by intro nd _ h; cases h) hdoc
  refine ⟨st, by simp only [Node.find, hsearch]; exact hloop, ?_, ?_, ?_⟩
  · intro ptr hptr
    rw [← hinv.found_eq] at hptr
    obtain ⟨⟨P, q⟩, hmem, rfl⟩ := List.mem_map.1 hptr
    exact ⟨P, lookup_of_mem _ _ _ hinv.keys_nodup hmem⟩
  · intro nd hnd hr hs
    have hk : (getScope expr nd).scopePath ∈ st.keys :=
      (hkeys _).2 (Or.inr ⟨nd, hnd, by simp [newKeys, hr, hs]⟩)
    obtain ⟨ptr, hptr⟩ := lookup_isSome_of_mem_keys st hinv.keys_nodup _ hk
    refine ⟨ptr, hptr, ?_⟩
    rw [← hinv.found_eq]
    exact List.mem_map.2 ⟨(_, ptr), lookup_mem _ _ _ hptr, rfl⟩
  · intro P ptr hl
    refine ⟨?_, ?_⟩
    · rw [← hinv.found_eq]
      exact List.mem_map.2 ⟨(P, ptr), lookup_mem _ _ _ hl, rfl⟩
    · intro n
      have := hvals P n
      simpa [State.valuesFor, hl, State.init] using this

/-- The statement of C1 at the sample document `docPerson`, searched with `FindAll`, with
the result written out: the person (address 1) holds the nested organisation under
`worksFor`, the value `v` under `a` and under `b`, and `Ada` under `name`; the
organisation (address 0) holds `Acme` under `name`; the image without `src` contributes
nothing.  The stored sequences are the expected ones. -/
theorem find_values_exact_witness :
    (ParseXmlNode docPerson).propNodes = .ok (propNodesOf (ParseXmlNode docPerson)) ∧
    DocOrder (propNodesOf (ParseXmlNode docPerson)) ∧
    (ParseXmlNode docPerson).find allScopePath "" =
      .ok { found := [1, 0],
            items := [(encodePath [0, 0], 1), (encodePath [0, 0, 0], 0)],
            heap := [{ itemType := "Org", properties := [("name", [.plainData "Acme"])] },
                     { itemType := "Person",
                       properties := [("worksFor", [.item 0]), ("a", [.plainData "v"]),
                                      ("b", [.plainData "v"]),
                                      ("name", [.plainData "Ada"])] }] } ∧
    expectedValues allScopePath "" (encodePath [0, 0]) "name" State.init
      (propNodesOf (ParseXmlNode docPerson)) = [.plainData "Ada"] ∧
    expectedValues allScopePath "" (encodePath [0, 0]) "a" State.init
      (propNodesOf (ParseXmlNode docPerson)) = [.plainData "v"] ∧
    expectedValues allScopePath "" (encodePath [0, 0, 0]) "name" State.init
      (propNodesOf (ParseXmlNode docPerson)) = [.plainData "Acme"] ∧
    ∃ st, (ParseXmlNode docPerson).find allScopePath "" = .ok st ∧
      (∀ ptr ∈ st.found, ∃ P, st.items.lookup P = some ptr) ∧
      (∀ nd ∈ propNodesOf (ParseXmlNode docPerson), readerOk nd.toElement = true →
        (getScope allScopePath nd).ok = true →
        ∃ ptr, st.items.lookup (getScope allScopePath nd).scopePath = some ptr ∧
          ptr ∈ st.found) ∧
      ∀ P ptr, st.items.lookup P = some ptr →
        ptr ∈ st.found ∧
        ∀ n, valuesAt st.heap ptr n =
          expectedValues allScopePath "" P n State.init (propNodesOf (ParseXmlNode docPerson)) :=
  ⟨rfl, by decide, by rfl, by rfl, by rfl, by rfl,
    find_values_exact (ParseXmlNode docPerson) allScopePath "" _ rfl (by decide)⟩

/-- C2: for a property element that does not carry `itemscope`, `getPropVal` returns plain
data and leaves the memory alone; the value is the `src` attribute for an `img` that has
one, the `href` attribute for an `a` that has one, and for every other element the
`content` attribute when present and the text content otherwise (each time with success). -/
theorem getPropVal_plain_by_kind (heap : Heap) (nd : Element)
    (hs : nd.attributes.lookup "itemscope" = none) :
    (∃ s, (getPropVal heap nd).val = .plainData s) ∧ (getPropVal heap nd).heap = heap ∧
    (nd.name = "img" → ∀ v, nd.attributes.lookup "src" = some v →
      (getPropVal heap nd).val = .plainData v ∧ (getPropVal heap nd).ok = true) ∧
    (nd.name = "a" → ∀ v, nd.attributes.lookup "href" = some v →
      (getPropVal heap nd).val = .plainData v ∧ (getPropVal heap nd).ok = true) ∧
    (nd.name ≠ "img" → nd.name ≠ "a" →
      (∀ v, nd.attributes.lookup "content" = some v →
        (getPropVal heap nd).val = .plainData v ∧ (getPropVal heap nd).ok = true) ∧
      (nd.attributes.lookup "content" = none →
        (getPropVal heap nd).val = .plainData nd.content ∧
          (getPropVal heap nd).ok = true)) := by
  have hs2 : (getAttr nd.attributes "itemscope").2 = false := by simp [getAttr, hs]
  obtain ⟨hheap, hval⟩ := getPropVal_of_not_scope heap nd hs2
  refine ⟨hval, hheap, ?_, ?_, ?_⟩
  · intro hname v hv
    simp [getPropVal, getAttr, hs, hname, hv]
  · intro hname v hv
    simp [getPropVal, getAttr, hs, hname, hv]
  · intro h1 h2
    refine ⟨?_, ?_⟩
    · intro v hv
      simp [getPropVal, getAttr, hs, h1, h2, hv]
    · intro hv
      simp [getPropVal, getAttr, hs, h1, h2, hv]

/-- The four sample elements of C2: the values are `"p.jpg"`, `"/x"`, `"Ada"` and `"30"`. -/
theorem getPropVal_plain_by_kind_witness :
    ((getPropVal [] imgPhoto).val = .plainData "p.jpg" ∧ (getPropVal [] imgPhoto).ok = true) ∧
    ((getPropVal [] aLink).val = .plainData "/x" ∧ (getPropVal [] aLink).ok = true) ∧
    ((getPropVal [] spanName).val = .plainData "Ada" ∧ (getPropVal [] spanName).ok = true) ∧
    ((getPropVal [] metaAge).val = .plainData "30" ∧ (getPropVal [] metaAge).ok = true) :=
  ⟨(getPropVal_plain_by_kind [] imgPhoto (by decide)).2.2.1 rfl "p.jpg" (by decide),
   (getPropVal_plain_by_kind [] aLink (by decide)).2.2.2.1 rfl "/x" (by decide),
   ((getPropVal_plain_by_kind [] spanName (by decide)).2.2.2.2 (by decide) (by decide)).2
     (by decide),
   ((getPropVal_plain_by_kind [] metaAge (by decide)).2.2.2.2 (by decide) (by decide)).1
     "30" (by decide)⟩


/-- C9: `getPropVal` fails exactly for an element without `itemscope` that is an `img`
without `src` or an `a` without `href`; an element of another kind with no `content`
attribute and empty text succeeds with the empty plain value; and when the reader fails,
the iteration of `find` leaves found list, items map and memory as they were, does not
fail, and the pass continues with the remaining elements. -/
theorem getPropVal_failure_iff (heap : Heap) (nd : XmlNode) :
    ((getPropVal heap nd.toElement).ok = false ↔
      nd.attributes.lookup "itemscope" = none ∧
        ((nd.name = "img" ∧ nd.attributes.lookup "src" = none) ∨
         (nd.name = "a" ∧ nd.attributes.lookup "href" = none))) ∧
    (nd.attributes.lookup "itemscope" = none → nd.name ≠ "img" → nd.name ≠ "a" →
      nd.attributes.lookup "content" = none → nd.content = "" →
      (getPropVal heap nd.toElement).ok = true ∧
        (getPropVal heap nd.toElement).val = .plainData "") ∧
    ((getPropVal heap nd.toElement).ok = false →
      ∀ (expr : Expression) (itype : String) (st : State) (rest : List XmlNode),
        st.heap = heap →
        findStep expr itype st nd = .ok st ∧
        findLoop expr itype st (nd :: rest) = findLoop expr itype st rest) := by
  refine ⟨?_, ?_, ?_⟩
  · cases hs : nd.attributes.lookup "itemscope" with
    | some v => simp [getPropVal, getAttr, hs, makeItem]
    | none =>
      by_cases himg : nd.name = "img"
      · cases hsrc : nd.attributes.lookup "src" <;>
          simp [getPropVal, getAttr, hs, himg, hsrc]
      · by_cases ha : nd.name = "a"
        · cases hhref : nd.attributes.lookup "href" <;>
            simp [getPropVal, getAttr, hs, ha, hhref]
        · cases hc : nd.attributes.lookup "content" <;>
            simp [getPropVal, getAttr, hs, himg, ha, hc]
  · intro hs himg ha hc hcont
    simp [getPropVal, getAttr, hs, himg, ha, hc, hcont]
  · intro hok expr itype st rest hheap
    subst hheap
    have hstep := findStep_of_reader_fail expr itype st nd hok
    exact ⟨hstep, by simp only [findLoop, hstep]⟩

/-- The sample of C9: `<img itemprop="photo">` makes the reader fail, contributes nothing
and the pass goes on with the element that follows. -/
theorem getPropVal_failure_iff_witness :
    (getPropVal [] imgNoSrc.toElement).ok = false ∧
    findStep allScopePath "" State.init imgNoSrc = .ok State.init ∧
    findLoop allScopePath "" State.init [imgNoSrc, spanAda] =
      findLoop allScopePath "" State.init [spanAda] :=
  ⟨by decide,
   (getPropVal_failure_iff [] imgNoSrc).2.2 (by decide) allScopePath "" State.init [spanAda] rfl⟩


/-- C8: the names `getPropVal` returns are the `itemprop` attribute cut at every single
space (joining them with one space gives the attribute back and no name contains a space),
and an iteration of `find` whose reader and resolver succeed appends the element's one
value to the owning scope's item under each of these names, once per occurrence. -/
theorem getPropVal_names (heap : Heap) (nd : XmlNode) :
    (getPropVal heap nd.toElement).props =
      strings.Split ((nd.attributes.lookup "itemprop").getD "") ' ' ∧
    List.intercalate [' '] ((getPropVal heap nd.toElement).props.map String.toList) =
      ((nd.attributes.lookup "itemprop").getD "").toList ∧
    (∀ w ∈ (getPropVal heap nd.toElement).props, ' ' ∉ w.toList) ∧
    ∀ (expr : Expression) (itype : String) (st : State), st.Inv → st.heap = heap →
      nd.path ∉ st.keys → nd.path ∉ ancestorPaths nd →
      (getPropVal heap nd.toElement).ok = true → (getScope expr nd).ok = true →
      ∃ st', findStep expr itype st nd = .ok st' ∧
        (∀ n, st'.valuesFor (getScope expr nd).scopePath n =
          st.valuesFor (getScope expr nd).scopePath n ++
            List.replicate ((getPropVal heap nd.toElement).props.count n)
              (getPropVal heap nd.toElement).val) ∧
        ∀ n ∈ (getPropVal heap nd.toElement).props,
          (getPropVal heap nd.toElement).val ∈ st'.valuesFor (getScope expr nd).scopePath n := by
  have hprops : (getPropVal heap nd.toElement).props =
      strings.Split ((nd.attributes.lookup "itemprop").getD "") ' ' := by
    rw [getPropVal_props]
    cases h : nd.attributes.lookup "itemprop" <;> simp [getAttr, h]
  refine ⟨hprops, ?_, ?_, ?_⟩
  · rw [hprops]; exact (Split_spec _ _).1
  · rw [hprops]; exact (Split_spec _ _).2
  · intro expr itype st hinv hheap hfresh hself hok hsc
    subst hheap
    obtain ⟨st', hstep, _, hvals, _⟩ := findStep_spec expr itype hinv nd hfresh hself
    have hv : ∀ n, st'.valuesFor (getScope expr nd).scopePath n =
        st.valuesFor (getScope expr nd).scopePath n ++
          List.replicate ((getPropVal st.heap nd.toElement).props.count n)
            (getPropVal st.heap nd.toElement).val := by
      intro n
      rw [hvals]
      simp [contribution, hok, hsc]
    refine ⟨st', hstep, hv, ?_⟩
    intro n hn
    rw [hv]
    apply List.mem_append_right
    rw [List.mem_replicate]
    exact ⟨Nat.ne_of_gt (List.count_pos_iff.2 hn), rfl⟩

/-- The sample of C8: `<span itemprop="a b" content="v">` under a scope `S` has the names
`a` and `b`, and after the iteration `S` holds the plain value `v` under both. -/
theorem getPropVal_names_witness :
    (getPropVal [] spanAB.toElement).props = ["a", "b"] ∧
    (getScope allScopePath spanAB).scopePath = "/html/body/div" ∧
    ∃ st', findStep allScopePath "" State.init spanAB = .ok st' ∧
      st'.valuesFor "/html/body/div" "a" = [.plainData "v"] ∧
      st'.valuesFor "/html/body/div" "b" = [.plainData "v"] := by
  obtain ⟨st', hstep, hv, _⟩ := (getPropVal_names [] spanAB).2.2.2 allScopePath ""
    State.init State.Inv.init rfl (by decide) (by decide) (by decide) (by decide)
  refine ⟨by decide, by decide, st', hstep, ?_, ?_⟩
  · rw [show "/html/body/div" = (getScope allScopePath spanAB).scopePath by decide, hv]
    decide
  · rw [show "/html/body/div" = (getScope allScopePath spanAB).scopePath by decide, hv]
    decide


/-- C5: when the ancestors (document order, outermost first) that satisfy the filter end
with `inner` (every ancestor after `inner` fails the filter), `getScope` returns the path
and declared type of `inner`; an iteration of `find` appends the element's value to the
item of `inner` and leaves the values of every other scope path, the outer scopes
included, as they were. -/
theorem getScope_innermost (expr : Expression) (nd : XmlNode) (before after : List Element)
    (inner : Element) (hanc : nd.ancestors = .ok (before ++ inner :: after))
    (hin : expr.test inner = true) (hafter : ∀ a ∈ after, expr.test a = false) :
    getScope expr nd =
      { scopePath := inner.path, scopeType := declaredType inner, ok := true } ∧
    ∀ (itype : String) (st : State), st.Inv → nd.path ∉ st.keys →
      nd.path ∉ ancestorPaths nd → (getPropVal st.heap nd.toElement).ok = true →
      ∃ st', findStep expr itype st nd = .ok st' ∧
        (∀ n, st'.valuesFor inner.path n =
          st.valuesFor inner.path n ++
            List.replicate ((getPropVal st.heap nd.toElement).props.count n)
              (getPropVal st.heap nd.toElement).val) ∧
        (∀ P, P ≠ inner.path → ∀ n, st'.valuesFor P n = st.valuesFor P n) := by
  have hsc := getScope_of_split expr nd before after inner hanc hin hafter
  refine ⟨hsc, ?_⟩
  intro itype st hinv hfresh hself hok
  have := findStep_attach expr itype hinv nd hfresh hself hok (by rw [hsc])
  rw [hsc] at this
  exact this

/-- The sample of C5: with `outer[type=A] > inner[type=A] > propX`, the resolver for type
`A` returns `inner`, and `Find("A")` yields one item, registered for `inner`, holding
`propX`; nothing is registered for `outer`. -/
theorem getScope_innermost_witness :
    getScope (scopeSearchTmpl "A") propXinAA =
      { scopePath := "/html/body/div/div", scopeType := "A", ok := true } ∧
    (∃ st', findStep (scopeSearchTmpl "A") "A" State.init propXinAA = .ok st' ∧
      (∀ n, st'.valuesFor "/html/body/div/div" n =
        State.init.valuesFor "/html/body/div/div" n ++
          List.replicate ((getPropVal [] propXinAA.toElement).props.count n)
            (getPropVal [] propXinAA.toElement).val) ∧
      (∀ P, P ≠ "/html/body/div/div" → ∀ n, st'.valuesFor P n = State.init.valuesFor P n)) ∧
    (rootOver [propXinAA]).Find "A" =
      .ok { found := [0], items := [("/html/body/div/div", 0)],
            heap := [{ itemType := "A", properties := [("propX", [.plainData "x"])] }] } :=
  have h := getScope_innermost (scopeSearchTmpl "A") propXinAA (ancestorsAA.take 3) []
    { name := "div", attributes := [("itemscope", ""), ("itemtype", "A")], content := "x",
      path := "/html/body/div/div" } rfl (by decide) (by intro a ha; cases ha)
  ⟨h.1, h.2 "A" State.init State.Inv.init (by decide) (by decide) (by decide), by rfl⟩

/-- For a type `T` without a double quote, `Find(T)` resolves a property element to the
nearest ancestor that carries `itemscope` and whose `itemtype` equals `T` (every ancestor
after it lacks `itemscope` or has another or no type), and an iteration appends the
element's value to that scope's item and to no other; when no ancestor carries `itemscope`
with `itemtype` equal to `T`, the element is skipped: found list and items map stay as they
are and no stored value changes. -/
theorem Find_nearest_of_type (T : String) (hq : '"' ∉ T.toList) (nd : XmlNode) :
    (∀ (before after : List Element) (s : Element),
      nd.ancestors = .ok (before ++ s :: after) →
      (s.attributes.lookup "itemscope").isSome = true →
      s.attributes.lookup "itemtype" = some T →
      (∀ a ∈ after, (a.attributes.lookup "itemscope").isSome = false ∨
        a.attributes.lookup "itemtype" ≠ some T) →
      getScope (scopeSearchTmpl T) nd = { scopePath := s.path, scopeType := T, ok := true } ∧
      ∀ (st : State), st.Inv → nd.path ∉ st.keys → nd.path ∉ ancestorPaths nd →
        (getPropVal st.heap nd.toElement).ok = true →
        ∃ st', findStep (scopeSearchTmpl T) T st nd = .ok st' ∧
          (∀ n, st'.valuesFor s.path n =
            st.valuesFor s.path n ++
              List.replicate ((getPropVal st.heap nd.toElement).props.count n)
                (getPropVal st.heap nd.toElement).val) ∧
          (∀ P, P ≠ s.path → ∀ n, st'.valuesFor P n = st.valuesFor P n)) ∧
    (∀ (ancs : List Element), nd.ancestors = .ok ancs →
      (∀ a ∈ ancs, (a.attributes.lookup "itemscope").isSome = false ∨
        a.attributes.lookup "itemtype" ≠ some T) →
      (getScope (scopeSearchTmpl T) nd).ok = false ∧
      ∀ (st : State), ∃ st', findStep (scopeSearchTmpl T) T st nd = .ok st' ∧
        st'.found = st.found ∧ st'.items = st.items ∧
        ∀ p n, p < st.heap.length → valuesAt st'.heap p n = valuesAt st.heap p n) := by
  have htest : ∀ a : Element, ((a.attributes.lookup "itemscope").isSome = false ∨
      a.attributes.lookup "itemtype" ≠ some T) → (scopeSearchTmpl T).test a = false := by
    intro a ha
    rcases ha with ha | ha
    · simp [scopeSearchTmpl_test T hq, ha]
    · simp [scopeSearchTmpl_test T hq, ha]
  refine ⟨?_, ?_⟩
  · intro before after s hanc hs ht hafter
    have hin : (scopeSearchTmpl T).test s = true := by
      simp [scopeSearchTmpl_test T hq, hs, ht]
    have hsc := getScope_of_split (scopeSearchTmpl T) nd before after s hanc hin
      (fun a ha => htest a (hafter a ha))
    have hty : declaredType s = T := by simp [declaredType, getAttr, ht]
    rw [hty] at hsc
    refine ⟨hsc, ?_⟩
    intro st hinv hfresh hself hok
    have := findStep_attach (scopeSearchTmpl T) T hinv nd hfresh hself hok (by rw [hsc])
    rw [hsc] at this
    exact this
  · intro ancs hanc hnone
    have hsc := getScope_of_none (scopeSearchTmpl T) nd ancs hanc
      (fun a ha => htest a (hnone a ha))
    exact ⟨hsc, fun st => findStep_skip (scopeSearchTmpl T) T st nd hsc⟩

/-- With `outer[type=A] > mid[type=B] > propX`, the resolver for type `A` passes over `mid`
and returns `outer`; `Find("A")` attaches `propX` to `outer`, and `Find("C")` skips the
element. -/
theorem Find_nearest_of_type_witness :
    getScope (scopeSearchTmpl "A") propXinAB =
      { scopePath := "/html/body/div", scopeType := "A", ok := true } ∧
    (∃ st', findStep (scopeSearchTmpl "A") "A" State.init propXinAB = .ok st' ∧
      (∀ n, st'.valuesFor "/html/body/div" n =
        State.init.valuesFor "/html/body/div" n ++
          List.replicate ((getPropVal [] propXinAB.toElement).props.count n)
            (getPropVal [] propXinAB.toElement).val) ∧
      (∀ P, P ≠ "/html/body/div" → ∀ n, st'.valuesFor P n = State.init.valuesFor P n)) ∧
    (getScope (scopeSearchTmpl "C") propXinAB).ok = false ∧
    (rootOver [propXinAB]).Find "A" =
      .ok { found := [0], items := [("/html/body/div", 0)],
            heap := [{ itemType := "A", properties := [("propX", [.plainData "x"])] }] } ∧
    (rootOver [propXinAB]).Find "C" = .ok { found := [], items := [], heap := [] } :=
  have h := (Find_nearest_of_type "A" (by decide) propXinAB).1 (ancestorsAB.take 2)
    (ancestorsAB.drop 3)
    { name := "div", attributes := [("itemscope", ""), ("itemtype", "A")], content := "x",
      path := "/html/body/div" } rfl (by decide) (by decide) (by decide)
  have h2 := (Find_nearest_of_type "C" (by decide) propXinAB).2 ancestorsAB rfl (by decide)
  ⟨h.1, h.2 State.init State.Inv.init (by decide) (by decide) (by decide), h2.1,
    by rfl, by rfl⟩


/-- C7 at a failing input: in `<div itemscope><span itemprop="name">Ada</span></div>` the
property is valid and its nearest ancestor carrying `itemscope` is the `div`, which declares
no `itemtype`; `FindAll` returns no item at all, so the property is attached to no item of
empty type. -/
theorem FindAll_untyped_scope_unattached :
    (∃ nd ancs, (ParseXmlNode docUntyped).propNodes = .ok [nd] ∧
      readerOk nd.toElement = true ∧ nd.ancestors = .ok ancs ∧
      ∃ sc ∈ ancs.getLast?, (sc.attributes.lookup "itemscope").isSome = true ∧
        sc.attributes.lookup "itemtype" = none) ∧
    (ParseXmlNode docUntyped).FindAll = .ok { found := [], items := [], heap := [] } ∧
    ¬ ∃ st ptr, (ParseXmlNode docUntyped).FindAll = .ok st ∧ ptr ∈ st.found ∧
        typeAt st.heap ptr = "" ∧ Property.plainData "Ada" ∈ valuesAt st.heap ptr "name" := by
  refine ⟨⟨_, _, rfl, by decide, rfl, _, rfl, by decide, by decide⟩, by rfl, ?_⟩
  rintro ⟨st, ptr, hst, hptr, -⟩
  have h : (ParseXmlNode docUntyped).FindAll = .ok { found := [], items := [], heap := [] } := by
    rfl
  rw [h] at hst
  cases hst
  cases hptr

/-- What `FindAll` does: it resolves a property element to its nearest ancestor that carries
both `itemscope` and `itemtype`, whatever the value of that type; ancestors carrying
`itemscope` without `itemtype` are passed over.  An iteration appends the element's value
to that scope's item and to no other, and an item newly created for the scope has the
ancestor's `itemtype` as its type.  When no ancestor carries both attributes the element is
skipped. -/
theorem FindAll_nearest_typed_scope (nd : XmlNode) :
    (∀ (before after : List Element) (s : Element) (t : String),
      nd.ancestors = .ok (before ++ s :: after) →
      (s.attributes.lookup "itemscope").isSome = true →
      s.attributes.lookup "itemtype" = some t →
      (∀ a ∈ after, (a.attributes.lookup "itemscope").isSome = false ∨
        a.attributes.lookup "itemtype" = none) →
      getScope allScopePath nd = { scopePath := s.path, scopeType := t, ok := true } ∧
      ∀ (st : State), st.Inv → nd.path ∉ st.keys → nd.path ∉ ancestorPaths nd →
        (getPropVal st.heap nd.toElement).ok = true →
        ∃ st', findStep allScopePath "" st nd = .ok st' ∧
          (∀ n, st'.valuesFor s.path n =
            st.valuesFor s.path n ++
              List.replicate ((getPropVal st.heap nd.toElement).props.count n)
                (getPropVal st.heap nd.toElement).val) ∧
          (∀ P, P ≠ s.path → ∀ n, st'.valuesFor P n = st.valuesFor P n) ∧
          (st.items.lookup s.path = none →
            ∃ ptr, st'.items.lookup s.path = some ptr ∧ ptr ∈ st'.found ∧
              ptr ∉ st.found ∧ typeAt st'.heap ptr = t)) ∧
    (∀ (ancs : List Element), nd.ancestors = .ok ancs →
      (∀ a ∈ ancs, (a.attributes.lookup "itemscope").isSome = false ∨
        a.attributes.lookup "itemtype" = none) →
      (getScope allScopePath nd).ok = false ∧
      ∀ (st : State), ∃ st', findStep allScopePath "" st nd = .ok st' ∧
        st'.found = st.found ∧ st'.items = st.items ∧
        ∀ p n, p < st.heap.length → valuesAt st'.heap p n = valuesAt st.heap p n) := by
  have htest : ∀ a : Element, ((a.attributes.lookup "itemscope").isSome = false ∨
      a.attributes.lookup "itemtype" = none) → allScopePath.test a = false := by
    intro a ha
    rcases ha with ha | ha
    · simp [allScopePath_test, ha]
    · simp [allScopePath_test, ha]
  refine ⟨?_, ?_⟩
  · intro before after s t hanc hs ht hafter
    have hin : allScopePath.test s = true := by
      simp [allScopePath_test, hs, ht]
    have hsc := getScope_of_split allScopePath nd before after s hanc hin
      (fun a ha => htest a (hafter a ha))
    have hty : declaredType s = t := by simp [declaredType, getAttr, ht]
    rw [hty] at hsc
    refine ⟨hsc, ?_⟩
    intro st hinv hfresh hself hok
    obtain ⟨st', hstep, hv1, hv2⟩ :=
      findStep_attach allScopePath "" hinv nd hfresh hself hok (by rw [hsc])
    rw [hsc] at hv1 hv2
    refine ⟨st', hstep, hv1, hv2, ?_⟩
    intro hnone
    obtain ⟨st2, ptr, hstep2, hl, hty2, hm, hnm, _⟩ :=
      findStep_new_scope allScopePath "" hinv nd hself hok (by rw [hsc]) (by rw [hsc]; exact hnone)
    rw [hstep] at hstep2
    cases hstep2
    rw [hsc] at hl hty2
    exact ⟨ptr, hl, hm, hnm, hty2⟩
  · intro ancs hanc hnone
    have hsc := getScope_of_none allScopePath nd ancs hanc
      (fun a ha => htest a (hnone a ha))
    exact ⟨hsc, fun st => findStep_skip allScopePath "" st nd hsc⟩

/-- Below `outer[itemscope itemtype=Person] > mid[itemscope]` the property resolves to
`outer`; `FindAll` creates one item, of type `Person`, for the
path of `outer`, and it holds the property. -/
theorem FindAll_nearest_typed_scope_witness :
    getScope allScopePath spanUnderUntyped =
      { scopePath := "/html/body/div", scopeType := "Person", ok := true } ∧
    (∃ st', findStep allScopePath "" State.init spanUnderUntyped = .ok st' ∧
      (∀ n, st'.valuesFor "/html/body/div" n =
        State.init.valuesFor "/html/body/div" n ++
          List.replicate ((getPropVal [] spanUnderUntyped.toElement).props.count n)
            (getPropVal [] spanUnderUntyped.toElement).val) ∧
      (∀ P, P ≠ "/html/body/div" → ∀ n, st'.valuesFor P n = State.init.valuesFor P n) ∧
      (State.init.items.lookup "/html/body/div" = none →
        ∃ ptr, st'.items.lookup "/html/body/div" = some ptr ∧ ptr ∈ st'.found ∧
          ptr ∉ State.init.found ∧ typeAt st'.heap ptr = "Person")) ∧
    (rootOver [spanUnderUntyped]).FindAll =
      .ok { found := [0], items := [("/html/body/div", 0)],
            heap := [{ itemType := "Person", properties := [("name", [.plainData "Ada"])] }] } :=
  have h := (FindAll_nearest_typed_scope spanUnderUntyped).1
    [{ name := "html", attributes := [], content := "Ada", path := "/html" },
     { name := "body", attributes := [], content := "Ada", path := "/html/body" }]
    [{ name := "div", attributes := [("itemscope", "")], content := "Ada",
       path := "/html/body/div/div" }]
    { name := "div", attributes := [("itemscope", ""), ("itemtype", "Person")],
      content := "Ada", path := "/html/body/div" } "Person" rfl (by decide) (by decide)
    (by decide)
  ⟨h.1, h.2 State.init State.Inv.init (by decide) (by decide) (by decide), by rfl⟩


/-- C4, as stated, fails: in `<div itemscope itemtype="Person"><span itemprop="worksFor"
itemscope itemtype="Org"></span></div>` only the `div` has a valid property resolving to
it, yet `FindAll` returns two items; the second is the item of the `span`, a scope to
which no property resolves. -/
theorem FindAll_length_counterexample :
    (resolvedScopes allScopePath (propNodesOf (ParseXmlNode docOrgOnly))).length = 1 ∧
    (∃ st, (ParseXmlNode docOrgOnly).FindAll = .ok st ∧ st.found.length = 2 ∧
      typeAt st.heap (st.found.getD 1 0) = "Org" ∧
      st.items.lookup (encodePath [0, 0, 0]) = some (st.found.getD 1 0) ∧
      encodePath [0, 0, 0] ∉ resolvedScopes allScopePath (propNodesOf (ParseXmlNode docOrgOnly))) ∧
    ¬ ∀ st, (ParseXmlNode docOrgOnly).FindAll = .ok st →
        st.found.length =
          (resolvedScopes allScopePath (propNodesOf (ParseXmlNode docOrgOnly))).length := by
  have h : (ParseXmlNode docOrgOnly).FindAll =
      .ok { found := [1, 0], items := [(encodePath [0, 0], 1), (encodePath [0, 0, 0], 0)],
            heap := [{ itemType := "Org", properties := [] },
                     { itemType := "Person", properties := [("worksFor", [.item 0])] }] } := by
    rfl
  refine ⟨by decide, ⟨_, h, by decide, by decide, by decide, by decide⟩, ?_⟩
  intro hall
  have := hall _ h
  revert this
  decide

/-- C4, amended: for a search root whose property elements come in document order and
among which no scope-opening element declares the type `"Text"`, `FindAll` does not fail,
and the length of the list it returns is the number of distinct paths of elements that
have a valid property resolving to them or are themselves valid scope-opening properties
resolving to an enclosing scope; a path has an item exactly when it is one of these. -/
theorem FindAll_length (node : Node) (nodes : List XmlNode)
    (hsearch : node.propNodes = .ok nodes) (hdoc : DocOrder nodes)
    (hnoText : ∀ nd ∈ nodes, opensScope nd.toElement = true →
      declaredType nd.toElement ≠ "Text") :
    ∃ st, node.FindAll = .ok st ∧
      st.found.length = (listedPaths allScopePath nodes).length ∧
      ∀ P, (∃ ptr, st.items.lookup P = some ptr ∧ ptr ∈ st.found) ↔
        P ∈ listedPaths allScopePath nodes := by
  obtain ⟨st, hloop, hinv, _, hkeys, _⟩ :=
    findLoop_spec allScopePath "" nodes State.Inv.init (by intro nd _ h; cases h) hdoc
  have hnew : ∀ nd ∈ nodes, newKeys allScopePath "" nd = listedBy allScopePath nd := by
    intro nd hnd
    have hsurf : surfaces "" nd.toElement = opensScope nd.toElement := by
      cases hos : opensScope nd.toElement
      · simp [surfaces, hos]
      · simp [surfaces, hos, hnoText nd hnd hos]
    simp only [newKeys, listedBy, hsurf]
  have hmem : ∀ P, P ∈ st.keys ↔ P ∈ listedPaths allScopePath nodes := by
    intro P
    rw [hkeys]
    simp only [listedPaths, List.mem_dedup, List.mem_flatMap, State.keys, State.init,
      List.map_nil, List.not_mem_nil, false_or]
    constructor
    · rintro ⟨nd, hnd, hP⟩
      exact ⟨nd, hnd, hnew nd hnd ▸ hP⟩
    · rintro ⟨nd, hnd, hP⟩
      exact ⟨nd, hnd, (hnew nd hnd).symm ▸ hP⟩
  refine ⟨st, by simp only [Node.FindAll, Node.find, hsearch]; exact hloop, ?_, ?_⟩
  · rw [hinv.found_length]
    exact ((List.perm_ext_iff_of_nodup hinv.keys_nodup (List.nodup_dedup _)).2 hmem).length_eq
  · intro P
    rw [← hmem]
    constructor
    · rintro ⟨ptr, hl, _⟩
      exact List.mem_map.2 ⟨(P, ptr), lookup_mem _ _ _ hl, rfl⟩
    · intro hP
      obtain ⟨⟨Q, ptr⟩, hin, hQ⟩ := List.mem_map.1 hP
      simp only at hQ
      subst hQ
      refine ⟨ptr, lookup_of_mem _ _ _ hinv.keys_nodup hin, ?_⟩
      rw [← hinv.found_eq]
      exact List.mem_map.2 ⟨(Q, ptr), hin, rfl⟩

/-- The amended C4 at the sample document `docPerson`: two paths qualify, the person and
the nested organisation, and `FindAll` returns two items. -/
theorem FindAll_length_witness :
    (ParseXmlNode docPerson).propNodes = .ok (propNodesOf (ParseXmlNode docPerson)) ∧
    DocOrder (propNodesOf (ParseXmlNode docPerson)) ∧
    (∀ nd ∈ propNodesOf (ParseXmlNode docPerson), opensScope nd.toElement = true →
      declaredType nd.toElement ≠ "Text") ∧
    (listedPaths allScopePath (propNodesOf (ParseXmlNode docPerson))).length = 2 ∧
    ∃ st, (ParseXmlNode docPerson).FindAll = .ok st ∧
      st.found.length = (listedPaths allScopePath (propNodesOf (ParseXmlNode docPerson))).length ∧
      ∀ P, (∃ ptr, st.items.lookup P = some ptr ∧ ptr ∈ st.found) ↔
        P ∈ listedPaths allScopePath (propNodesOf (ParseXmlNode docPerson)) :=
  ⟨rfl, by decide, by decide, by decide,
    FindAll_length (ParseXmlNode docPerson) _ rfl (by decide) (by decide)⟩


/-- C3 at a failing input: in `docTextScope` the property `worksFor` carries `itemprop` and
`itemscope`, declares the type `"Text"` and resolves to the enclosing person.  `FindAll`
stores the nested item (address 0) in the person's property map, but the item the list
holds for the span's path is another instance (address 2), created when the inner property
`name` was visited; the nested item itself is not in the list and never receives `name`. -/
theorem FindAll_nested_Text_item :
    (ParseXmlNode docTextScope).FindAll =
      .ok { found := [1, 2],
            items := [(encodePath [0, 0], 1), (encodePath [0, 0, 0], 2)],
            heap := [{ itemType := "Text", properties := [] },
                     { itemType := "Person", properties := [("worksFor", [.item 0])] },
                     { itemType := "Text", properties := [("name", [.plainData "x"])] }] } ∧
    ∃ st, (ParseXmlNode docTextScope).FindAll = .ok st ∧
      valuesAt st.heap 1 "worksFor" = [.item 0] ∧ 0 ∉ st.found ∧
      st.items.lookup (encodePath [0, 0, 0]) = some 2 ∧
      valuesAt st.heap 2 "name" = [.plainData "x"] ∧ valuesAt st.heap 0 "name" = [] := by
  have h : (ParseXmlNode docTextScope).FindAll =
      .ok { found := [1, 2],
            items := [(encodePath [0, 0], 1), (encodePath [0, 0, 0], 2)],
            heap := [{ itemType := "Text", properties := [] },
                     { itemType := "Person", properties := [("worksFor", [.item 0])] },
                     { itemType := "Text", properties := [("name", [.plainData "x"])] }] } := by
    rfl
  exact ⟨h, _, h, by decide, by decide, by decide, by decide, by decide⟩

/-- C13: when the search for the property elements fails, `find` (hence `FindAll` and
`Find`) returns exactly that failure and no state, so no item list; when that search
succeeds, `find` returns a result and no failure, whatever the elements are. -/
theorem find_failure_iff (node : Node) (expr : Expression) (itype : String) :
    (∀ msg, node.propNodes = .error msg →
      node.find expr itype = .error (.query msg) ∧ node.FindAll = .error (.query msg) ∧
        ∀ T, node.Find T = .error (.query msg)) ∧
    (∀ nodes, node.propNodes = .ok nodes →
      (∃ st, node.find expr itype = .ok st) ∧ (∃ st, node.FindAll = .ok st) ∧
        ∀ T, ∃ st, node.Find T = .ok st) := by
  refine ⟨?_, ?_⟩
  · intro msg h
    simp [Node.find, Node.FindAll, Node.Find, h]
  · intro nodes h
    refine ⟨?_, ?_, ?_⟩
    · simpa [Node.find, h] using findLoop_ok expr itype nodes _
    · simpa [Node.FindAll, Node.find, h] using findLoop_ok allScopePath "" nodes _
    · intro T
      simpa [Node.Find, Node.find, h] using findLoop_ok (scopeSearchTmpl T) T nodes _

/-- The two cases of C13 at a root whose search fails with `"fault"` and at the document
`docPerson`. -/
theorem find_failure_iff_witness :
    ((rootFailing "fault").find allScopePath "" = .error (.query "fault") ∧
      (rootFailing "fault").FindAll = .error (.query "fault") ∧
      ∀ T, (rootFailing "fault").Find T = .error (.query "fault")) ∧
    ((∃ st, (ParseXmlNode docPerson).find allScopePath "" = .ok st) ∧
      (∃ st, (ParseXmlNode docPerson).FindAll = .ok st) ∧
      ∀ T, ∃ st, (ParseXmlNode docPerson).Find T = .ok st) :=
  ⟨(find_failure_iff (rootFailing "fault") allScopePath "").1 "fault" rfl,
   (find_failure_iff (ParseXmlNode docPerson) allScopePath "").2 _ rfl⟩

/-- C16: for a property element that carries `itemscope`, whatever its name, `getPropVal`
succeeds and returns a pointer to a newly allocated item (the address was unused before,
the rest of the memory is untouched) whose type is the `itemtype` attribute, or the empty
string when the attribute is absent, and whose property map is empty; `src`, `href` and
`content` play no part, so the value is an item and never plain data. -/
theorem getPropVal_scope_item (heap : Heap) (nd : Element) (v : String)
    (hs : nd.attributes.lookup "itemscope" = some v) :
    (getPropVal heap nd).ok = true ∧
    (getPropVal heap nd).val = .item heap.length ∧
    (∀ s, (getPropVal heap nd).val ≠ .plainData s) ∧
    (getPropVal heap nd).heap =
      heap ++ [{ itemType := (nd.attributes.lookup "itemtype").getD "", properties := [] }] ∧
    typeAt (getPropVal heap nd).heap heap.length = (nd.attributes.lookup "itemtype").getD "" ∧
    (∀ n, valuesAt (getPropVal heap nd).heap heap.length n = []) ∧
    (∀ p, p < heap.length → (getPropVal heap nd).heap[p]? = heap[p]?) := by
  have hs2 : (getAttr nd.attributes "itemscope").2 = true := by simp [getAttr, hs]
  obtain ⟨hval, hok, hheap⟩ := getPropVal_of_scope heap nd hs2
  have hty : (getAttr nd.attributes "itemtype").1 = (nd.attributes.lookup "itemtype").getD "" := by
    cases h : nd.attributes.lookup "itemtype" <;> simp [getAttr, h]
  rw [hty] at hheap
  refine ⟨hok, hval, ?_, hheap, ?_, ?_, ?_⟩
  · intro s; rw [hval]; simp
  · rw [hheap, typeAt_append_length]
  · intro n; rw [hheap, valuesAt_append_length]; rfl
  · intro p hp; rw [hheap, List.getElem?_append_left hp]

/-- The samples of C16: `<img itemprop="logo" itemscope itemtype="Org">` without `src`
yields an item of type `Org`, and `<a itemprop="home" itemscope>` without `href` and
without `itemtype` yields an item of empty type. -/
theorem getPropVal_scope_item_witness :
    ((getPropVal [] imgScope).ok = true ∧ (getPropVal [] imgScope).val = .item 0 ∧
      typeAt (getPropVal [] imgScope).heap 0 = "Org") ∧
    ((getPropVal [] aScope).ok = true ∧ (getPropVal [] aScope).val = .item 0 ∧
      typeAt (getPropVal [] aScope).heap 0 = "") :=
  have h1 := getPropVal_scope_item [] imgScope "" (by decide)
  have h2 := getPropVal_scope_item [] aScope "" (by decide)
  ⟨⟨h1.1, h1.2.1, h1.2.2.2.2.1⟩, ⟨h2.1, h2.2.1, h2.2.2.2.2.1⟩⟩

/-- For every non-empty type string `T` without a double quote and every sequence of
property elements, `Find(T)` returns a result, and every item of the returned list is
allocated and has declared type exactly `T`, whether it was created for a resolved scope or
surfaced as the nested value of a property. -/
theorem Find_items_have_type (node : Node) (T : String) (nodes : List XmlNode)
    (hT : T ≠ "") (hq : '"' ∉ T.toList) (hsearch : node.propNodes = .ok nodes) :
    ∃ st, node.Find T = .ok st ∧
      ∀ ptr ∈ st.found, ptr < st.heap.length ∧ typeAt st.heap ptr = T := by
  obtain ⟨st, hst⟩ := findLoop_ok (scopeSearchTmpl T) T nodes State.init
  refine ⟨st, by simp only [Node.Find, Node.find, hsearch]; exact hst, ?_⟩
  refine findLoop_foundTyped (scopeSearchTmpl T) T T nodes ?_ ?_ State.init st ?_ hst
  · intro nd _ hok
    exact getScope_typed_type T hq nd hok
  · intro nd _ hsurf
    simp only [surfaces, Bool.and_eq_true, Bool.or_eq_true, beq_iff_eq] at hsurf
    rcases hsurf.2.2 with h | h
    · exact absurd h hT
    · exact h
  · intro q hq
    cases hq

/-- At the document `docTwoNested` and the type `A`: the list holds the outer item and the
nested item of type `A`, and not the nested item of type `B`. -/
theorem Find_items_have_type_witness :
    (∃ st, (ParseXmlNode docTwoNested).Find "A" = .ok st ∧
      ∀ ptr ∈ st.found, ptr < st.heap.length ∧ typeAt st.heap ptr = "A") ∧
    ∃ st, (ParseXmlNode docTwoNested).Find "A" = .ok st ∧ st.found.length = 2 :=
  ⟨Find_items_have_type (ParseXmlNode docTwoNested) "A" _ (by decide) (by decide) rfl,
   ⟨_, rfl, by decide⟩⟩

/-- C17 at failing inputs: a property element that opens a scope of declared type `"Text"`
and resolves to an enclosing scope.  Under `FindAll` (`docTextLeaf`) and under
`Find("Text")` with an enclosing scope of type `"Text"` (`docTextInText`) the nested item
(address 0) is stored in the enclosing item's property map, but it is neither registered
under the element's own path nor appended to the list, which holds the enclosing item
only.  With the type `"Org"` in the same place (`docOrgOnly`) the nested item is
registered and listed. -/
theorem nested_Text_item_not_surfaced :
    (ParseXmlNode docTextLeaf).FindAll =
      .ok { found := [1], items := [(encodePath [0, 0], 1)],
            heap := [{ itemType := "Text", properties := [] },
                     { itemType := "Person", properties := [("worksFor", [.item 0])] }] } ∧
    (ParseXmlNode docTextInText).Find "Text" =
      .ok { found := [1], items := [(encodePath [0, 0], 1)],
            heap := [{ itemType := "Text", properties := [] },
                     { itemType := "Text", properties := [("part", [.item 0])] }] } ∧
    (ParseXmlNode docOrgOnly).FindAll =
      .ok { found := [1, 0], items := [(encodePath [0, 0], 1), (encodePath [0, 0, 0], 0)],
            heap := [{ itemType := "Org", properties := [] },
                     { itemType := "Person", properties := [("worksFor", [.item 0])] }] } ∧
    (∃ nd, propNodesOf (ParseXmlNode docTextLeaf) = [nd] ∧
      opensScope nd.toElement = true ∧ declaredType nd.toElement = "Text" ∧
      (getScope allScopePath nd).ok = true ∧ nd.path = encodePath [0, 0, 0] ∧
      surfaces "" nd.toElement = false) := by
  refine ⟨by rfl, by rfl, by rfl, _, rfl, by decide, by decide, by decide, by decide,
    by decide⟩

/-- C15: in a pass of `find` over property elements in document order, the paths are
registered, and their items listed, in the order of first encounter: the list of
registered paths is `registered`, the `i`-th item of the returned list is the item of the
`i`-th registered path, and for every property element `nd` the registered paths are those
introduced by the elements before `nd`, then those `nd` introduces, then the later ones.
When `nd` introduces both its enclosing scope and its own nested item, the two are
adjacent, the enclosing scope first.  Nesting depth plays no part. -/
theorem found_in_order_of_first_encounter (node : Node) (expr : Expression) (itype : String)
    (nodes : List XmlNode) (hsearch : node.propNodes = .ok nodes) (hdoc : DocOrder nodes) :
    ∃ st, node.find expr itype = .ok st ∧
      st.items.map Prod.fst = registered expr itype [] nodes ∧
      st.items.map Prod.snd = st.found ∧
      (st.items.map Prod.fst).Nodup ∧
      ∀ pre nd post, nodes = pre ++ nd :: post →
        (∃ later, registered expr itype [] nodes =
          registered expr itype [] pre ++
            (newKeys expr itype nd).filter
              (fun k => decide (k ∉ registered expr itype [] pre)) ++ later) ∧
        (readerOk nd.toElement = true → (getScope expr nd).ok = true →
          surfaces itype nd.toElement = true →
          (getScope expr nd).scopePath ∉ registered expr itype [] pre →
          (newKeys expr itype nd).filter
              (fun k => decide (k ∉ registered expr itype [] pre)) =
            [(getScope expr nd).scopePath, nd.path]) := by
  obtain ⟨st, hloop, hinv, hkeys⟩ :=
    findLoop_keys expr itype nodes State.Inv.init (by intro nd _ h; cases h) hdoc
  refine ⟨st, by simp only [Node.find, hsearch]; exact hloop, hkeys, hinv.found_eq,
    hinv.keys_nodup, ?_⟩
  intro pre nd post hsplit
  subst hsplit
  refine ⟨?_, ?_⟩
  · obtain ⟨later, hl⟩ := registered_prefix expr itype post
      (registered expr itype [] pre ++
        (newKeys expr itype nd).filter (fun k => decide (k ∉ registered expr itype [] pre)))
    refine ⟨later, ?_⟩
    rw [registered_append]
    simp only [registered]
    exact hl
  · intro hok hsc hsurf hnew
    have hself : nd.path ∉ registered expr itype [] pre :=
      not_mem_registered_of_docOrder expr itype hdoc (List.mem_cons_self _ _)
    simp [newKeys, hok, hsc, hsurf, hnew, hself]

/-- The statement of C15 at the document `docInnerFirst`, where moreover the inner scope,
whose property comes first, is listed before the outer scope. -/
theorem found_in_order_of_first_encounter_witness :
    (ParseXmlNode docInnerFirst).propNodes = .ok (propNodesOf (ParseXmlNode docInnerFirst)) ∧
    DocOrder (propNodesOf (ParseXmlNode docInnerFirst)) ∧
    (ParseXmlNode docInnerFirst).FindAll =
      .ok { found := [0, 1],
            items := [(encodePath [0, 0, 0], 0), (encodePath [0, 0], 1)],
            heap := [{ itemType := "B", properties := [("x", [.plainData "1"])] },
                     { itemType := "A", properties := [("y", [.plainData "2"])] }] } ∧
    ∃ st, (ParseXmlNode docInnerFirst).find allScopePath "" = .ok st ∧
      st.items.map Prod.fst =
        registered allScopePath "" [] (propNodesOf (ParseXmlNode docInnerFirst)) ∧
      st.items.map Prod.snd = st.found ∧
      (st.items.map Prod.fst).Nodup ∧
      ∀ pre nd post, propNodesOf (ParseXmlNode docInnerFirst) = pre ++ nd :: post →
        (∃ later, registered allScopePath "" [] (propNodesOf (ParseXmlNode docInnerFirst)) =
          registered allScopePath "" [] pre ++
            (newKeys allScopePath "" nd).filter
              (fun k => decide (k ∉ registered allScopePath "" [] pre)) ++ later) ∧
        (readerOk nd.toElement = true → (getScope allScopePath nd).ok = true →
          surfaces "" nd.toElement = true →
          (getScope allScopePath nd).scopePath ∉ registered allScopePath "" [] pre →
          (newKeys allScopePath "" nd).filter
              (fun k => decide (k ∉ registered allScopePath "" [] pre)) =
            [(getScope allScopePath nd).scopePath, nd.path]) :=
  ⟨rfl, by decide, by rfl,
    found_in_order_of_first_encounter (ParseXmlNode docInnerFirst) allScopePath "" _ rfl
      (by decide)⟩

/-- Let `T` be non-empty and without a double quote, and let `nd` be a property element, met
in a pass of `Find(T)` over elements in document order, that opens a scope of a declared
type other than `T` and resolves to a scope `S` of type `T`.  Its nested item (the address handed
out by the reader) is stored in the property map of the item of `S` under each of its
names; it is not in the returned list and no path is registered for it; when the pass
ends it still has its declared type and an empty property map.  An element with the
attributes of `nd` fails the filter, so a property whose last ancestor passing the filter
is `s` resolves to `s`, and every stored value sequence is the sequence of contributions
of the elements that resolve to its scope. -/
theorem Find_nested_other_type (node : Node) (T : String) (pre post : List XmlNode)
    (nd : XmlNode) (hT : T ≠ "") (hq : '"' ∉ T.toList)
    (hsearch : node.propNodes = .ok (pre ++ nd :: post))
    (hdoc : DocOrder (pre ++ nd :: post)) (hopen : opensScope nd.toElement = true)
    (hty : declaredType nd.toElement ≠ T)
    (hsc : (getScope (scopeSearchTmpl T) nd).ok = true) :
    ∃ st1 st, findLoop (scopeSearchTmpl T) T State.init pre = .ok st1 ∧
      node.Find T = .ok st ∧
      (getPropVal st1.heap nd.toElement).val = .item st1.heap.length ∧
      (∀ n ∈ (getPropVal st1.heap nd.toElement).props,
        Property.item st1.heap.length ∈
          st.valuesFor (getScope (scopeSearchTmpl T) nd).scopePath n) ∧
      (∃ ptr, st.items.lookup (getScope (scopeSearchTmpl T) nd).scopePath = some ptr ∧
        ptr ∈ st.found ∧ typeAt st.heap ptr = T) ∧
      st1.heap.length ∉ st.found ∧
      (∀ k, st.items.lookup k ≠ some st1.heap.length) ∧
      st.heap[st1.heap.length]? =
        some { itemType := declaredType nd.toElement, properties := [] } ∧
      (∀ a : Element, a.attributes = nd.attributes → (scopeSearchTmpl T).test a = false) ∧
      (∀ (m : XmlNode) (before after : List Element) (s : Element),
        m.ancestors = .ok (before ++ s :: after) → (scopeSearchTmpl T).test s = true →
        (∀ a ∈ after, (scopeSearchTmpl T).test a = false) →
        getScope (scopeSearchTmpl T) m = { scopePath := s.path, scopeType := T, ok := true }) ∧
      (∀ P n, st.valuesFor P n =
        expectedValues (scopeSearchTmpl T) T P n State.init (pre ++ nd :: post)) := by
  have hs : (getAttr nd.attributes "itemscope").2 = true := hopen
  have hsurf : surfaces T nd.toElement = false := by
    have h1 : ¬ declaredType nd.toElement = T := hty
    simp [surfaces, hopen, hT, h1]
  obtain ⟨hdpre, hdrest, hcross⟩ := hdoc.split
  obtain ⟨st, hloop, hinv, hvals, _, _⟩ :=
    findLoop_spec (scopeSearchTmpl T) T (pre ++ nd :: post) State.Inv.init
      (by intro m _ h; cases h) hdoc
  obtain ⟨st1, hloop1, hinv1, _, hkeys1, _⟩ :=
    findLoop_spec (scopeSearchTmpl T) T pre State.Inv.init (by intro m _ h; cases h) hdpre
  have hfresh : ∀ m ∈ nd :: post, m.path ∉ st1.keys := by
    intro m hm hmem
    rcases (hkeys1 m.path).1 hmem with h | ⟨a, ha, hk⟩
    · cases h
    · rcases mem_newKeys (scopeSearchTmpl T) T a _ hk with h2 | h2
      · exact (hcross a ha m hm).1 h2
      · exact (hcross a ha m hm).2 h2
  obtain ⟨hval, hok, _⟩ := getPropVal_of_scope st1.heap nd.toElement hs
  obtain ⟨st2, hstep, hinv2, hvals2, hkeys2, _, _⟩ :=
    findStep_spec (scopeSearchTmpl T) T hinv1 nd (hfresh nd (List.mem_cons_self _ _))
      hdrest.head_self
  have hst2 : st2 = attached (scopeSearchTmpl T) st1 nd := by
    rw [findStep_not_surfaces (scopeSearchTmpl T) T st1 nd hok hsc hsurf] at hstep
    cases hstep
    rfl
  obtain ⟨_, _, _, _, _, hitem⟩ := attached_spec (scopeSearchTmpl T) hinv1 nd
  obtain ⟨hlt2, hnf2, _⟩ := hitem hs
  have hget2 := attached_nested_item (scopeSearchTmpl T) hinv1 nd hs
  rw [← hst2] at hlt2 hnf2 hget2
  have hfresh2 : ∀ m ∈ post, m.path ∉ st2.keys := by
    intro m hm hmem
    rw [hkeys2] at hmem
    rcases List.mem_append.1 hmem with h1 | h1
    · exact hfresh m (List.mem_cons_of_mem _ hm) h1
    · rcases mem_newKeys (scopeSearchTmpl T) T nd _ (List.mem_filter.1 h1).1 with h2 | h2
      · exact (hdrest.head_rest hm).1 h2
      · exact (hdrest.head_rest hm).2 h2
  obtain ⟨st3, hloop3, _, hvals3, _, hlook3⟩ :=
    findLoop_spec (scopeSearchTmpl T) T post hinv2 hfresh2 hdrest.tail
  have hst : st3 = st := by
    have h := findLoop_append (scopeSearchTmpl T) T pre (nd :: post) State.init
    rw [hloop, hloop1] at h
    simp only [findLoop, hstep, hloop3] at h
    cases h
    rfl
  subst hst
  obtain ⟨hnf3, hget3⟩ :=
    findLoop_orphan (scopeSearchTmpl T) T post hinv2 hfresh2 hdrest.tail hloop3 _ hlt2 hnf2
  have htyped : st3.FoundTyped T := by
    refine findLoop_foundTyped (scopeSearchTmpl T) T T (pre ++ nd :: post) ?_ ?_
      State.init st3 ?_ hloop
    · intro m _ hmok
      exact getScope_typed_type T hq m hmok
    · intro m _ hms
      simp only [surfaces, Bool.and_eq_true, Bool.or_eq_true, beq_iff_eq] at hms
      rcases hms.2.2 with h | h
      · exact absurd h hT
      · exact h
    · intro q hq0
      cases hq0
  refine ⟨st1, st3, hloop1, by simp only [Node.Find, Node.find, hsearch]; exact hloop, hval,
    ?_, ?_, hnf3, ?_, hget3.trans hget2, ?_, ?_, ?_⟩
  · intro n hn
    rw [hvals3, hvals2]
    apply List.mem_append_left
    apply List.mem_append_right
    simp only [contribution, hok, hsc, Bool.and_self, beq_self_eq_true, if_true, hval]
    rw [List.mem_replicate]
    exact ⟨Nat.ne_of_gt (List.count_pos_iff.2 hn), rfl⟩
  · have hmem2 : (getScope (scopeSearchTmpl T) nd).scopePath ∈ st2.keys := by
      rw [hkeys2]
      by_cases hk : (getScope (scopeSearchTmpl T) nd).scopePath ∈ st1.keys
      · exact List.mem_append_left _ hk
      · apply List.mem_append_right
        simp [newKeys, readerOk_eq st1.heap, hok, hsc, hk]
    obtain ⟨ptr, hptr⟩ := lookup_isSome_of_mem_keys st2 hinv2.keys_nodup _ hmem2
    have hptr3 := hlook3 _ _ hptr
    have hfound : ptr ∈ st3.found := by
      rw [← hinv.found_eq]
      exact List.mem_map.2 ⟨(_, ptr), lookup_mem _ _ _ hptr3, rfl⟩
    exact ⟨ptr, hptr3, hfound, (htyped ptr hfound).2⟩
  · intro k hk
    apply hnf3
    rw [← hinv.found_eq]
    exact List.mem_map.2 ⟨(k, _), lookup_mem _ _ _ hk, rfl⟩
  · intro a ha
    have hne : a.attributes.lookup "itemtype" ≠ some T := by
      intro he
      apply hty
      rw [ha] at he
      simp [declaredType, getAttr, he]
    simp [scopeSearchTmpl_test T hq, hne]
  · intro m before after s hanc hin hafter
    have h := getScope_of_split (scopeSearchTmpl T) m before after s hanc hin hafter
    have hds : declaredType s = T := by
      rw [scopeSearchTmpl_test T hq] at hin
      simp only [Bool.and_eq_true, beq_iff_eq] at hin
      simp [declaredType, getAttr, hin.2]
    rw [hds] at h
    exact h
  · intro P n
    have := hvals P n
    simpa [State.valuesFor, State.init] using this

/-- At the document `docTwoNested` and the type `A`, for the third property element, which
opens a scope of type `B` inside the scope of type `A`. -/
theorem Find_nested_other_type_witness :
    (ParseXmlNode docTwoNested).Find "A" =
      .ok { found := [1, 0], items := [(encodePath [0, 0], 1), (encodePath [0, 0, 0], 0)],
            heap := [{ itemType := "A", properties := [("x", [.plainData "1"])] },
                     { itemType := "A",
                       properties := [("same", [.item 0]), ("other", [.item 2]),
                                      ("y", [.plainData "2"])] },
                     { itemType := "B", properties := [] }] } ∧
    ∃ st1 st,
      findLoop (scopeSearchTmpl "A") "A" State.init
        ((propNodesOf (ParseXmlNode docTwoNested)).take 2) = .ok st1 ∧
      (ParseXmlNode docTwoNested).Find "A" = .ok st ∧
      (getPropVal st1.heap (nthNode (ParseXmlNode docTwoNested) 2).toElement).val =
        .item st1.heap.length ∧
      (∀ n ∈ (getPropVal st1.heap (nthNode (ParseXmlNode docTwoNested) 2).toElement).props,
        Property.item st1.heap.length ∈
          st.valuesFor (getScope (scopeSearchTmpl "A")
            (nthNode (ParseXmlNode docTwoNested) 2)).scopePath n) ∧
      (∃ ptr, st.items.lookup (getScope (scopeSearchTmpl "A")
          (nthNode (ParseXmlNode docTwoNested) 2)).scopePath = some ptr ∧
        ptr ∈ st.found ∧ typeAt st.heap ptr = "A") ∧
      st1.heap.length ∉ st.found ∧
      (∀ k, st.items.lookup k ≠ some st1.heap.length) ∧
      st.heap[st1.heap.length]? =
        some { itemType := declaredType (nthNode (ParseXmlNode docTwoNested) 2).toElement,
               properties := [] } ∧
      (∀ a : Element, a.attributes = (nthNode (ParseXmlNode docTwoNested) 2).attributes →
        (scopeSearchTmpl "A").test a = false) ∧
      (∀ (m : XmlNode) (before after : List Element) (s : Element),
        m.ancestors = .ok (before ++ s :: after) → (scopeSearchTmpl "A").test s = true →
        (∀ a ∈ after, (scopeSearchTmpl "A").test a = false) →
        getScope (scopeSearchTmpl "A") m =
          { scopePath := s.path, scopeType := "A", ok := true }) ∧
      (∀ P n, st.valuesFor P n =
        expectedValues (scopeSearchTmpl "A") "A" P n State.init
          ((propNodesOf (ParseXmlNode docTwoNested)).take 2 ++
            nthNode (ParseXmlNode docTwoNested) 2 ::
              (propNodesOf (ParseXmlNode docTwoNested)).drop 3)) :=
  ⟨by rfl,
    Find_nested_other_type (ParseXmlNode docTwoNested) "A"
      ((propNodesOf (ParseXmlNode docTwoNested)).take 2)
      ((propNodesOf (ParseXmlNode docTwoNested)).drop 3)
      (nthNode (ParseXmlNode docTwoNested) 2) (by decide) (by decide) rfl (by decide)
      (by decide) (by decide) (by decide)⟩

/-- C14: let `nd` be a property element whose resolver reports no match, met after the
elements `pre` and before the elements `post`.  The iteration at `nd` does not fail and
changes neither the list, nor the map, nor any item allocated so far.  When `nd` opens no
scope, the pass over `pre ++ nd :: post` ends in the very state of the pass over
`pre ++ post`.  When `nd` opens a scope, it ends in that state with one more item, the
one the reader made for `nd`, sitting unused at the address `L` it was given: the later
addresses are moved up by one, and otherwise the registered paths, the listed items in
their order, their types and their values are the same; the item of `nd` is not in the
list, is registered under no path, and is still empty. -/
theorem skip_unresolved (expr : Expression) (itype : String) (nodeWith nodeWithout : Node)
    (pre post : List XmlNode) (nd : XmlNode)
    (hwith : nodeWith.propNodes = .ok (pre ++ nd :: post))
    (hwithout : nodeWithout.propNodes = .ok (pre ++ post))
    (hsc : (getScope expr nd).ok = false) :
    ∃ st1 stWith stWithout,
      findLoop expr itype State.init pre = .ok st1 ∧
      nodeWith.find expr itype = .ok stWith ∧
      nodeWithout.find expr itype = .ok stWithout ∧
      (∃ st2, findStep expr itype st1 nd = .ok st2 ∧ st2.found = st1.found ∧
        st2.items = st1.items ∧ ∀ p, p < st1.heap.length → st2.heap[p]? = st1.heap[p]?) ∧
      (opensScope nd.toElement = false → stWith = stWithout) ∧
      (opensScope nd.toElement = true →
        stWith = stWithout.shift st1.heap.length
          { itemType := declaredType nd.toElement, properties := [] } ∧
        stWith.found = stWithout.found.map (shiftPtr st1.heap.length) ∧
        stWith.keys = stWithout.keys ∧
        (∀ P, stWith.items.lookup P =
          (stWithout.items.lookup P).map (shiftPtr st1.heap.length)) ∧
        (∀ q, typeAt stWith.heap (shiftPtr st1.heap.length q) = typeAt stWithout.heap q) ∧
        (∀ q n, valuesAt stWith.heap (shiftPtr st1.heap.length q) n =
          (valuesAt stWithout.heap q n).map (Property.shift st1.heap.length)) ∧
        st1.heap.length ∉ stWith.found ∧
        (∀ k, stWith.items.lookup k ≠ some st1.heap.length) ∧
        stWith.heap[st1.heap.length]? =
          some { itemType := declaredType nd.toElement, properties := [] }) := by
  obtain ⟨st1, hpre⟩ := findLoop_ok expr itype pre State.init
  obtain ⟨stWithout, hpost⟩ := findLoop_ok expr itype post st1
  have hclosed : st1.Closed := findLoop_closed expr itype pre State.closed_init hpre
  have hstep := findStep_unresolved expr itype st1 nd hsc
  have hfindWithout : nodeWithout.find expr itype = .ok stWithout := by
    simp only [Node.find, hwithout]
    have h := findLoop_append expr itype pre post State.init
    rw [show ({ found := [], items := [], heap := [] } : State) = State.init from rfl, h, hpre]
    exact hpost
  have hlenW : st1.heap.length ≤ stWithout.heap.length :=
    findLoop_heap_length expr itype post st1 stWithout hpost
  cases hos : opensScope nd.toElement with
  | false =>
    have hs : (getAttr nd.attributes "itemscope").2 = false := hos
    have hheap := (getPropVal_of_not_scope st1.heap nd.toElement hs).1
    rw [hheap] at hstep
    refine ⟨st1, stWithout, stWithout, hpre, ?_, hfindWithout, ⟨st1, hstep, rfl, rfl,
      fun _ _ => rfl⟩, fun _ => rfl, fun h => by cases h⟩
    simp only [Node.find, hwith]
    have h := findLoop_append expr itype pre (nd :: post) State.init
    rw [show ({ found := [], items := [], heap := [] } : State) = State.init from rfl, h, hpre]
    simp only [findLoop, hstep]
    exact hpost
  | true =>
    have hs : (getAttr nd.attributes "itemscope").2 = true := hos
    have hheap := (getPropVal_of_scope st1.heap nd.toElement hs).2.2
    have hst2 : ({ st1 with heap := (getPropVal st1.heap nd.toElement).heap } : State) =
        st1.shift st1.heap.length
          { itemType := declaredType nd.toElement, properties := [] } := by
      rw [State.shift_of_closed hclosed, hheap]
      rfl
    rw [hst2] at hstep
    have hshift := findLoop_shift expr itype st1.heap.length
      { itemType := declaredType nd.toElement, properties := [] } post st1 stWithout
      (Nat.le_refl _) hpost
    refine ⟨st1, stWithout.shift st1.heap.length
        { itemType := declaredType nd.toElement, properties := [] }, stWithout, hpre, ?_,
      hfindWithout, ⟨_, hstep, ?_, ?_, ?_⟩,
      (fun h => by cases h), fun _ => ⟨rfl, rfl, ?_, ?_, ?_, ?_, ?_, ?_, ?_⟩⟩
    · simp only [Node.find, hwith]
      have h := findLoop_append expr itype pre (nd :: post) State.init
      rw [show ({ found := [], items := [], heap := [] } : State) = State.init from rfl, h,
        hpre]
      simp only [findLoop, hstep]
      exact hshift
    · rw [← hst2]
    · rw [← hst2]
    · intro p hp
      rw [← hst2]
      exact getPropVal_getElem? _ _ _ hp
    · simp [State.keys, State.shift, List.map_map, Function.comp_def]
    · intro P
      exact lookup_shift _ _ _
    · intro q
      exact typeAt_heapInsert _ _ _ hlenW q
    · intro q n
      exact valuesAt_heapInsert _ _ _ hlenW q n
    · intro hm
      simp only [State.shift, List.mem_map] at hm
      obtain ⟨q, _, hq⟩ := hm
      exact shiftPtr_ne _ _ hq
    · intro k hk
      have h := lookup_shift st1.heap.length stWithout.items k
      simp only [State.shift] at hk
      rw [h] at hk
      cases hl : stWithout.items.lookup k with
      | none => rw [hl] at hk; cases hk
      | some q =>
        rw [hl] at hk
        simp only [Option.map_some', Option.some.injEq] at hk
        exact shiftPtr_ne _ _ hk
    · exact heapInsert_getElem?_self _ _ _ hlenW

/-- The statement of C14 at the document `docOrphan` searched with `FindAll`: the first
property element opens a scope and has no scope above it.  With it the pass returns the
items at the addresses 2 and 1, without it those at 1 and 0, of the same types and with
the same values. -/
theorem skip_unresolved_witness :
    (ParseXmlNode docOrphan).FindAll =
      .ok { found := [2, 1], items := [(encodePath [0, 1], 2), (encodePath [0, 1, 0], 1)],
            heap := [{ itemType := "Org", properties := [] },
                     { itemType := "Org", properties := [] },
                     { itemType := "Person", properties := [("worksFor", [.item 1])] }] } ∧
    (rootOver ((propNodesOf (ParseXmlNode docOrphan)).drop 1)).FindAll =
      .ok { found := [1, 0], items := [(encodePath [0, 1], 1), (encodePath [0, 1, 0], 0)],
            heap := [{ itemType := "Org", properties := [] },
                     { itemType := "Person", properties := [("worksFor", [.item 0])] }] } ∧
    ∃ st1 stWith stWithout,
      findLoop allScopePath "" State.init [] = .ok st1 ∧
      (ParseXmlNode docOrphan).find allScopePath "" = .ok stWith ∧
      (rootOver ((propNodesOf (ParseXmlNode docOrphan)).drop 1)).find allScopePath "" =
        .ok stWithout ∧
      (∃ st2, findStep allScopePath "" st1 (nthNode (ParseXmlNode docOrphan) 0) = .ok st2 ∧
        st2.found = st1.found ∧ st2.items = st1.items ∧
        ∀ p, p < st1.heap.length → st2.heap[p]? = st1.heap[p]?) ∧
      (opensScope (nthNode (ParseXmlNode docOrphan) 0).toElement = false →
        stWith = stWithout) ∧
      (opensScope (nthNode (ParseXmlNode docOrphan) 0).toElement = true →
        stWith = stWithout.shift st1.heap.length
          { itemType := declaredType (nthNode (ParseXmlNode docOrphan) 0).toElement,
            properties := [] } ∧
        stWith.found = stWithout.found.map (shiftPtr st1.heap.length) ∧
        stWith.keys = stWithout.keys ∧
        (∀ P, stWith.items.lookup P =
          (stWithout.items.lookup P).map (shiftPtr st1.heap.length)) ∧
        (∀ q, typeAt stWith.heap (shiftPtr st1.heap.length q) = typeAt stWithout.heap q) ∧
        (∀ q n, valuesAt stWith.heap (shiftPtr st1.heap.length q) n =
          (valuesAt stWithout.heap q n).map (Property.shift st1.heap.length)) ∧
        st1.heap.length ∉ stWith.found ∧
        (∀ k, stWith.items.lookup k ≠ some st1.heap.length) ∧
        stWith.heap[st1.heap.length]? =
          some { itemType := declaredType (nthNode (ParseXmlNode docOrphan) 0).toElement,
                 properties := [] }) :=
  ⟨by rfl, by rfl,
    skip_unresolved allScopePath "" (ParseXmlNode docOrphan)
      (rootOver ((propNodesOf (ParseXmlNode docOrphan)).drop 1)) []
      ((propNodesOf (ParseXmlNode docOrphan)).drop 1) (nthNode (ParseXmlNode docOrphan) 0)
      rfl rfl (by decide)⟩

/-- C6 at a failing input: the type string `A" or "1"="1`.  Pasted into the template it
gives the predicate `@itemscope and @itemtype="A" or "1"="1"`, which every element
passes.  In `docQuotedOuter` the property `propX` lies in a scope of type `B` inside a
scope whose type is that very string, so its nearest ancestor of the asked type is the
outer `div`; `Find` attaches `propX` to an item made for the inner `div`, of type `B`, and
registers nothing for the outer one.  In `docTypeB` no ancestor has the asked type, and the
property is attached all the same instead of being skipped. -/
theorem Find_type_with_quote_wrong_scope :
    scopeSearchTmpl typeWithQuote =
      .ancestors (.or (.and (.truth (.attr "itemscope")) (.eq (.attr "itemtype") (.lit "A")))
        (.eq (.lit "1") (.lit "1"))) ∧
    (∀ el : Element, (scopeSearchTmpl typeWithQuote).test el = true) ∧
    (∃ nd, (ParseXmlNode docQuotedOuter).propNodes = .ok [nd] ∧
      readerOk nd.toElement = true ∧
      nd.ancestors = .ok [
        { name := "html", attributes := [], content := "x", path := encodePath [] },
        { name := "body", attributes := [], content := "x", path := encodePath [0] },
        { name := "div", attributes := [("itemscope", ""), ("itemtype", typeWithQuote)],
          content := "x", path := encodePath [0, 0] },
        { name := "div", attributes := [("itemscope", ""), ("itemtype", "B")],
          content := "x", path := encodePath [0, 0, 0] }] ∧
      getScope (scopeSearchTmpl typeWithQuote) nd =
        { scopePath := encodePath [0, 0, 0], scopeType := "B", ok := true }) ∧
    (ParseXmlNode docQuotedOuter).Find typeWithQuote =
      .ok { found := [0], items := [(encodePath [0, 0, 0], 0)],
            heap := [{ itemType := "B", properties := [("propX", [.plainData "x"])] }] } ∧
    (∃ st, (ParseXmlNode docQuotedOuter).Find typeWithQuote = .ok st ∧
      st.items.lookup (encodePath [0, 0]) = none ∧
      st.valuesFor (encodePath [0, 0]) "propX" = [] ∧
      st.valuesFor (encodePath [0, 0, 0]) "propX" = [.plainData "x"]) ∧
    (∃ nd, (ParseXmlNode docTypeB).propNodes = .ok [nd] ∧
      nd.ancestors = .ok [
        { name := "html", attributes := [], content := "1", path := encodePath [] },
        { name := "body", attributes := [], content := "1", path := encodePath [0] },
        { name := "div", attributes := [("itemscope", ""), ("itemtype", "B")],
          content := "1", path := encodePath [0, 0] }] ∧
      getScope (scopeSearchTmpl typeWithQuote) nd =
        { scopePath := encodePath [0, 0], scopeType := "B", ok := true }) ∧
    (∃ st, (ParseXmlNode docTypeB).Find typeWithQuote = .ok st ∧
      st.valuesFor (encodePath [0, 0]) "x" = [.plainData "1"]) := by
  have h : (ParseXmlNode docQuotedOuter).Find typeWithQuote =
      .ok { found := [0], items := [(encodePath [0, 0, 0], 0)],
            heap := [{ itemType := "B", properties := [("propX", [.plainData "x"])] }] } := by
    rfl
  have h2 : (ParseXmlNode docTypeB).Find typeWithQuote =
      .ok { found := [0], items := [(encodePath [0, 0], 0)],
            heap := [{ itemType := "B", properties := [("x", [.plainData "1"])] }] } := by
    rfl
  have he : scopeSearchTmpl typeWithQuote =
      .ancestors (.or (.and (.truth (.attr "itemscope")) (.eq (.attr "itemtype") (.lit "A")))
        (.eq (.lit "1") (.lit "1"))) := by rfl
  refine ⟨he, ?_, ⟨_, rfl, by decide, rfl, by rfl⟩, h, ⟨_, h, by decide, by decide, by decide⟩,
    ⟨_, rfl, rfl, by rfl⟩, ⟨_, h2, by decide⟩⟩
  intro el
  rw [he]
  simp [Expression.test, Pred.eval, Operand.value]

/-- C11 at a failing input: the type string `A" or "1"="1` is not empty, and in `docTypeB`
no element declares it; `Find` with that string returns a list whose one item has the
declared type `B`.  With the type `A` the same document gives the empty list. -/
theorem Find_type_with_quote_lists_other_type :
    typeWithQuote ≠ "" ∧
    (ParseXmlNode docTypeB).Find typeWithQuote =
      .ok { found := [0], items := [(encodePath [0, 0], 0)],
            heap := [{ itemType := "B", properties := [("x", [.plainData "1"])] }] } ∧
    (∃ st ptr, (ParseXmlNode docTypeB).Find typeWithQuote = .ok st ∧ ptr ∈ st.found ∧
      typeAt st.heap ptr = "B" ∧ typeAt st.heap ptr ≠ typeWithQuote) ∧
    (ParseXmlNode docTypeB).Find "A" = .ok { found := [], items := [], heap := [] } := by
  have h : (ParseXmlNode docTypeB).Find typeWithQuote =
      .ok { found := [0], items := [(encodePath [0, 0], 0)],
            heap := [{ itemType := "B", properties := [("x", [.plainData "1"])] }] } := by
    rfl
  exact ⟨by decide, h, ⟨_, 0, h, by decide, by decide, by decide⟩, by rfl⟩

/-- C18 at a failing input: the type string `A" or "1"="1`.  In `docQuotedNested` the
property `p` opens a scope of type `B` and resolves to the enclosing scope `S`, whose type
is the asked string; the property `x` inside `p` has `S` as its nearest ancestor of the
asked type.  `Find` stores the nested item of `p` (address 0) in the item of `S`
(address 1), but it resolves `x` to `p` itself: it makes a further item for the path of `p`
(address 2, type `B`), registers and lists it, and attaches `x` to it; the item of `S` never
receives `x`. -/
theorem Find_type_with_quote_nested_item :
    typeWithQuote ≠ "" ∧
    (∃ p x, (ParseXmlNode docQuotedNested).propNodes = .ok [p, x] ∧ DocOrder [p, x] ∧
      p.path = encodePath [0, 0, 0] ∧ opensScope p.toElement = true ∧
      declaredType p.toElement = "B" ∧ declaredType p.toElement ≠ typeWithQuote ∧
      getScope (scopeSearchTmpl typeWithQuote) p =
        { scopePath := encodePath [0, 0], scopeType := typeWithQuote, ok := true } ∧
      readerOk x.toElement = true ∧
      x.ancestors = .ok [
        { name := "html", attributes := [], content := "1", path := encodePath [] },
        { name := "body", attributes := [], content := "1", path := encodePath [0] },
        { name := "div", attributes := [("itemscope", ""), ("itemtype", typeWithQuote)],
          content := "1", path := encodePath [0, 0] },
        { name := "span",
          attributes := [("itemprop", "p"), ("itemscope", ""), ("itemtype", "B")],
          content := "1", path := encodePath [0, 0, 0] }] ∧
      getScope (scopeSearchTmpl typeWithQuote) x =
        { scopePath := encodePath [0, 0, 0], scopeType := "B", ok := true }) ∧
    (ParseXmlNode docQuotedNested).Find typeWithQuote =
      .ok { found := [1, 2],
            items := [(encodePath [0, 0], 1), (encodePath [0, 0, 0], 2)],
            heap := [{ itemType := "B", properties := [] },
                     { itemType := typeWithQuote, properties := [("p", [.item 0])] },
                     { itemType := "B", properties := [("x", [.plainData "1"])] }] } ∧
    ∃ st, (ParseXmlNode docQuotedNested).Find typeWithQuote = .ok st ∧
      valuesAt st.heap 1 "p" = [.item 0] ∧
      st.items.lookup (encodePath [0, 0, 0]) = some 2 ∧ 2 ∈ st.found ∧
      typeAt st.heap 2 = "B" ∧
      valuesAt st.heap 2 "x" = [.plainData "1"] ∧
      st.valuesFor (encodePath [0, 0]) "x" = [] := by
  have h : (ParseXmlNode docQuotedNested).Find typeWithQuote =
      .ok { found := [1, 2],
            items := [(encodePath [0, 0], 1), (encodePath [0, 0, 0], 2)],
            heap := [{ itemType := "B", properties := [] },
                     { itemType := typeWithQuote, properties := [("p", [.item 0])] },
                     { itemType := "B", properties := [("x", [.plainData "1"])] }] } := by
    rfl
  exact ⟨by decide, ⟨_, _, rfl, by decide, rfl, by decide, by decide, by decide, by rfl,
    by decide, rfl, by rfl⟩, h, _, h, by decide, by decide, by decide, by decide, by decide,
    by decide⟩

end Mcrdata
